import Mathlib

/-!
Verification development for the wordpress-json repository.

The repository has three Python source files:
  * `collect_news.py`   - the collection orchestrator (pagination, dedup,
    incremental persistence, diagnostic sub-pass);
  * `nodriver_helper.py` - browser fetch driver and the JSON content extractor;
  * `normalize_news.py` - the normalizer turning raw WordPress posts into
    canonical article records.

This file shallowly embeds the parts of those programs that the verified
claims are about.  Pure functions become Lean functions; the stateful
collection run becomes explicit state passing over a `RunState`, with the
file-system side effects recorded as an event trace.  Fallible code returns
`Option`/`Except`.
-/

namespace WordpressJson

/-! ## Collector data model (`collect_news.py`)

A raw post is opaque to the collector except for its `id` field
(`post.get('id')` in the source).  `id = none` models a post whose `'id'`
key is absent or `null` (both make `post.get('id')` return `None`);
`id = some 0` models the falsy integer id `0`.  The `tag` field stands for
the rest of the post object, so that two distinct posts may carry the same
id. -/

structure RawPost where
  id : Option Int
  tag : Nat
deriving DecidableEq, Repr

/-- Python truthiness of `post.get('id')`: `None` and `0` are falsy. -/
def truthyId : Option Int → Bool
  | none => false
  | some n => n != 0

/-- Query string parameters of a `/wp-json/wp/v2/posts` request, as built by
`build_domain_urls` / `on_success` (main pass: `after` filter, `per_page=100`,
ascending) and by the diagnostic pass (no `after`, `per_page=10`,
descending). -/
structure Query where
  hasAfter : Bool
  page : Nat
  per_page : Nat
  orderDesc : Bool
deriving DecidableEq, Repr

/-- The main-pass query for a given page (`after=...&page=n&per_page=100&orderby=date&order=asc`). -/
def mainQuery (page : Nat) : Query :=
  { hasAfter := true, page := page, per_page := 100, orderDesc := false }

/-- The diagnostic-pass query (`page=1&per_page=10&orderby=date&order=desc`, no `after`). -/
def testQuery : Query :=
  { hasAfter := false, page := 1, per_page := 10, orderDesc := true }

/-- A work item, i.e. one entry of the `url_metadata` list:
the tuple `(url, domain, page_number)`, with the url abstracted to the
query parameters it encodes. -/
structure WorkItem where
  q : Query
  domain : String
  page_num : Nat
deriving DecidableEq, Repr

/-- `build_domain_urls`: one page-1 work item per domain. -/
def build_domain_urls (domains : List String) : List WorkItem :=
  domains.map (fun d => { q := mainQuery 1, domain := d, page_num := 1 })

/-- Per-domain mutable state, one entry of `domain_data`:
`{"posts": [], "pages_fetched": 0, "status": "pending", "post_ids": set()}`
plus the `error` key that `on_error` may add. -/
structure DomainState where
  posts : List RawPost
  pages_fetched : Nat
  status : String
  post_ids : Finset Int
  error : Option String
deriving DecidableEq

/-- The initial `domain_data` entry. -/
def initDomainState : DomainState :=
  { posts := [], pages_fetched := 0, status := "pending", post_ids := ∅, error := none }

/-- `sanitize_filename` from `nodriver_helper.py`: replace `.`, `/`, `:`
with `_`. -/
def sanitize_filename (text : String) : String :=
  String.mk (text.data.map (fun c =>
    if c = '.' then '_' else if c = '/' then '_' else if c = ':' then '_' else c))

/-- File-system effects of the collection run, in order of occurrence:
a write of a domain output file (`{timestamp_dir}/{sanitize_filename(domain)}.json`,
carrying the full accumulated post list that `json.dump` serializes),
the site-notes file, and the collection summary file. -/
inductive Event where
  | writeDomainFile (domain : String) (posts : List RawPost)
  | writeSiteNotes
  | writeSummary
deriving DecidableEq, Repr

/-- The duplicate-detection loop of `on_success` (`collect_news.py` lines
101-110): partition the fetched array into new posts and duplicates.
Returns `(new_posts, duplicate_count, post_ids')`.  One fold step handles
one `post` of `data`:

    post_id = post.get('id')
    if post_id and post_id not in domain_data[domain]["post_ids"]:
        domain_data[domain]["post_ids"].add(post_id)
        new_posts.append(post)
    elif post_id:
        duplicate_count += 1
-/
def procPost (acc : List RawPost × Nat × Finset Int) (post : RawPost) :
    List RawPost × Nat × Finset Int :=
  let (new_posts, duplicate_count, seen) := acc
  match post.id with
  | some pid =>
      if pid ≠ 0 ∧ pid ∉ seen then
        (new_posts ++ [post], duplicate_count, insert pid seen)
      else if pid ≠ 0 then
        (new_posts, duplicate_count + 1, seen)
      else acc
  | none => acc

/-- Run the duplicate-detection loop over a whole fetched page. -/
def processBatch (seen : Finset Int) (data : List RawPost) :
    List RawPost × Nat × Finset Int :=
  data.foldl procPost ([], 0, seen)

/-- `MAX_PAGES_PER_DOMAIN = 20` (`collect_news.py` line 94). -/
def MAX_PAGES_PER_DOMAIN : Nat := 20

/-- Result of one `on_success` invocation: the updated `domain_data`,
the file-write events it performed, and the work items it appended to
`urls` / `url_metadata`. -/
structure OnSuccessResult where
  dd : String → DomainState
  events : List Event
  appended : List WorkItem

/-- `on_success` (`collect_news.py` lines 96-158) for a batch `data`
fetched for `domain` at page `page_num`:
partition into new/duplicate posts, extend the stored posts with the new
ones, record the page number, rewrite the domain's output file with the
full accumulated list when it is nonempty, and enqueue page `page_num + 1`
iff `len(new_posts) == 100 and duplicate_count == 0 and
page_num < MAX_PAGES_PER_DOMAIN`. -/
def on_success (dd : String → DomainState) (domain : String) (page_num : Nat)
    (data : List RawPost) : OnSuccessResult :=
  let st := dd domain
  let r := processBatch st.post_ids data
  let new_posts := r.1
  let duplicate_count := r.2.1
  let st' : DomainState :=
    { st with posts := st.posts ++ new_posts, post_ids := r.2.2,
              pages_fetched := page_num }
  let events :=
    if st'.posts ≠ [] then [Event.writeDomainFile domain st'.posts] else []
  let should_paginate :=
    new_posts.length = 100 ∧ duplicate_count = 0 ∧ page_num < MAX_PAGES_PER_DOMAIN
  let appended :=
    if should_paginate then
      [{ q := mainQuery (page_num + 1), domain := domain, page_num := page_num + 1 }]
    else []
  { dd := fun d => if d = domain then st' else dd d,
    events := events,
    appended := appended }

/-- `on_error` (`collect_news.py` lines 160-167): mark the domain as failed. -/
def on_error (dd : String → DomainState) (domain : String) (err : String) :
    String → DomainState :=
  fun d => if d = domain then { dd domain with status := "error", error := some err } else dd d

/-- Outcome of fetching one URL of the main pass, as delivered to the
callbacks by `fetch_json_from_urls`: either a successfully extracted JSON
array of posts, or a failure with an error message. -/
inductive FetchResult where
  | success (data : List RawPost)
  | failure (err : String)
deriving DecidableEq, Repr

/-- State of the main fetch loop: the growing `url_metadata` worklist, the
index of the next item to process, the `domain_data` map and the trace of
file writes performed so far. -/
structure RunState where
  worklist : List WorkItem
  idx : Nat
  dd : String → DomainState
  trace : List Event

/-- Process worklist item `s.idx` (which must exist): fetch it through the
oracle and dispatch to `on_success` / `on_error`. -/
def stepRun (oracle : Nat → FetchResult) (s : RunState) : RunState :=
  match s.worklist[s.idx]? with
  | none => { s with idx := s.idx + 1 }
  | some item =>
    match oracle s.idx with
    | FetchResult.success data =>
        let r := on_success s.dd item.domain item.page_num data
        { worklist := s.worklist ++ r.appended, idx := s.idx + 1,
          dd := r.dd, trace := s.trace ++ r.events }
    | FetchResult.failure err =>
        { s with dd := on_error s.dd item.domain err, idx := s.idx + 1 }

/-- The sequential fetch loop of `fetch_json_from_urls`: keep processing
while the index is below the (dynamically growing) worklist length.  `fuel`
bounds the number of iterations; the page cap makes the real loop finite,
and every claim about the run holds for an arbitrary fuel. -/
def runDriver (oracle : Nat → FetchResult) : Nat → RunState → RunState
  | 0, s => s
  | fuel + 1, s =>
      if s.idx < s.worklist.length then runDriver oracle fuel (stepRun oracle s) else s

/-- The initial run state for a list of domains. -/
def initRun (domains : List String) : RunState :=
  { worklist := build_domain_urls domains, idx := 0,
    dd := fun _ => initDomainState, trace := [] }

/-- One per-domain record of `summary["results"]`. -/
structure SummaryResult where
  domain : String
  status : String
  article_count : Nat
  pages_fetched : Nat
  error_message : Option String
  file_path : Option String
deriving DecidableEq, Repr

/-- Python truthiness of `result.get("error_message")`: `None` and the empty
string are falsy. -/
def truthyMsg : Option String → Bool
  | none => false
  | some s => s ≠ ""

/-- The finalization loop over `domains` (`collect_news.py` lines 186-212):
build one summary record per domain, rewrite the output file of every
domain that has posts, and collect `sites_needing_testing` (the domains
with no posts whose `error_message` is falsy, which then get
`"No articles found in timeframe"`).  Returns
`(summary_results, events, sites_needing_testing)`. -/
def finalizeDomain (dd : String → DomainState) (domain : String) :
    SummaryResult × List Event × List String :=
  let data := dd domain
  let result0 : SummaryResult :=
    { domain := domain,
      status := if data.posts ≠ [] then "success"
                else if data.status = "pending" then "pending" else data.status,
      article_count := data.posts.length,
      pages_fetched := data.pages_fetched,
      error_message := data.error,
      file_path := none }
  if data.posts ≠ [] then
    ({ result0 with
        file_path := some (sanitize_filename domain ++ ".json"), status := "success" },
     [Event.writeDomainFile domain data.posts], [])
  else if ¬ truthyMsg result0.error_message then
    ({ result0 with error_message := some "No articles found in timeframe" }, [], [domain])
  else
    (result0, [], [])

def finalizePass (dd : String → DomainState) (domains : List String) :
    List SummaryResult × List Event × List String :=
  match domains with
  | [] => ([], [], [])
  | d :: rest =>
      let (r, ev, test) := finalizeDomain dd d
      let (rs, evs, tests) := finalizePass dd rest
      (r :: rs, ev ++ evs, test ++ tests)

/-! ### Diagnostic sub-pass (`collect_news.py` lines 214-299) -/

/-- Outcome of one diagnostic fetch.  A success may deliver a non-list JSON
value (`isinstance(data, list)` is checked by `on_test_success`), so
successes are split accordingly. -/
inductive TestOutcome where
  | listData (data : List RawPost)
  | nonListData
  | failure (err : String)
deriving DecidableEq, Repr

/-- One entry of `test_results` / `site_notes`. -/
structure SiteNote where
  has_json_api : Option Bool
  articles_found : Nat
  note : String
  error : Option String
deriving DecidableEq, Repr

/-- `on_test_success` / `on_test_error` (`collect_news.py` lines 239-259). -/
def testNoteOf (outcome : TestOutcome) : SiteNote :=
  match outcome with
  | TestOutcome.listData data =>
      { has_json_api := some true, articles_found := data.length,
        note := "Site has JSON API but returned no articles in the timeframe",
        error := none }
  | TestOutcome.nonListData =>
      { has_json_api := some true, articles_found := 0,
        note := "Site has JSON API but returned no articles in the timeframe",
        error := none }
  | TestOutcome.failure err =>
      { has_json_api := some false, articles_found := 0,
        note := "Site does not provide JSON API or has access restrictions",
        error := some err }

/-- The diagnostic fetch loop: process the first `fuel` items of the static
test worklist in order, recording `test_results[domain]`. -/
def runTestPass (oracle : Nat → TestOutcome) (sites : List String) :
    Nat → Nat → (String → Option SiteNote) → (String → Option SiteNote)
  | 0, _, results => results
  | fuel + 1, i, results =>
      match sites[i]? with
      | none => results
      | some d =>
          runTestPass oracle sites fuel (i + 1)
            (fun x => if x = d then some (testNoteOf (oracle i)) else results x)

/-- `site_notes` construction (`collect_news.py` lines 277-286): every site
needing testing gets its `test_results` entry, or the "Test was not
completed" placeholder with `has_json_api = None`. -/
def siteNoteFor (results : String → Option SiteNote) (domain : String) : SiteNote :=
  match results domain with
  | some note => note
  | none =>
      { has_json_api := none, articles_found := 0,
        note := "Test was not completed", error := none }

/-- Aggregate result of a whole collection run. -/
structure CollectResult where
  dd : String → DomainState
  results : List SummaryResult
  sites_needing_testing : List String
  test_items : List (String × Query)
  site_notes : List (String × SiteNote)
  trace : List Event

/-- The set of identifiers the success callback recognizes in a batch:
the truthy `id` values of its posts (`post.get('id')` with `None`/`0`
filtered out by the `if post_id` guards). -/
def batchIds : List RawPost → Finset Int
  | [] => ∅
  | p :: rest =>
    match p.id with
    | some i => if i ≠ 0 then insert i (batchIds rest) else batchIds rest
    | none => batchIds rest

/-- A full page of 100 posts with the distinct identifiers 1..100. -/
def fullPage : List RawPost :=
  (List.range 100).map (fun n => { id := some ((n : Int) + 1), tag := 0 })

/-- A batch yielding 100 new posts and 1 duplicate against an empty seen
set: `fullPage` followed by a second post with identifier 1. -/
def fullPagePlusDup : List RawPost := fullPage ++ [{ id := some 1, tag := 100 }]

/-- A batch of 99 posts with distinct identifiers. -/
def page99 : List RawPost := fullPage.take 99

/-- `collect_wordpress_posts` (`collect_news.py` lines 44-307), with the
fetch outcomes of the two passes supplied by oracles: run the main fetch
loop, finalize the per-domain results, run the diagnostic sub-pass over the
domains that yielded nothing, then write the site-notes file (only when
there are notes) and finally the collection summary file. -/
def collect_wordpress_posts (domains : List String)
    (oracle : Nat → FetchResult) (fuel : Nat)
    (testOracle : Nat → TestOutcome) (testFuel : Nat) : CollectResult :=
  let s := runDriver oracle fuel (initRun domains)
  let fin := finalizePass s.dd domains
  let sites := fin.2.2
  let test_items := sites.map (fun d => (d, testQuery))
  let testResults := runTestPass testOracle sites testFuel 0 (fun _ => none)
  let site_notes := sites.map (fun d => (d, siteNoteFor testResults d))
  let notesEvents := if site_notes ≠ [] then [Event.writeSiteNotes] else []
  { dd := s.dd,
    results := fin.1,
    sites_needing_testing := sites,
    test_items := test_items,
    site_notes := site_notes,
    trace := s.trace ++ fin.2.1 ++ notesEvents ++ [Event.writeSummary] }

/-! ## Normalizer data model (`normalize_news.py`)

Raw posts reaching the normalizer are JSON values loaded by `json.load`:
null, booleans, numbers (modeled as integers; no claim depends on float
values), strings, arrays and string-keyed objects. -/

inductive PyV where
  | vnull
  | vbool (b : Bool)
  | vint (n : Int)
  | vstr (s : String)
  | vlist (xs : List PyV)
  | vdict (kvs : List (String × PyV))

/-- `dict.get(key)`: first association for the key, if any. -/
def dictGet (kvs : List (String × PyV)) (key : String) : Option PyV :=
  match kvs with
  | [] => none
  | (k, v) :: rest => if k = key then some v else dictGet rest key

/-- Python truthiness of a JSON value. -/
def pyTruthy : PyV → Bool
  | PyV.vnull => false
  | PyV.vbool b => b
  | PyV.vint n => n != 0
  | PyV.vstr s => s ≠ ""
  | PyV.vlist xs => !xs.isEmpty
  | PyV.vdict kvs => !kvs.isEmpty

/-- Python `repr` of a JSON value.  Containers follow Python's `repr`
layout; string escaping inside `repr` is not modeled (no claim depends on
it). -/
def pyRepr : PyV → String
  | PyV.vnull => "None"
  | PyV.vbool b => if b then "True" else "False"
  | PyV.vint n => toString n
  | PyV.vstr s => "'" ++ s ++ "'"
  | PyV.vlist xs =>
      "[" ++ String.intercalate ", " (xs.attach.map (fun x => pyRepr x.1)) ++ "]"
  | PyV.vdict kvs =>
      "\x7b" ++ String.intercalate ", "
        (kvs.attach.map (fun kv => "'" ++ kv.1.1 ++ "': " ++ pyRepr kv.1.2)) ++ "\x7d"
decreasing_by
  · have h := List.sizeOf_lt_of_mem x.2
    cases x
    simp at h ⊢
    omega
  · have h := List.sizeOf_lt_of_mem kv.2
    obtain ⟨⟨k, v⟩, hmem⟩ := kv
    simp at h ⊢
    omega

/-- Python `str()` of a JSON value (as used inside f-strings). -/
def pyStr : PyV → String
  | PyV.vnull => "None"
  | PyV.vbool b => if b then "True" else "False"
  | PyV.vint n => toString n
  | PyV.vstr s => s
  | PyV.vlist xs => pyRepr (PyV.vlist xs)
  | PyV.vdict kvs => pyRepr (PyV.vdict kvs)

/-- ASCII whitespace as matched by `\s` / stripped by `str.strip`. -/
def isPyWs (c : Char) : Bool :=
  c = ' ' || c = '\t' || c = '\n' || c = '\r' || c = '\x0b' || c = '\x0c'

/-- `str.strip()`. -/
def pyStrip (s : String) : String :=
  String.mk (((s.data.dropWhile isPyWs).reverse.dropWhile isPyWs).reverse)

/-- Does a character list contain two adjacent newlines? -/
def hasDoubleNl : List Char → Bool
  | a :: b :: rest => (a = '\n' && b = '\n') || hasDoubleNl (b :: rest)
  | _ => false

/-- `re.sub(r'\s*\n{2,}\s*', '\n\n', s)`: each maximal whitespace run that
contains two adjacent newlines collapses to exactly one blank line (the
leftmost-greedy match always covers the whole maximal run). -/
def collapseAux : List Char → List Char → List Char
  | run, [] => if hasDoubleNl run.reverse then ['\n', '\n'] else run.reverse
  | run, c :: rest =>
      if isPyWs c then collapseAux (c :: run) rest
      else (if hasDoubleNl run.reverse then ['\n', '\n'] else run.reverse)
        ++ c :: collapseAux [] rest

def collapseWs (s : String) : String := String.mk (collapseAux [] s.data)

/-- `urllib.parse.urlparse(url).netloc` for string inputs:
strip a `scheme:` prefix when the prefix is a valid scheme name, then, if
the remainder starts with `//`, take everything up to the next `/`, `?` or
`#`; otherwise the netloc is empty. -/
def isSchemeTail (c : Char) : Bool :=
  c.isAlpha || c.isDigit || c = '+' || c = '-' || c = '.'

def splitScheme (cs : List Char) : List Char :=
  match cs.findIdx? (fun c => c = ':') with
  | none => cs
  | some i =>
      let pre := cs.take i
      match pre with
      | [] => cs
      | c0 :: rest =>
          if c0.isAlpha && rest.all isSchemeTail then cs.drop (i + 1) else cs

def netloc (url : String) : String :=
  let cs := splitScheme url.data
  match cs with
  | '/' :: '/' :: rest =>
      String.mk (rest.takeWhile (fun c => c ≠ '/' && c ≠ '?' && c ≠ '#'))
  | _ => ""

/-- External collaborators of the normalizer: `markdownify(·,
heading_style="ATX")`, `dateutil` date parsing composed with
`int(dt.timestamp())`, and the md5 hex digest used for content
addressing. -/
structure ExternalFns where
  md : String → String
  dateParse : String → Option Int
  md5hex : String → String

/-- The canonical article record built by `normalize_article`. -/
structure NormalizedArticle where
  url : String
  title : PyV
  article_text : String
  source_domain : String
  first_seen_timestamp_gmt : Int
  publication_date : Option String
  publication_timestamp_gmt : Option Int
  author : Option PyV
  keywords : List PyV
  image_url : Option PyV
  excerpt : String
  wp_post_id : Option PyV
  wp_post_type : Option PyV

/-- Outcome of `normalize_article`: a normalized record, a handled error
returned as `(None, error_message)`, or an uncaught Python exception that
escapes the function (carrying the exception class name). -/
inductive NormResult where
  | ok (article : NormalizedArticle)
  | err (msg : String)
  | exn (name : String)

/-- The `article.get('link', f"ID: {article.get('id', 'N/A')}")` identifier
used in error messages, rendered to a string as the enclosing f-strings
do. -/
def articleIdentifier (kvs : List (String × PyV)) : String :=
  match dictGet kvs "link" with
  | some v => pyStr v
  | none =>
      "ID: " ++ (match dictGet kvs "id" with
                 | some v => pyStr v
                 | none => "N/A")

/-- The required-fields `except (KeyError, TypeError)` message
(`normalize_news.py` line 67). -/
def reqErrMsg (ident exnName exnText : String) : String :=
  "Error processing required fields for article " ++ ident ++ ": "
    ++ exnName ++ " - " ++ exnText

/-- The `title`/`content` unwrap rule: `obj['rendered'] if isinstance(obj,
dict) else obj`, where a dict missing `'rendered'` raises `KeyError`. -/
def unwrapRendered (v : PyV) : Except String PyV :=
  match v with
  | PyV.vdict kvs =>
      match dictGet kvs "rendered" with
      | some r => Except.ok r
      | none => Except.error "KeyError - 'rendered'"
  | _ => Except.ok v

/-- `dict.get(key, default)`. -/
def dictGetD (kvs : List (String × PyV)) (key : String) (default : PyV) : PyV :=
  match dictGet kvs key with
  | some v => v
  | none => default

/-- `normalize_news.py` line 71:
`article.get('date_gmt', '') + 'Z' if article.get('date_gmt') else None`.
Outside the `try` block, so a truthy non-string `date_gmt` raises an
uncaught `TypeError` (string concatenation with a non-string). -/
def pubDateField (kvs : List (String × PyV)) : Except String (Option String) :=
  match dictGet kvs "date_gmt" with
  | some v =>
      if pyTruthy v then
        match v with
        | PyV.vstr s => Except.ok (some (s ++ "Z"))
        | _ => Except.error "TypeError"
      else Except.ok none
  | none => Except.ok none

/-- `normalize_news.py` line 88:
`article.get('_links', {}).get('wp:featuredmedia', [{}])[0].get('href')`,
outside the `try` block.  The chain raises uncaught exceptions for several
"unusual" shapes: a non-dict `_links` (`AttributeError` from `.get`), an
*empty* `wp:featuredmedia` list (`IndexError` from `[0]`), a dict
(`KeyError`: JSON object keys are strings, so integer subscript `0` is
absent), a string (`IndexError` when empty, else `AttributeError` from
`.get` on the character), and other scalars (`TypeError`: not
subscriptable). -/
def imageUrlField (kvs : List (String × PyV)) : Except String (Option PyV) :=
  match dictGetD kvs "_links" (PyV.vdict []) with
  | PyV.vdict kvs0 =>
      match dictGetD kvs0 "wp:featuredmedia" (PyV.vlist [PyV.vdict []]) with
      | PyV.vlist [] => Except.error "IndexError"
      | PyV.vlist (e :: _) =>
          match e with
          | PyV.vdict kvs1 => Except.ok (dictGet kvs1 "href")
          | _ => Except.error "AttributeError"
      | PyV.vdict _ => Except.error "KeyError"
      | PyV.vstr s => Except.error (if s = "" then "IndexError" else "AttributeError")
      | _ => Except.error "TypeError"
  | _ => Except.error "AttributeError"

/-- `normalize_news.py` lines 91-97: unwrap the excerpt like title/content
(but via `.get('rendered')` without a default), then Markdown-convert and
whitespace-normalize a truthy value; a truthy non-string excerpt raises an
uncaught `TypeError` inside `markdownify`. -/
def excerptField (ext : ExternalFns) (kvs : List (String × PyV)) : Except String String :=
  let eobj := dictGetD kvs "excerpt" (PyV.vdict [])
  let raw : Option PyV :=
    match eobj with
    | PyV.vdict kvs1 => dictGet kvs1 "rendered"
    | _ => some eobj
  match raw with
  | some v =>
      if pyTruthy v then
        match v with
        | PyV.vstr s => Except.ok (pyStrip (collapseWs (ext.md s)))
        | _ => Except.error "TypeError"
      else Except.ok ""
  | none => Except.ok ""

/-- `normalize_article` (`normalize_news.py` lines 32-117).  The
required-field block (lines 39-64) catches `KeyError`/`TypeError` and
returns them as `(None, message)`; `urlparse` on a truthy non-string link
raises `AttributeError`, which that `except` clause does not catch; the
optional-field blocks after the `try` (publication date, featured image,
excerpt) run outside any handler, so their exceptions escape the function
(`NormResult.exn`). -/
def normalize_article (ext : ExternalFns) (article : List (String × PyV)) (ts : Int) :
    NormResult :=
  let ident := articleIdentifier article
  match dictGet article "link" with
  | none => NormResult.err (reqErrMsg ident "KeyError" "'link'")
  | some url =>
    match unwrapRendered (dictGetD article "title" (PyV.vdict [])) with
    | Except.error e => NormResult.err (reqErrMsg ident "KeyError" e)
    | Except.ok title =>
    match unwrapRendered (dictGetD article "content" (PyV.vdict [])) with
    | Except.error e => NormResult.err (reqErrMsg ident "KeyError" e)
    | Except.ok htmlContent =>
    match htmlContent with
    | PyV.vstr html =>
      let article_text := pyStrip (collapseWs (ext.md html))
      match url with
      | PyV.vstr u =>
        let source_domain := netloc u
        if u ≠ "" ∧ pyTruthy title = true ∧ article_text ≠ "" ∧ source_domain ≠ "" ∧ ts ≠ 0 then
          match pubDateField article with
          | Except.error e => NormResult.exn e
          | Except.ok pd =>
          match imageUrlField article with
          | Except.error e => NormResult.exn e
          | Except.ok iu =>
          match excerptField ext article with
          | Except.error e => NormResult.exn e
          | Except.ok exc =>
            NormResult.ok
              { url := u, title := title, article_text := article_text,
                source_domain := source_domain, first_seen_timestamp_gmt := ts,
                publication_date := pd,
                publication_timestamp_gmt := pd.bind ext.dateParse,
                author := none, keywords := [], image_url := iu, excerpt := exc,
                wp_post_id := dictGet article "id",
                wp_post_type := dictGet article "type" }
        else NormResult.err ("Missing required field for article " ++ ident)
      | _ =>
        if pyTruthy url then NormResult.exn "AttributeError"
        else NormResult.err ("Missing required field for article " ++ ident)
    | _ => NormResult.err (reqErrMsg ident "TypeError" "markup is of an invalid type")

/-- Per-run statistics of `process_collection_directory`. -/
structure NormStats where
  files_processed : Nat
  articles_new : Nat
  articles_skipped : Nat
  errors : Nat
  errors_list : List String
deriving DecidableEq, Repr

def initStats : NormStats :=
  { files_processed := 0, articles_new := 0, articles_skipped := 0,
    errors := 0, errors_list := [] }

def addError (msg : String) (st : NormStats) : NormStats :=
  { st with errors := st.errors + 1, errors_list := st.errors_list ++ [msg] }

/-- `{output_dir}/{source_domain}/{md5(url)}.json`. -/
def articlePath (ext : ExternalFns) (outputDir : String) (art : NormalizedArticle) : String :=
  outputDir ++ "/" ++ art.source_domain ++ "/" ++ ext.md5hex art.url ++ ".json"

/-- The non-dict-item error message (`normalize_news.py` line 167). -/
def skipItemMsg (filename : String) (item : PyV) : String :=
  "Skipping item in " ++ filename ++ " because it's not a dictionary. Item: "
    ++ (pyStr item).take 150

/-- One raw input file: either unreadable/non-array JSON, or an array of
items. -/
inductive FileContent where
  | bad
  | arr (items : List PyV)

/-- What the body of the per-article loop does for one item, before the
file-existence check: abort the batch on an uncaught exception, record an
error message (non-dict item, or handled normalization error), or produce
the output path of a normalized article. -/
inductive ItemStep where
  | abort (name : String)
  | recordErr (msg : String)
  | okPath (path : String)

def itemStep (ext : ExternalFns) (outputDir filename : String) (ts : Int)
    (item : PyV) : ItemStep :=
  match item with
  | PyV.vdict kvs =>
      match normalize_article ext kvs ts with
      | NormResult.exn name => ItemStep.abort name
      | NormResult.err msg => ItemStep.recordErr msg
      | NormResult.ok art => ItemStep.okPath (articlePath ext outputDir art)
  | _ => ItemStep.recordErr (skipItemMsg filename item)

/-- The per-article loop of `process_collection_directory`
(`normalize_news.py` lines 165-201), threading the set of existing output
files (by path) and the statistics.  An uncaught exception from
`normalize_article` aborts the whole batch (`Except.error`); handled
errors (including non-dict items) are recorded and the loop continues; an
article whose output path already exists is counted as skipped, otherwise
it is written and counted as new. -/
def processArticles (ext : ExternalFns) (outputDir filename : String) (ts : Int) :
    List PyV → List String × NormStats → Except String (List String × NormStats)
  | [], acc => Except.ok acc
  | item :: rest, (fs, st) =>
      match itemStep ext outputDir filename ts item with
      | ItemStep.abort name => Except.error name
      | ItemStep.recordErr msg =>
          processArticles ext outputDir filename ts rest (fs, addError msg st)
      | ItemStep.okPath path =>
          if path ∈ fs then
            processArticles ext outputDir filename ts rest
              (fs, { st with articles_skipped := st.articles_skipped + 1 })
          else
            processArticles ext outputDir filename ts rest
              (fs ++ [path], { st with articles_new := st.articles_new + 1 })

/-- `filename.endswith(".json")`, stated over character lists so that it
evaluates by kernel reduction. -/
def strEndsWith (s t : String) : Bool := t.data.isSuffixOf s.data

/-- One file of the source directory (`normalize_news.py` lines 146-163):
non-`.json` files and the summary files are skipped entirely; a
non-array/unreadable file is recorded as one error; an array is processed
article by article. -/
def processFile (ext : ExternalFns) (outputDir : String) (ts : Int)
    (acc : List String × NormStats) (file : String × FileContent) :
    Except String (List String × NormStats) :=
  let (filename, content) := file
  if ¬ strEndsWith filename ".json" = true ∨ filename = "_collection_summary.json"
      ∨ filename = "_normalization_summary.json" then
    Except.ok acc
  else
    let (fs, st) := acc
    let st := { st with files_processed := st.files_processed + 1 }
    match content with
    | FileContent.bad =>
        Except.ok (fs, addError
          ("Error decoding JSON or file is not a list of articles: " ++ filename) st)
    | FileContent.arr items => processArticles ext outputDir filename ts items (fs, st)

def processFiles (ext : ExternalFns) (outputDir : String) (ts : Int) :
    List (String × FileContent) → List String × NormStats →
      Except String (List String × NormStats)
  | [], acc => Except.ok acc
  | f :: rest, acc =>
      match processFile ext outputDir ts acc f with
      | Except.error e => Except.error e
      | Except.ok acc' => processFiles ext outputDir ts rest acc'

/-- `process_collection_directory` (`normalize_news.py` lines 119-220),
with the directory listing, the collection timestamp (read from the
collection summary) and the pre-existing output files supplied explicitly.
Returns the output-file set and the statistics, or propagates an uncaught
per-article exception. -/
def process_collection_directory (ext : ExternalFns) (outputDir : String)
    (files : List (String × FileContent)) (ts : Int) (fs : List String) :
    Except String (List String × NormStats) :=
  processFiles ext outputDir ts files (fs, initStats)

/-- Concrete external functions for witnesses: the identity Markdown
conversion, a date parser that always fails, and the identity digest. -/
def ext0 : ExternalFns :=
  { md := id, dateParse := fun _ => none, md5hex := id }

/-- A well-formed raw post (string link/title/content). -/
def okArticleKvs : List (String × PyV) :=
  [("link", PyV.vstr "https://example.com/post"),
   ("title", PyV.vstr "T"),
   ("content", PyV.vstr "Body")]

/-- A raw post that is well-formed except for an *empty*
`_links["wp:featuredmedia"]` array: `[0]` on it raises `IndexError`. -/
def emptyMediaArticleKvs : List (String × PyV) :=
  okArticleKvs ++ [("_links", PyV.vdict [("wp:featuredmedia", PyV.vlist [])])]

/-- An input directory holding one file with the same well-formed article
twice (same link, hence same url hash). -/
def c6Files : List (String × FileContent) :=
  [("a.json", FileContent.arr [PyV.vdict okArticleKvs, PyV.vdict okArticleKvs])]

/-- The output path of `okArticleKvs` under `ext0` and output root `out`. -/
def okArticlePath : String := "out/example.com/https://example.com/post.json"

/-- Statistics extended by per-run deltas (used to state how a run changes
the counters). -/
def statsAdd (st : NormStats) (dN dS dE : Nat) (msgs : List String) : NormStats :=
  { files_processed := st.files_processed,
    articles_new := st.articles_new + dN,
    articles_skipped := st.articles_skipped + dS,
    errors := st.errors + dE,
    errors_list := st.errors_list ++ msgs }

/-- Statistics extended by per-run deltas including processed files. -/
def statsAddF (st : NormStats) (dF dN dS dE : Nat) (msgs : List String) : NormStats :=
  { files_processed := st.files_processed + dF,
    articles_new := st.articles_new + dN,
    articles_skipped := st.articles_skipped + dS,
    errors := st.errors + dE,
    errors_list := st.errors_list ++ msgs }

/-! ## Content extractor (`nodriver_helper.py`)

JSON values as produced by `json.loads`.  Number and string payloads are
kept as their source lexemes (two lexемes denoting the same Python value
stay distinguishable; every claim below only compares parses of identical
character sequences, for which the representation is exact).  The type is
a mutual inductive so that all functions over it are structurally
recursive and evaluate by kernel reduction. -/

mutual
inductive JVal where
  | jnull
  | jbool (b : Bool)
  | jnum (lexeme : String)
  | jstr (lexeme : String)
  | jarr (elems : JList)
  | jobj (members : JMembers)
inductive JList where
  | jnil
  | jcons (hd : JVal) (tl : JList)
inductive JMembers where
  | mnil
  | mcons (key : String) (val : JVal) (tl : JMembers)
end

/-- JSON whitespace skipped by `json.loads` (space, tab, newline, cr). -/
def jsonWs (c : Char) : Bool := c = ' ' || c = '\t' || c = '\n' || c = '\r'

def skipJsonWs (cs : List Char) : List Char := cs.dropWhile jsonWs

def isHexDig (c : Char) : Bool :=
  c.isDigit || ('a' ≤ c && c ≤ 'f') || ('A' ≤ c && c ≤ 'F')

def simpleEscape (c : Char) : Bool :=
  c = '"' || c = '\\' || c = '/' || c = 'b' || c = 'f' || c = 'n' || c = 'r' || c = 't'

/-- The strict string scanner of `json.loads`, after the opening quote:
raw control characters are rejected, escapes are `\"`, `\\`, `\/`, `\b`,
`\f`, `\n`, `\r`, `\t` and `\uXXXX`.  Returns the raw lexeme (escapes
undecoded) and the input after the closing quote. -/
def parseStringBody : List Char → Option (List Char × List Char)
  | [] => none
  | c :: rest =>
    if c = '"' then some ([], rest)
    else if c = '\\' then
      match rest with
      | [] => none
      | e :: rest2 =>
        if e = 'u' then
          match rest2 with
          | h1 :: h2 :: h3 :: h4 :: rest3 =>
            if isHexDig h1 && isHexDig h2 && isHexDig h3 && isHexDig h4 then
              match parseStringBody rest3 with
              | some (s, r) => some ('\\' :: 'u' :: h1 :: h2 :: h3 :: h4 :: s, r)
              | none => none
            else none
          | _ => none
        else if simpleEscape e then
          match parseStringBody rest2 with
          | some (s, r) => some ('\\' :: e :: s, r)
          | none => none
        else none
    else if c.toNat < 32 then none
    else
      match parseStringBody rest with
      | some (s, r) => some (c :: s, r)
      | none => none

/-- `('0' | [1-9][0-9]*)`. -/
def parseIntPart : List Char → Option (List Char × List Char)
  | [] => none
  | c :: rest =>
      if c = '0' then some (['0'], rest)
      else if c.isDigit then
        some (c :: rest.takeWhile Char.isDigit, rest.dropWhile Char.isDigit)
      else none

/-- Optional `('.' [0-9]+)`. -/
def parseFrac (cs : List Char) : List Char × List Char :=
  match cs with
  | [] => ([], cs)
  | c :: rest =>
      if c = '.' then
        let t := rest.takeWhile Char.isDigit
        if t.isEmpty then ([], cs) else ('.' :: t, rest.dropWhile Char.isDigit)
      else ([], cs)

/-- Optional `([eE][+-]?[0-9]+)`. -/
def parseExp (cs : List Char) : List Char × List Char :=
  match cs with
  | e :: rest =>
      if e = 'e' || e = 'E' then
        match rest with
        | s :: rest2 =>
            if s = '+' || s = '-' then
              let t := rest2.takeWhile Char.isDigit
              if t.isEmpty then ([], cs) else (e :: s :: t, rest2.dropWhile Char.isDigit)
            else
              let t := rest.takeWhile Char.isDigit
              if t.isEmpty then ([], cs) else (e :: t, rest.dropWhile Char.isDigit)
        | [] => ([], cs)
      else ([], cs)
  | [] => ([], cs)

/-- The JSON number token (`NUMBER_RE` of the Python decoder), returned as
its lexeme. -/
def parseNumberBody (cs : List Char) : Option (List Char × List Char) :=
  let p : List Char × List Char :=
    match cs with
    | [] => ([], cs)
    | c :: rest => if c = '-' then (['-'], rest) else ([], cs)
  match parseIntPart p.2 with
  | none => none
  | some (ip, cs2) =>
      let fp := parseFrac cs2
      let ep := parseExp fp.2
      some (p.1 ++ ip ++ fp.1 ++ ep.1, ep.2)

/-- Head-character test. -/
def headIs (c : Char) : List Char → Bool
  | d :: _ => d = c
  | [] => false

mutual
/-- The value scanner of `json.loads` at a position where a value must
start (whitespace already consumed): literals (`null`/`true`/`false` and
the accepted constants `NaN`/`Infinity`/`-Infinity`), strings, arrays,
objects, numbers.  `fuel` bounds the recursion depth; `loadsChars`
supplies enough fuel for its input. -/
def parseVal : Nat → List Char → Option (JVal × List Char)
  | 0, _ => none
  | fuel + 1, cs =>
    if "null".data.isPrefixOf cs then some (JVal.jnull, cs.drop 4)
    else if "true".data.isPrefixOf cs then some (JVal.jbool true, cs.drop 4)
    else if "false".data.isPrefixOf cs then some (JVal.jbool false, cs.drop 5)
    else if "NaN".data.isPrefixOf cs then some (JVal.jnum "NaN", cs.drop 3)
    else if "Infinity".data.isPrefixOf cs then some (JVal.jnum "Infinity", cs.drop 8)
    else if "-Infinity".data.isPrefixOf cs then some (JVal.jnum "-Infinity", cs.drop 9)
    else
      match cs with
      | [] => none
      | c :: rest =>
        if c = '"' then
          match parseStringBody rest with
          | some (s, r) => some (JVal.jstr (String.mk s), r)
          | none => none
        else if c = '[' then
          if headIs ']' (skipJsonWs rest) then
            some (JVal.jarr JList.jnil, (skipJsonWs rest).tail)
          else
            match parseArrElems fuel (skipJsonWs rest) with
            | some (l, r) => some (JVal.jarr l, r)
            | none => none
        else if c = '\x7b' then
          if headIs '\x7d' (skipJsonWs rest) then
            some (JVal.jobj JMembers.mnil, (skipJsonWs rest).tail)
          else
            match parseObjMembers fuel (skipJsonWs rest) with
            | some (m, r) => some (JVal.jobj m, r)
            | none => none
        else
          match parseNumberBody cs with
          | some (lex, r) => some (JVal.jnum (String.mk lex), r)
          | none => none

/-- Array elements after `[` (whitespace consumed), up to and including
the closing `]`. -/
def parseArrElems : Nat → List Char → Option (JList × List Char)
  | 0, _ => none
  | fuel + 1, cs =>
    match parseVal fuel cs with
    | none => none
    | some (v, rest) =>
      match skipJsonWs rest with
      | [] => none
      | c :: rest2 =>
        if c = ',' then
          match parseArrElems fuel (skipJsonWs rest2) with
          | some (l, r) => some (JList.jcons v l, r)
          | none => none
        else if c = ']' then some (JList.jcons v JList.jnil, rest2)
        else none

/-- Object members after `{` (whitespace consumed), up to and including
the closing `}`. -/
def parseObjMembers : Nat → List Char → Option (JMembers × List Char)
  | 0, _ => none
  | fuel + 1, cs =>
    match cs with
    | [] => none
    | c :: rest =>
      if c = '"' then
        match parseStringBody rest with
        | none => none
        | some (k, rest2) =>
          match skipJsonWs rest2 with
          | [] => none
          | d :: rest3 =>
            if d = ':' then
              match parseVal fuel (skipJsonWs rest3) with
              | none => none
              | some (v, rest4) =>
                match skipJsonWs rest4 with
                | [] => none
                | e :: rest5 =>
                  if e = ',' then
                    match parseObjMembers fuel (skipJsonWs rest5) with
                    | some (m, r) => some (JMembers.mcons (String.mk k) v m, r)
                    | none => none
                  else if e = '\x7d' then
                    some (JMembers.mcons (String.mk k) v JMembers.mnil, rest5)
                  else none
            else none
      else none
end

/-- `json.loads` on a character sequence: skip leading whitespace, scan
one value, require only whitespace after it. -/
def loadsChars (cs : List Char) : Option JVal :=
  match parseVal (2 * cs.length + 2) (skipJsonWs cs) with
  | some (v, rest) => if (skipJsonWs rest).isEmpty then some v else none
  | none => none

def loads (s : String) : Option JVal := loadsChars s.data

/-! ### The two tag-stripping regexes of `extract_json_from_content`

`re.sub(r'^(<[^>]+>)+', '', content, flags=re.MULTILINE | re.DOTALL)`
removes, at every line start, the maximal run of `<[^>]+>` groups (each
group extends to the *first* `>` after at least one non-`>` character;
`[^>]` matches newlines as well), and
`re.sub(r'(</[^>]+>)+\s*$', '', cleaned, ...)` removes, ending at every
line end (end of string or a position before `\n`), the maximal run of
`</[^>]+>` groups followed by as much whitespace as can still be followed
by a line end.  Both are modeled as left-to-right scanners over the
character list; a removed match never overlaps a later one, and scanning
resumes after the removed text exactly as `re.sub` does. -/

/-- First index of a character (`str.find`, with `None` for `-1`). -/
def charIdx (c : Char) : List Char → Option Nat
  | [] => none
  | d :: rest => if d = c then some 0 else (charIdx c rest).map Nat.succ

/-- Match `<[^>]+>` at the head; returns the rest. -/
def matchTag (cs : List Char) : Option (List Char) :=
  match cs with
  | [] => none
  | c :: rest =>
      if c = '<' then
        match charIdx '>' rest with
        | some i => if 1 ≤ i then some (rest.drop (i + 1)) else none
        | none => none
      else none

/-- Match `</[^>]+>` at the head; returns the rest. -/
def matchCloseTag (cs : List Char) : Option (List Char) :=
  match cs with
  | c :: d :: rest =>
      if c = '<' && d = '/' then
        match charIdx '>' rest with
        | some i => if 1 ≤ i then some (rest.drop (i + 1)) else none
        | none => none
      else none
  | _ => none

def tagRunAux : Nat → List Char → List Char
  | 0, cs => cs
  | fuel + 1, cs =>
      match matchTag cs with
      | some rest => tagRunAux fuel rest
      | none => cs

/-- Maximal run `(<[^>]+>)+` at the head (at least one group). -/
def matchTagRun (cs : List Char) : Option (List Char) :=
  match matchTag cs with
  | some rest => some (tagRunAux cs.length rest)
  | none => none

def closeRunAux : Nat → List Char → List Char
  | 0, cs => cs
  | fuel + 1, cs =>
      match matchCloseTag cs with
      | some rest => closeRunAux fuel rest
      | none => cs

/-- Maximal run `(</[^>]+>)+` at the head (at least one group). -/
def matchCloseRun (cs : List Char) : Option (List Char) :=
  match matchCloseTag cs with
  | some rest => some (closeRunAux cs.length rest)
  | none => none

/-- `\s*$` (MULTILINE) after the close run: consume the longest
whitespace prefix whose end is the end of the string or sits just before a
newline. -/
def p2WsEnd (cs : List Char) : Option (List Char) :=
  let w := cs.takeWhile isPyWs
  let r := cs.dropWhile isPyWs
  if r.isEmpty then some []
  else
    match (charIdx '\n' w.reverse).map (fun i => w.length - 1 - i) with
    | some j => some (w.drop j ++ r)
    | none => none

/-- One attempted match of `(</[^>]+>)+\s*$` at the head. -/
def matchP2 (cs : List Char) : Option (List Char) :=
  match matchCloseRun cs with
  | some rest => p2WsEnd rest
  | none => none

/-- Scanner for the first regex.  `lineStart` tracks whether the current
position follows a newline (or is position 0); matches are only attempted
there, and scanning resumes after a removed run with `lineStart = false`
(a run always ends in `>`). -/
def p1Aux : Nat → Bool → List Char → List Char
  | 0, _, cs => cs
  | fuel + 1, lineStart, cs =>
    match cs with
    | [] => []
    | c :: rest =>
      if lineStart then
        match matchTagRun (c :: rest) with
        | some rest2 => p1Aux fuel false rest2
        | none => c :: p1Aux fuel (c = '\n') rest
      else c :: p1Aux fuel (c = '\n') rest

def p1 (cs : List Char) : List Char := p1Aux cs.length true cs

/-- Scanner for the second regex: attempt a match at every position,
left to right, resuming after removed text. -/
def p2Aux : Nat → List Char → List Char
  | 0, cs => cs
  | fuel + 1, cs =>
    match cs with
    | [] => []
    | c :: rest =>
      match matchP2 (c :: rest) with
      | some rest2 => p2Aux fuel rest2
      | none => c :: p2Aux fuel rest

def p2 (cs : List Char) : List Char := p2Aux cs.length cs

/-- `str.strip` over a character list. -/
def stripChars (cs : List Char) : List Char :=
  ((cs.dropWhile isPyWs).reverse.dropWhile isPyWs).reverse

/-- `str.find` (first index of a character, `None` for Python's `-1`). -/
def strFind (cs : List Char) (c : Char) : Option Nat :=
  charIdx c cs

/-- `str.rfind`. -/
def strRFind (cs : List Char) (c : Char) : Option Nat :=
  (charIdx c cs.reverse).map (fun i => cs.length - 1 - i)

/-- The manual-span fallback of `extract_json_from_content`
(`nodriver_helper.py` lines 137-155): locate the first `[` and last `]`,
the first `{` and last `}`; when an array opener exists and precedes any
object opener, parse the array span (failing, not falling through to the
object branch, when the span is empty); otherwise parse the object span;
else fail. -/
def fallbackExtract (cs : List Char) : Option JVal :=
  let array_end : Nat := match strRFind cs ']' with | some i => i + 1 | none => 0
  let obj_start := strFind cs '\x7b'
  let obj_end : Nat := match strRFind cs '\x7d' with | some i => i + 1 | none => 0
  let objBranch : Option JVal :=
    match obj_start with
    | some o => if obj_end > o then loadsChars ((cs.drop o).take (obj_end - o)) else none
    | none => none
  match strFind cs '[' with
  | some a =>
      if (match obj_start with | none => true | some o => a < o) then
        (if array_end > a then loadsChars ((cs.drop a).take (array_end - a)) else none)
      else objBranch
  | none => objBranch

/-- `extract_json_from_content` (`nodriver_helper.py` lines 104-155):
(1) parse the whole content as JSON; (2) if the stripped content starts
with `<html` or `<!DOCTYPE`, strip tag runs with the two regexes, strip
whitespace, and re-parse; (3) fall back to the manual span extraction;
a failure of every attempt is the `ValueError`/`JSONDecodeError` exit,
modeled as `none`. -/
def extract_json_from_content (content : String) : Option JVal :=
  match loads content with
  | some v => some v
  | none =>
    let stripped := stripChars content.data
    let afterHtml :=
      if "<html".data.isPrefixOf stripped || "<!DOCTYPE".data.isPrefixOf stripped then
        loadsChars (stripChars (p2 (p1 content.data)))
      else none
    match afterHtml with
    | some v => some v
    | none => fallbackExtract content.data

/-! ### Spec-side vocabulary for the round-trip claim

The spec quantifies over "a JSON array text embedded in arbitrary
wrapping HTML tags".  A JSON array text is represented by its parsed
value together with its canonical rendering `jtext` (no insignificant
whitespace); `wrapHtml` renders the wrapper: a run of opening tags before
the text and a run of closing tags after it. -/

mutual
/-- Canonical text of a JSON value (string and number payloads are kept
as lexemes, so this is exact). -/
def jtext : JVal → List Char
  | JVal.jnull => ['n', 'u', 'l', 'l']
  | JVal.jbool true => ['t', 'r', 'u', 'e']
  | JVal.jbool false => ['f', 'a', 'l', 's', 'e']
  | JVal.jnum lex => lex.data
  | JVal.jstr lex => '"' :: (lex.data ++ ['"'])
  | JVal.jarr JList.jnil => ['[', ']']
  | JVal.jarr (JList.jcons h t) => '[' :: (jtext h ++ jtextList t ++ [']'])
  | JVal.jobj JMembers.mnil => ['\x7b', '\x7d']
  | JVal.jobj (JMembers.mcons k v t) =>
      '\x7b' :: '"' :: (k.data ++ '"' :: ':' :: (jtext v ++ jtextMembers t ++ ['\x7d']))
def jtextList : JList → List Char
  | JList.jnil => []
  | JList.jcons h t => ',' :: (jtext h ++ jtextList t)
def jtextMembers : JMembers → List Char
  | JMembers.mnil => []
  | JMembers.mcons k v t => ',' :: '"' :: (k.data ++ '"' :: ':' :: (jtext v ++ jtextMembers t))
end

/-- A string lexeme is valid when the scanner accepts it and stops
exactly at the closing quote. -/
def validStrLexeme (lex : String) : Bool :=
  match parseStringBody (lex.data ++ ['"']) with
  | some (s, r) => s == lex.data && r.isEmpty
  | none => false

/-- A number lexeme is valid when the number token scanner consumes it
entirely. -/
def validNumLexeme (lex : String) : Bool :=
  match parseNumberBody lex.data with
  | some (s, r) => s == lex.data && r.isEmpty
  | none => false

/-- Number payloads: grammar numbers or the accepted constants. -/
def wfNumLex (lex : String) : Bool :=
  validNumLexeme lex || lex == "NaN" || lex == "Infinity" || lex == "-Infinity"

mutual
/-- Well-formed values: every lexeme is one the scanner can produce. -/
def wfVal : JVal → Bool
  | JVal.jnull => true
  | JVal.jbool _ => true
  | JVal.jnum lex => wfNumLex lex
  | JVal.jstr lex => validStrLexeme lex
  | JVal.jarr l => wfList l
  | JVal.jobj m => wfMembers m
def wfList : JList → Bool
  | JList.jnil => true
  | JList.jcons h t => wfVal h && wfList t
def wfMembers : JMembers → Bool
  | JMembers.mnil => true
  | JMembers.mcons k v t => validStrLexeme k && wfVal v && wfMembers t
end

mutual
/-- Nesting depth, a lower bound on the parser fuel. -/
def depthV : JVal → Nat
  | JVal.jarr l => depthL l + 1
  | JVal.jobj m => depthM m + 1
  | _ => 1
def depthL : JList → Nat
  | JList.jnil => 0
  | JList.jcons h t => max (depthV h) (depthL t) + 1
def depthM : JMembers → Nat
  | JMembers.mnil => 0
  | JMembers.mcons _ v t => max (depthV v) (depthM t) + 1
end

/-- An HTML tag body: nonempty, free of `>`. -/
def validTagBody (t : List Char) : Bool :=
  !t.isEmpty && t.all (fun c => c ≠ '>')

/-- A tag body free of the four JSON bracket characters. -/
def bracketFree (t : List Char) : Bool :=
  t.all (fun c => c ≠ '[' && c ≠ ']' && c ≠ '\x7b' && c ≠ '\x7d')

/-- `<t₁>...<tₙ>`. -/
def renderOpenTags (ts : List (List Char)) : List Char :=
  (ts.map (fun t => '<' :: (t ++ ['>']))).flatten

/-- `</t₁>...</tₙ>`. -/
def renderCloseTags (ts : List (List Char)) : List Char :=
  (ts.map (fun t => '<' :: '/' :: (t ++ ['>']))).flatten

/-- A payload embedded in wrapping HTML tags, per the spec's words. -/
def wrapHtml (opens closes : List (List Char)) (body : List Char) : List Char :=
  renderOpenTags opens ++ body ++ renderCloseTags closes

/-- A list whose head cannot extend a preceding complete number token. -/
def safeHead : List Char → Bool
  | [] => true
  | c :: _ => !(c.isDigit || c = '.' || c = 'e' || c = 'E')

/-- Safety condition for splicing a value text before a remainder: only a
grammar number needs a boundary on the remainder. -/
def numOk (v : JVal) (rest : List Char) : Prop :=
  match v with
  | JVal.jnum lex => validNumLexeme lex = true → safeHead rest = true
  | _ => True

/-- A concrete single-domain collection run used by witnesses: one domain
whose only fetch succeeds with a single post. -/
def c4Example : CollectResult :=
  collect_wordpress_posts ["a"]
    (fun _ => FetchResult.success [{ id := some 1, tag := 0 }]) 1
    (fun _ => TestOutcome.nonListData) 0

/-- A concrete run where the only domain fails with an *empty* error
message (`str(e) == ""`): `on_error` records `status = "error"` and
`error = ""`, yet `not result.get("error_message")` is true for the empty
string, so the domain is still scheduled for the diagnostic sub-pass. -/
def c8Example : CollectResult :=
  collect_wordpress_posts ["a"] (fun _ => FetchResult.failure "") 1
    (fun _ => TestOutcome.nonListData) 1

/-- A concrete run where the only domain succeeds with zero posts, and the
diagnostic fetch then fails. -/
def c8Example2 : CollectResult :=
  collect_wordpress_posts ["a"] (fun _ => FetchResult.success []) 1
    (fun _ => TestOutcome.failure "no api") 1

/-! ## Lemmas about the duplicate-detection fold -/

theorem foldl_seen (data : List RawPost) :
    ∀ acc : List RawPost × Nat × Finset Int,
      (data.foldl procPost acc).2.2 = acc.2.2 ∪ batchIds data := by
  induction data with
  | nil => intro acc; simp [batchIds]
  | cons p rest ih =>
      intro acc
      obtain ⟨np, dc, seen⟩ := acc
      match h : p.id with
      | none => simp [List.foldl_cons, procPost, h, ih, batchIds]
      | some i =>
          by_cases h0 : i = 0
          · simp [List.foldl_cons, procPost, h, h0, ih, batchIds]
          · by_cases hmem : i ∈ seen
            · rw [List.foldl_cons]
              have hp : procPost (np, dc, seen) p = (np, dc + 1, seen) := by
                simp [procPost, h, h0, hmem]
              rw [hp, ih]
              simp only [batchIds, h, h0, if_pos (by exact h0 : i ≠ 0)]
              rw [Finset.union_insert]
              exact (Finset.insert_eq_self.2 (Finset.mem_union_left _ hmem)).symm
            · rw [List.foldl_cons]
              have hp : procPost (np, dc, seen) p = (np ++ [p], dc, insert i seen) := by
                simp [procPost, h, h0, hmem]
              rw [hp, ih]
              simp only [batchIds, h, h0, if_pos (by exact h0 : i ≠ 0)]
              rw [Finset.union_insert, Finset.insert_union]

theorem foldl_new_monotone (data : List RawPost) :
    ∀ acc : List RawPost × Nat × Finset Int,
      ∃ tail, (data.foldl procPost acc).1 = acc.1 ++ tail ∧
        ∀ p ∈ tail, truthyId p.id = true ∧ ∃ i, p.id = some i ∧ i ∉ acc.2.2 := by
  induction data with
  | nil => intro acc; exact ⟨[], by simp⟩
  | cons p rest ih =>
      intro acc
      obtain ⟨np, dc, seen⟩ := acc
      match h : p.id with
      | none =>
          have hp : procPost (np, dc, seen) p = (np, dc, seen) := by simp [procPost, h]
          rw [List.foldl_cons, hp]
          exact ih _
      | some i =>
          by_cases h0 : i = 0
          · have hp : procPost (np, dc, seen) p = (np, dc, seen) := by simp [procPost, h, h0]
            rw [List.foldl_cons, hp]
            exact ih _
          · by_cases hmem : i ∈ seen
            · have hp : procPost (np, dc, seen) p = (np, dc + 1, seen) := by
                simp [procPost, h, h0, hmem]
              rw [List.foldl_cons, hp]
              exact ih _
            · have hp : procPost (np, dc, seen) p = (np ++ [p], dc, insert i seen) := by
                simp [procPost, h, h0, hmem]
              rw [List.foldl_cons, hp]
              obtain ⟨tail, ht, hall⟩ := ih (np ++ [p], dc, insert i seen)
              refine ⟨p :: tail, by simpa using ht, ?_⟩
              intro q hq
              rcases List.mem_cons.1 hq with rfl | hq
              · exact ⟨by simp [truthyId, h, h0], i, h, hmem⟩
              · obtain ⟨ht1, i', hi', hni⟩ := hall q hq
                exact ⟨ht1, i', hi', fun hmem2 => hni (Finset.mem_insert_of_mem hmem2)⟩

theorem foldl_filter_truthy (data : List RawPost) :
    ∀ acc : List RawPost × Nat × Finset Int,
      data.foldl procPost acc = (data.filter (fun p => truthyId p.id)).foldl procPost acc := by
  induction data with
  | nil => intro acc; simp
  | cons p rest ih =>
      intro acc
      by_cases ht : truthyId p.id = true
      · have hf : List.filter (fun q => truthyId q.id) (p :: rest)
            = p :: List.filter (fun q => truthyId q.id) rest := by
          simp [List.filter_cons, ht]
        rw [List.foldl_cons, hf, List.foldl_cons, ih]
      · have hid : procPost acc p = acc := by
          obtain ⟨np, dc, seen⟩ := acc
          match h : p.id with
          | none => simp [procPost, h]
          | some i =>
              have h0 : i = 0 := by
                by_contra h0
                exact ht (by simp [truthyId, h, h0])
              simp [procPost, h, h0]
        have hf : List.filter (fun q => truthyId q.id) (p :: rest)
            = List.filter (fun q => truthyId q.id) rest := by
          simp [List.filter_cons, ht]
        rw [List.foldl_cons, hid, hf, ih]

theorem processBatch_seen (seen : Finset Int) (data : List RawPost) :
    (processBatch seen data).2.2 = seen ∪ batchIds data :=
  foldl_seen data ([], 0, seen)

theorem processBatch_new_mem (seen : Finset Int) (data : List RawPost) :
    ∀ p ∈ (processBatch seen data).1,
      truthyId p.id = true ∧ ∃ i, p.id = some i ∧ i ∉ seen := by
  obtain ⟨tail, ht, hall⟩ := foldl_new_monotone data ([], 0, seen)
  intro p hp
  rw [processBatch, ht] at hp
  exact hall p (by simpa using hp)

theorem processBatch_filter (seen : Finset Int) (data : List RawPost) :
    processBatch seen data = processBatch seen (data.filter (fun p => truthyId p.id)) :=
  foldl_filter_truthy data ([], 0, seen)

theorem on_success_dd_self (dd : String → DomainState) (domain : String)
    (page_num : Nat) (data : List RawPost) :
    (on_success dd domain page_num data).dd domain =
      { dd domain with
          posts := (dd domain).posts ++ (processBatch (dd domain).post_ids data).1,
          post_ids := (processBatch (dd domain).post_ids data).2.2,
          pages_fetched := page_num } := by
  simp [on_success]

theorem on_success_appended (dd : String → DomainState) (domain : String)
    (page_num : Nat) (data : List RawPost) :
    (on_success dd domain page_num data).appended =
      if ((processBatch (dd domain).post_ids data).1.length = 100 ∧
          (processBatch (dd domain).post_ids data).2.1 = 0 ∧
          page_num < MAX_PAGES_PER_DOMAIN)
      then [{ q := mainQuery (page_num + 1), domain := domain, page_num := page_num + 1 }]
      else [] := rfl

/-! ## Claims C1, C3, C10 -/

/-- C1: For every domain and every page-N batch handled by the
Orchestrator's success callback, a work item for page N+1 of that domain is
enqueued if and only if the batch's new-post count equals 100, its
duplicate count equals 0, and the page number is under the 20-page cap;
boundary cases: 100 new + 0 duplicates at page 19 continues, 100 new + 1
duplicate stops, 99 new + 0 duplicates stops, and page 20 with 100 new + 0
duplicates stops. -/
theorem C1_pagination_iff :
    (∀ (dd : String → DomainState) (domain : String) (page_num : Nat) (data : List RawPost),
      ({ q := mainQuery (page_num + 1), domain := domain, page_num := page_num + 1 : WorkItem }
          ∈ (on_success dd domain page_num data).appended
        ↔ ((processBatch (dd domain).post_ids data).1.length = 100 ∧
            (processBatch (dd domain).post_ids data).2.1 = 0 ∧
            page_num + 1 ≤ MAX_PAGES_PER_DOMAIN)))
    ∧ (∀ (oracle : Nat → FetchResult) (s : RunState) (item : WorkItem) (data : List RawPost),
        s.worklist[s.idx]? = some item → oracle s.idx = FetchResult.success data →
        (stepRun oracle s).worklist
          = s.worklist ++ (on_success s.dd item.domain item.page_num data).appended)
    ∧ ({ q := mainQuery 20, domain := "a", page_num := 20 : WorkItem }
          ∈ (on_success (fun _ => initDomainState) "a" 19 fullPage).appended)
    ∧ ((on_success (fun _ => initDomainState) "a" 19 fullPagePlusDup).appended = [])
    ∧ ((on_success (fun _ => initDomainState) "a" 19 page99).appended = [])
    ∧ ((on_success (fun _ => initDomainState) "a" 20 fullPage).appended = []) := by
  refine ⟨?_, ?_, ?_, ?_, ?_, ?_⟩
  · intro dd domain page_num data
    rw [on_success_appended]
    split
    · next hcond =>
        constructor
        · intro _
          exact ⟨hcond.1, hcond.2.1, by omega⟩
        · intro _
          exact List.mem_singleton_self _
    · next hcond =>
        constructor
        · intro hfalse
          exact absurd hfalse (List.not_mem_nil _)
        · intro hc
          exact absurd ⟨hc.1, hc.2.1, by omega⟩ hcond
  · intro oracle s item data hget horacle
    simp [stepRun, hget, horacle]
  · decide
  · decide
  · decide
  · decide

/-- Witness for C1 at a concrete input: processing the page-1 item of a
single-domain run whose fetch returns a full page of fresh posts appends
exactly the page-2 work item. -/
theorem C1_pagination_iff_witness :
    (stepRun (fun _ => FetchResult.success fullPage) (initRun ["a"])).worklist
      = (initRun ["a"]).worklist
        ++ (on_success (initRun ["a"]).dd "a" 1 fullPage).appended := by
  have h := C1_pagination_iff.2.1 (fun _ => FetchResult.success fullPage)
    (initRun ["a"]) { q := mainQuery 1, domain := "a", page_num := 1 } fullPage
    (by rfl) (by rfl)
  exact h

/-- C3: After the success callback processes a batch for a domain, the
domain's seen-id set equals the union of its previous value and the
(truthy) identifiers occurring in the batch, with no identifier
double-counted; the set only grows, the stored posts are extended by
exactly the new posts, and a post whose identifier is already present is
never appended to the stored posts again.  (Per C10 and the falsy-id guards
of the source, posts with an absent/null/zero `id` carry no identifier.) -/
theorem C3_seen_union :
    ∀ (dd : String → DomainState) (domain : String) (page_num : Nat) (data : List RawPost),
      (((on_success dd domain page_num data).dd domain).post_ids
          = (dd domain).post_ids ∪ batchIds data)
      ∧ ((dd domain).post_ids ⊆ ((on_success dd domain page_num data).dd domain).post_ids)
      ∧ (((on_success dd domain page_num data).dd domain).posts
          = (dd domain).posts ++ (processBatch (dd domain).post_ids data).1)
      ∧ (∀ p ∈ data, ∀ i : Int, p.id = some i → i ∈ (dd domain).post_ids →
          p ∉ (processBatch (dd domain).post_ids data).1) := by
  intro dd domain page_num data
  refine ⟨?_, ?_, ?_, ?_⟩
  · rw [on_success_dd_self]
    exact processBatch_seen _ _
  · rw [on_success_dd_self]
    show (dd domain).post_ids ⊆ (processBatch (dd domain).post_ids data).2.2
    rw [processBatch_seen]
    exact Finset.subset_union_left
  · rw [on_success_dd_self]
  · intro p _ i hi hmem hp
    obtain ⟨_, i', hi', hni⟩ := processBatch_new_mem _ _ p hp
    rw [hi] at hi'
    obtain rfl : i = i' := Option.some.inj hi'
    exact hni hmem

/-- Witness for C3 at a concrete input: a post whose identifier 1 is
already in the domain's seen set is not appended again. -/
theorem C3_seen_union_witness :
    ({ id := some 1, tag := 0 : RawPost })
      ∉ (processBatch ({ initDomainState with post_ids := {1} } : DomainState).post_ids
          [{ id := some 1, tag := 0 }]).1 := by
  have h := (C3_seen_union
      (fun _ => { initDomainState with post_ids := {1} }) "a" 1
      [{ id := some 1, tag := 0 }]).2.2.2
      { id := some 1, tag := 0 } (by simp) 1 rfl (by decide)
  exact h

/-- C10: In the success callback, a fetched post whose `id` is missing or
falsy (absent, null, or 0) is neither appended to the domain's stored posts
nor counted as a duplicate: the whole callback result is unchanged if such
posts are removed from the batch, the post is not among the new posts, and
it never enters the stored posts (hence never reaches the domain's output
file, whose write events carry exactly the stored posts). -/
theorem C10_falsy_ignored :
    ∀ (dd : String → DomainState) (domain : String) (page_num : Nat) (data : List RawPost),
      (on_success dd domain page_num data
          = on_success dd domain page_num (data.filter (fun p => truthyId p.id)))
      ∧ (∀ p ∈ data, truthyId p.id = false →
          p ∉ (processBatch (dd domain).post_ids data).1
          ∧ (p ∉ (dd domain).posts →
              p ∉ ((on_success dd domain page_num data).dd domain).posts)) := by
  intro dd domain page_num data
  constructor
  · have h := processBatch_filter (dd domain).post_ids data
    show on_success _ _ _ _ = _
    simp only [on_success, h]
  · intro p _ hfalsy
    have hnot : p ∉ (processBatch (dd domain).post_ids data).1 := by
      intro hp
      obtain ⟨ht, _⟩ := processBatch_new_mem _ _ p hp
      rw [ht] at hfalsy
      exact absurd hfalsy (by simp)
    refine ⟨hnot, ?_⟩
    intro hstored hp
    rw [on_success_dd_self] at hp
    change _ ∈ (dd domain).posts ++ (processBatch (dd domain).post_ids data).1 at hp
    rcases List.mem_append.1 hp with h | h
    · exact hstored h
    · exact hnot h

/-- Witness for C10 at a concrete input: a post with `id = 0` in the batch
is not among the new posts and does not enter the stored posts. -/
theorem C10_falsy_ignored_witness :
    ({ id := some 0, tag := 7 : RawPost })
      ∉ (processBatch ((fun _ => initDomainState) "a").post_ids
          [{ id := some 0, tag := 7 }]).1 := by
  have h := ((C10_falsy_ignored (fun _ => initDomainState) "a" 1
      [{ id := some 0, tag := 7 }]).2
      { id := some 0, tag := 7 } (by simp) (by decide)).1
  exact h

/-! ## Trace lemmas for the collection run (claim C4) -/

theorem on_success_events (dd : String → DomainState) (domain : String)
    (page_num : Nat) (data : List RawPost) :
    (on_success dd domain page_num data).events =
      if ((dd domain).posts ++ (processBatch (dd domain).post_ids data).1) ≠ []
      then [Event.writeDomainFile domain
              ((dd domain).posts ++ (processBatch (dd domain).post_ids data).1)]
      else [] := rfl

theorem on_success_dd_other (dd : String → DomainState) (domain d : String)
    (page_num : Nat) (data : List RawPost) (hne : d ≠ domain) :
    (on_success dd domain page_num data).dd d = dd d := by
  simp [on_success, hne]

theorem on_error_posts (dd : String → DomainState) (domain d : String) (err : String) :
    ((on_error dd domain err) d).posts = (dd d).posts := by
  unfold on_error
  by_cases h : d = domain
  · subst h; simp
  · simp [h]

theorem stepRun_none_eq (oracle : Nat → FetchResult) (s : RunState)
    (hget : s.worklist[s.idx]? = none) :
    stepRun oracle s = { s with idx := s.idx + 1 } := by
  unfold stepRun
  rw [hget]

theorem stepRun_success_eq (oracle : Nat → FetchResult) (s : RunState)
    (item : WorkItem) (data : List RawPost)
    (hget : s.worklist[s.idx]? = some item)
    (ho : oracle s.idx = FetchResult.success data) :
    stepRun oracle s =
      { worklist := s.worklist ++ (on_success s.dd item.domain item.page_num data).appended,
        idx := s.idx + 1,
        dd := (on_success s.dd item.domain item.page_num data).dd,
        trace := s.trace ++ (on_success s.dd item.domain item.page_num data).events } := by
  unfold stepRun
  rw [hget, ho]

theorem stepRun_failure_eq (oracle : Nat → FetchResult) (s : RunState)
    (item : WorkItem) (err : String)
    (hget : s.worklist[s.idx]? = some item)
    (ho : oracle s.idx = FetchResult.failure err) :
    stepRun oracle s = { s with dd := on_error s.dd item.domain err, idx := s.idx + 1 } := by
  unfold stepRun
  rw [hget, ho]

theorem stepRun_success_dd (oracle : Nat → FetchResult) (s : RunState)
    (item : WorkItem) (data : List RawPost)
    (hget : s.worklist[s.idx]? = some item)
    (ho : oracle s.idx = FetchResult.success data) :
    (stepRun oracle s).dd = (on_success s.dd item.domain item.page_num data).dd := by
  rw [stepRun_success_eq oracle s item data hget ho]

theorem stepRun_success_trace (oracle : Nat → FetchResult) (s : RunState)
    (item : WorkItem) (data : List RawPost)
    (hget : s.worklist[s.idx]? = some item)
    (ho : oracle s.idx = FetchResult.success data) :
    (stepRun oracle s).trace
      = s.trace ++ (on_success s.dd item.domain item.page_num data).events := by
  rw [stepRun_success_eq oracle s item data hget ho]

theorem stepRun_failure_dd (oracle : Nat → FetchResult) (s : RunState)
    (item : WorkItem) (err : String)
    (hget : s.worklist[s.idx]? = some item)
    (ho : oracle s.idx = FetchResult.failure err) :
    (stepRun oracle s).dd = on_error s.dd item.domain err := by
  rw [stepRun_failure_eq oracle s item err hget ho]

theorem stepRun_failure_trace (oracle : Nat → FetchResult) (s : RunState)
    (item : WorkItem) (err : String)
    (hget : s.worklist[s.idx]? = some item)
    (ho : oracle s.idx = FetchResult.failure err) :
    (stepRun oracle s).trace = s.trace := by
  rw [stepRun_failure_eq oracle s item err hget ho]

theorem on_success_dd_self_posts (dd : String → DomainState) (domain : String)
    (page_num : Nat) (data : List RawPost) :
    ((on_success dd domain page_num data).dd domain).posts
      = (dd domain).posts ++ (processBatch (dd domain).post_ids data).1 := by
  rw [on_success_dd_self]

/-- One driver step preserves the trace invariant: every domain-file write
performed so far carries a nonempty list that the domain's current
accumulated posts extend, and the trace holds domain-file writes only. -/
theorem stepRun_trace_inv (oracle : Nat → FetchResult) (s : RunState)
    (hinv : ∀ d ps, Event.writeDomainFile d ps ∈ s.trace →
        ps ≠ [] ∧ ∃ t, (s.dd d).posts = ps ++ t)
    (hshape : ∀ e ∈ s.trace, ∃ d ps, e = Event.writeDomainFile d ps) :
    (∀ d ps, Event.writeDomainFile d ps ∈ (stepRun oracle s).trace →
        ps ≠ [] ∧ ∃ t, ((stepRun oracle s).dd d).posts = ps ++ t)
    ∧ (∀ e ∈ (stepRun oracle s).trace, ∃ d ps, e = Event.writeDomainFile d ps) := by
  rcases hget : s.worklist[s.idx]? with _ | item
  · rw [stepRun_none_eq oracle s hget]
    exact ⟨hinv, hshape⟩
  · rcases ho : oracle s.idx with data | err
    · rw [stepRun_success_trace oracle s item data hget ho,
          stepRun_success_dd oracle s item data hget ho]
      constructor
      · intro d ps hmem
        simp only [List.mem_append] at hmem
        rcases hmem with hmem | hmem
        · obtain ⟨hne, t, ht⟩ := hinv d ps hmem
          refine ⟨hne, ?_⟩
          by_cases hd : d = item.domain
          · subst hd
            rw [on_success_dd_self_posts]
            exact ⟨t ++ (processBatch ((s.dd item.domain).post_ids) data).1, by
              rw [ht, List.append_assoc]⟩
          · rw [on_success_dd_other _ _ _ _ _ hd]
            exact ⟨t, ht⟩
        · rw [on_success_events] at hmem
          by_cases hcond : ((s.dd item.domain).posts
              ++ (processBatch ((s.dd item.domain).post_ids) data).1) ≠ []
          · rw [if_pos hcond] at hmem
            have heq := List.mem_singleton.1 hmem
            obtain ⟨rfl, rfl⟩ : d = item.domain ∧
                ps = (s.dd item.domain).posts
                  ++ (processBatch ((s.dd item.domain).post_ids) data).1 := by
              cases heq; exact ⟨rfl, rfl⟩
            refine ⟨hcond, [], ?_⟩
            rw [on_success_dd_self_posts, List.append_nil]
          · rw [if_neg hcond] at hmem
            exact absurd hmem (List.not_mem_nil _)
      · intro e he
        simp only [List.mem_append] at he
        rcases he with he | he
        · exact hshape e he
        · rw [on_success_events] at he
          split at he
          · have := List.mem_singleton.1 he
            subst this
            exact ⟨_, _, rfl⟩
          · exact absurd he (List.not_mem_nil _)
    · rw [stepRun_failure_trace oracle s item err hget ho,
          stepRun_failure_dd oracle s item err hget ho]
      refine ⟨?_, hshape⟩
      intro d ps hmem
      obtain ⟨hne, t, ht⟩ := hinv d ps hmem
      exact ⟨hne, t, by rw [on_error_posts]; exact ht⟩

theorem runDriver_trace_inv (oracle : Nat → FetchResult) (fuel : Nat) :
    ∀ s : RunState,
      (∀ d ps, Event.writeDomainFile d ps ∈ s.trace →
          ps ≠ [] ∧ ∃ t, (s.dd d).posts = ps ++ t) →
      (∀ e ∈ s.trace, ∃ d ps, e = Event.writeDomainFile d ps) →
      (∀ d ps, Event.writeDomainFile d ps ∈ (runDriver oracle fuel s).trace →
          ps ≠ [] ∧ ∃ t, ((runDriver oracle fuel s).dd d).posts = ps ++ t)
      ∧ (∀ e ∈ (runDriver oracle fuel s).trace, ∃ d ps, e = Event.writeDomainFile d ps) := by
  induction fuel with
  | zero => intro s hinv hshape; exact ⟨hinv, hshape⟩
  | succ fuel ih =>
      intro s hinv hshape
      rw [runDriver]
      split
      · obtain ⟨h1, h2⟩ := stepRun_trace_inv oracle s hinv hshape
        exact ih _ h1 h2
      · exact ⟨hinv, hshape⟩

theorem finalizeDomain_events (dd : String → DomainState) (d : String) :
    (finalizeDomain dd d).2.1
      = if (dd d).posts ≠ [] then [Event.writeDomainFile d (dd d).posts] else [] := by
  unfold finalizeDomain
  by_cases hp : (dd d).posts ≠ []
  · simp only [if_pos hp]
  · simp only [if_neg hp]
    split <;> rfl

theorem finalizeDomain_tests (dd : String → DomainState) (d : String) :
    (finalizeDomain dd d).2.2
      = if (dd d).posts ≠ [] then []
        else if truthyMsg (dd d).error = true then [] else [d] := by
  unfold finalizeDomain
  by_cases hp : (dd d).posts ≠ []
  · simp only [if_pos hp]
  · simp only [if_neg hp]
    by_cases hq : truthyMsg (dd d).error = true
    · simp [hq]
    · simp [hq]

theorem finalizePass_cons (dd : String → DomainState) (d : String) (rest : List String) :
    finalizePass dd (d :: rest) =
      ((finalizeDomain dd d).1 :: (finalizePass dd rest).1,
       (finalizeDomain dd d).2.1 ++ (finalizePass dd rest).2.1,
       (finalizeDomain dd d).2.2 ++ (finalizePass dd rest).2.2) := rfl

theorem finalizePass_facts (dd : String → DomainState) :
    ∀ domains : List String,
      (∀ e ∈ (finalizePass dd domains).2.1,
          ∃ d, d ∈ domains ∧ e = Event.writeDomainFile d (dd d).posts ∧ (dd d).posts ≠ [])
      ∧ (∀ d ∈ domains, (dd d).posts ≠ [] →
          Event.writeDomainFile d (dd d).posts ∈ (finalizePass dd domains).2.1) := by
  intro domains
  induction domains with
  | nil => simp [finalizePass]
  | cons d0 rest ih =>
      rw [finalizePass_cons]
      constructor
      · intro e he
        simp only [List.mem_append] at he
        rcases he with he | he
        · rw [finalizeDomain_events] at he
          by_cases hp : (dd d0).posts ≠ []
          · rw [if_pos hp] at he
            have := List.mem_singleton.1 he
            subst this
            exact ⟨d0, List.mem_cons_self _ _, rfl, hp⟩
          · rw [if_neg hp] at he
            exact absurd he (List.not_mem_nil _)
        · obtain ⟨d, hd, he, hne⟩ := ih.1 e he
          exact ⟨d, List.mem_cons_of_mem _ hd, he, hne⟩
      · intro d hd hne
        simp only [List.mem_append]
        rcases List.mem_cons.1 hd with rfl | hd
        · left
          rw [finalizeDomain_events, if_pos hne]
          exact List.mem_singleton_self _
        · right
          exact ih.2 d hd hne

/-! ## Claim C4 -/

/-- C4: Every post stored for a domain by a successfully parsed page is
persisted to that domain's output file before the run summary file is
written: the trace of a whole collection run ends with the single
summary-file write, preceded (for every domain with accumulated posts) by a
write of the domain's output file carrying the full accumulated post list;
every domain-file write in the trace carries a nonempty snapshot that the
domain's final accumulated list extends (overwrite-with-full-accumulated
state, never an append of a fragment); and persistence is incremental: a
driver step that processes a successful page immediately appends the
corresponding file write (whenever the accumulated list is nonempty). -/
theorem C4_persist_before_summary :
    (∀ (domains : List String) (oracle : Nat → FetchResult) (fuel : Nat)
        (testOracle : Nat → TestOutcome) (testFuel : Nat) (res : CollectResult),
      res = collect_wordpress_posts domains oracle fuel testOracle testFuel →
      ∃ pre, res.trace = pre ++ [Event.writeSummary]
        ∧ Event.writeSummary ∉ pre
        ∧ (∀ d ∈ domains, (res.dd d).posts ≠ [] →
            Event.writeDomainFile d (res.dd d).posts ∈ pre)
        ∧ (∀ d ps, Event.writeDomainFile d ps ∈ res.trace →
            ps ≠ [] ∧ ∃ t, (res.dd d).posts = ps ++ t))
    ∧ (∀ (oracle : Nat → FetchResult) (s : RunState) (item : WorkItem) (data : List RawPost),
        s.worklist[s.idx]? = some item → oracle s.idx = FetchResult.success data →
        (stepRun oracle s).trace = s.trace ++
          (if ((stepRun oracle s).dd item.domain).posts ≠ []
           then [Event.writeDomainFile item.domain ((stepRun oracle s).dd item.domain).posts]
           else [])) := by
  constructor
  · intro domains oracle fuel testOracle testFuel res hres
    subst hres
    unfold collect_wordpress_posts
    set s := runDriver oracle fuel (initRun domains) with hs
    obtain ⟨hinv, hshape⟩ := runDriver_trace_inv oracle fuel (initRun domains)
      (by intro d ps h; exact absurd h (List.not_mem_nil _))
      (by intro e h; exact absurd h (List.not_mem_nil _))
    obtain ⟨hfin1, hfin2⟩ := finalizePass_facts s.dd domains
    refine ⟨s.trace ++ (finalizePass s.dd domains).2.1
      ++ (if (finalizePass s.dd domains).2.2.map
            (fun d => (d, siteNoteFor (runTestPass testOracle
              (finalizePass s.dd domains).2.2 testFuel 0 (fun _ => none)) d)) ≠ []
          then [Event.writeSiteNotes] else []), ?_, ?_, ?_, ?_⟩
    · simp [List.append_assoc]
    · intro hmem
      simp only [List.mem_append] at hmem
      rcases hmem with (hmem | hmem) | hmem
      · obtain ⟨d, ps, he⟩ := hshape _ hmem
        cases he
      · obtain ⟨d, _, he, _⟩ := hfin1 _ hmem
        cases he
      · split at hmem
        · rcases List.mem_singleton.1 hmem with h
          cases h
        · exact absurd hmem (List.not_mem_nil _)
    · intro d hd hne
      simp only [List.mem_append]
      left; right
      exact hfin2 d hd hne
    · intro d ps hmem
      simp only [List.mem_append] at hmem
      rcases hmem with ((hmem | hmem) | hmem) | hmem
      · exact hinv d ps hmem
      · obtain ⟨d', hd', he, hne⟩ := hfin1 _ hmem
        obtain ⟨rfl, rfl⟩ : d = d' ∧ ps = (s.dd d').posts := by cases he; exact ⟨rfl, rfl⟩
        exact ⟨hne, [], by simp⟩
      · split at hmem
        · rcases List.mem_singleton.1 hmem with h
          cases h
        · exact absurd hmem (List.not_mem_nil _)
      · rcases List.mem_singleton.1 hmem with h
        cases h
  · intro oracle s item data hget horacle
    rw [stepRun_success_trace oracle s item data hget horacle,
        stepRun_success_dd oracle s item data hget horacle,
        on_success_dd_self_posts, on_success_events]

/-! ## Lemmas for the diagnostic sub-pass (claim C8) -/

theorem finalizePass_tests (dd : String → DomainState) :
    ∀ domains : List String,
      (finalizePass dd domains).2.2
        = domains.filter (fun d => (dd d).posts.isEmpty && !(truthyMsg (dd d).error)) := by
  intro domains
  induction domains with
  | nil => rfl
  | cons d0 rest ih =>
      rw [finalizePass_cons, finalizeDomain_tests, List.filter_cons, ih]
      by_cases hp : (dd d0).posts ≠ []
      · rw [if_pos hp]
        have : ((dd d0).posts.isEmpty && !(truthyMsg (dd d0).error)) = false := by
          have : (dd d0).posts.isEmpty = false := by
            cases h : (dd d0).posts with
            | nil => exact absurd h hp
            | cons a l => rfl
          simp [this]
        rw [this]
        simp
      · have hempty : (dd d0).posts.isEmpty = true := by
          rcases h : (dd d0).posts with _ | ⟨a, l⟩
          · rfl
          · exact absurd (by rw [h]; simp) hp
        rw [if_neg hp]
        by_cases hq : truthyMsg (dd d0).error = true
        · rw [if_pos hq]
          have : ((dd d0).posts.isEmpty && !(truthyMsg (dd d0).error)) = false := by
            simp [hq]
          rw [this]
          simp
        · rw [if_neg hq]
          have : ((dd d0).posts.isEmpty && !(truthyMsg (dd d0).error)) = true := by
            simp [hempty, hq]
          rw [this]
          simp

/-- Characterization of `test_results` after the diagnostic fetch loop over
a duplicate-free site list: the entry of the `j`-th site reflects the
`j`-th oracle outcome when the loop got that far, and is absent
otherwise. -/
theorem runTestPass_lookup (oracle : Nat → TestOutcome) (sites : List String)
    (hnd : sites.Nodup) :
    ∀ (fuel i : Nat) (results : String → Option SiteNote)
      (j : Nat) (hj : j < sites.length),
      (runTestPass oracle sites fuel i results) (sites.get ⟨j, hj⟩)
        = if i ≤ j ∧ j < i + fuel then some (testNoteOf (oracle j))
          else results (sites.get ⟨j, hj⟩) := by
  intro fuel
  induction fuel with
  | zero =>
      intro i results j hj
      rw [runTestPass, if_neg (by omega)]
  | succ fuel ih =>
      intro i results j hj
      rw [runTestPass]
      rcases hget : sites[i]? with _ | d0
      · have hlen : sites.length ≤ i := by
          simpa using List.getElem?_eq_none_iff.1 hget
        rw [if_neg (by omega)]
      · have hi : i < sites.length := by
          by_contra hcon
          rw [List.getElem?_eq_none_iff.2 (by omega)] at hget
          cases hget
        have hd0 : sites.get ⟨i, hi⟩ = d0 := by
          have := List.getElem?_eq_some_iff.1 hget
          obtain ⟨h1, h2⟩ := this
          simpa [List.get_eq_getElem] using h2
        show runTestPass oracle sites fuel (i + 1)
            (fun x => if x = d0 then some (testNoteOf (oracle i)) else results x)
            (sites.get ⟨j, hj⟩) = _
        rw [ih (i + 1) _ j hj]
        by_cases hji : j = i
        · subst hji
          rw [if_neg (show ¬(j + 1 ≤ j ∧ j < j + 1 + fuel) by omega),
              if_pos (show j ≤ j ∧ j < j + (fuel + 1) by omega)]
          show (if sites.get ⟨j, hj⟩ = d0
              then some (testNoteOf (oracle j))
              else results (sites.get ⟨j, hj⟩)) = _
          rw [if_pos (show sites.get ⟨j, hj⟩ = d0 from hd0)]
        · have hne : sites.get ⟨j, hj⟩ ≠ d0 := by
            rw [← hd0]
            intro hcon
            have : (⟨j, hj⟩ : Fin sites.length) = ⟨i, hi⟩ :=
              (List.Nodup.get_inj_iff hnd).1 hcon
            exact hji (congrArg Fin.val this)
          by_cases hcond : i ≤ j ∧ j < i + (fuel + 1)
          · rw [if_pos (show i + 1 ≤ j ∧ j < i + 1 + fuel by omega), if_pos hcond]
          · rw [if_neg (show ¬(i + 1 ≤ j ∧ j < i + 1 + fuel) by omega), if_neg hcond]
            show (if sites.get ⟨j, hj⟩ = d0
                then some (testNoteOf (oracle i))
                else results (sites.get ⟨j, hj⟩)) = _
            rw [if_neg hne]

/-- Counterexample to C8 as stated: in `c8Example` the domain `"a"` ends
the main pass with zero posts and a *recorded error* (`status = "error"`,
`error = ""`, from a fetch failure whose exception text is empty), yet it
still receives a diagnostic request, because the source tests
`not result.get("error_message")`, which is true for the empty string. -/
theorem C8_diagnostics_counterexample :
    ((c8Example.dd "a").posts = []
      ∧ (c8Example.dd "a").status = "error"
      ∧ (c8Example.dd "a").error = some ""
      ∧ c8Example.sites_needing_testing = ["a"]
      ∧ c8Example.test_items = [("a", testQuery)]) := by
  refine ⟨rfl, rfl, rfl, rfl, rfl⟩

/-- C8 (amended): exactly the domains whose accumulated post count is zero
and whose recorded error message is absent or empty receive one additional
diagnostic request with `per_page=10`, `order=desc` and no `after` filter;
each such domain ends with a diagnostics record where `has_json_api` is
true on a successful fetch (with the fetched article count), false on a
fetch error, and null when the test did not complete. -/
theorem C8_diagnostics_amended :
    ∀ (domains : List String) (oracle : Nat → FetchResult) (fuel : Nat)
      (testOracle : Nat → TestOutcome) (testFuel : Nat) (res : CollectResult),
      domains.Nodup →
      res = collect_wordpress_posts domains oracle fuel testOracle testFuel →
      (res.sites_needing_testing
          = domains.filter (fun d => (res.dd d).posts.isEmpty && !(truthyMsg (res.dd d).error)))
      ∧ (res.test_items = res.sites_needing_testing.map (fun d => (d, testQuery)))
      ∧ (∀ (j : Nat) (hj : j < res.sites_needing_testing.length),
          res.site_notes[j]? =
            some (res.sites_needing_testing.get ⟨j, hj⟩,
              if j < testFuel then testNoteOf (testOracle j)
              else { has_json_api := none, articles_found := 0,
                     note := "Test was not completed", error := none }))
      ∧ (∀ data, (testNoteOf (TestOutcome.listData data)).has_json_api = some true
            ∧ (testNoteOf (TestOutcome.listData data)).articles_found = data.length)
      ∧ (∀ err, (testNoteOf (TestOutcome.failure err)).has_json_api = some false
            ∧ (testNoteOf (TestOutcome.failure err)).articles_found = 0) := by
  intro domains oracle fuel testOracle testFuel res hnd hres
  subst hres
  have hsites : (collect_wordpress_posts domains oracle fuel testOracle testFuel).sites_needing_testing
      = (finalizePass (runDriver oracle fuel (initRun domains)).dd domains).2.2 := rfl
  have hfilter := finalizePass_tests (runDriver oracle fuel (initRun domains)).dd domains
  refine ⟨?_, rfl, ?_, ?_, ?_⟩
  · rw [hsites, hfilter]
    rfl
  · intro j hj
    rw [hsites] at hj
    have hnd2 : (finalizePass (runDriver oracle fuel (initRun domains)).dd domains).2.2.Nodup := by
      rw [hfilter]
      exact List.Nodup.filter _ hnd
    show ((finalizePass (runDriver oracle fuel (initRun domains)).dd domains).2.2.map
        (fun d => (d, siteNoteFor (runTestPass testOracle
          (finalizePass (runDriver oracle fuel (initRun domains)).dd domains).2.2
          testFuel 0 (fun _ => none)) d)))[j]? = _
    rw [List.getElem?_map]
    have hj2 : (finalizePass (runDriver oracle fuel (initRun domains)).dd domains).2.2[j]?
        = some ((finalizePass (runDriver oracle fuel (initRun domains)).dd domains).2.2.get ⟨j, hj⟩) := by
      rw [List.getElem?_eq_some_iff]
      exact ⟨hj, rfl⟩
    rw [hj2]
    have hlook := runTestPass_lookup testOracle _ hnd2 testFuel 0 (fun _ => none) j hj
    show some (_, siteNoteFor _ _) = _
    rw [Option.some.injEq]
    refine Prod.ext rfl ?_
    show siteNoteFor _ _ = _
    unfold siteNoteFor
    rw [hlook]
    by_cases hcond : j < testFuel
    · rw [if_pos (by omega), if_pos hcond]
    · rw [if_neg (by omega), if_neg hcond]
  · intro data; exact ⟨rfl, rfl⟩
  · intro err; exact ⟨rfl, rfl⟩

/-- Witness for C8 (amended) at a concrete input: the run `c8Example2`
(one domain, successful fetch with zero posts, failing diagnostic fetch). -/
theorem C8_diagnostics_amended_witness :
    (c8Example2.sites_needing_testing
        = ["a"].filter (fun d => (c8Example2.dd d).posts.isEmpty
            && !(truthyMsg (c8Example2.dd d).error)))
      ∧ (c8Example2.test_items = c8Example2.sites_needing_testing.map (fun d => (d, testQuery)))
      ∧ (∀ (j : Nat) (hj : j < c8Example2.sites_needing_testing.length),
          c8Example2.site_notes[j]? =
            some (c8Example2.sites_needing_testing.get ⟨j, hj⟩,
              if j < 1 then testNoteOf ((fun _ => TestOutcome.failure "no api") j)
              else { has_json_api := none, articles_found := 0,
                     note := "Test was not completed", error := none }))
      ∧ (∀ data, (testNoteOf (TestOutcome.listData data)).has_json_api = some true
            ∧ (testNoteOf (TestOutcome.listData data)).articles_found = data.length)
      ∧ (∀ err, (testNoteOf (TestOutcome.failure err)).has_json_api = some false
            ∧ (testNoteOf (TestOutcome.failure err)).articles_found = 0) := by
  exact C8_diagnostics_amended ["a"] (fun _ => FetchResult.success []) 1
    (fun _ => TestOutcome.failure "no api") 1 c8Example2 (by simp) rfl

/-- Witness for C4 at a concrete input: the single-domain run `c4Example`
satisfies the persist-before-summary property. -/
theorem C4_persist_before_summary_witness :
    ∃ pre, c4Example.trace = pre ++ [Event.writeSummary]
      ∧ Event.writeSummary ∉ pre
      ∧ (∀ d ∈ ["a"], (c4Example.dd d).posts ≠ [] →
          Event.writeDomainFile d (c4Example.dd d).posts ∈ pre)
      ∧ (∀ d ps, Event.writeDomainFile d ps ∈ c4Example.trace →
          ps ≠ [] ∧ ∃ t, (c4Example.dd d).posts = ps ++ t) := by
  exact C4_persist_before_summary.1 ["a"]
    (fun _ => FetchResult.success [{ id := some 1, tag := 0 }]) 1
    (fun _ => TestOutcome.nonListData) 0 c4Example rfl

/-! ## Claims C7 and C9 (normalizer error handling) -/

/-- C7 (code bug): the claim says every per-article failure is contained
and that an absent or unusual featured-media link yields an absent
`image_url` rather than an exception.  The code contains errors raised
*inside* the required-fields `try` and skips non-dict items, and an absent
featured-media link indeed yields an absent `image_url`; but a *present*
`_links["wp:featuredmedia"]` that is an empty array makes line 88 raise an
uncaught `IndexError` which aborts the whole
`process_collection_directory` run.  This theorem evaluates the model at
that failing input, and contrasts it with the absent-media case. -/
theorem C7_featuredmedia_abort :
    (normalize_article ext0 emptyMediaArticleKvs 1 = NormResult.exn "IndexError")
    ∧ (process_collection_directory ext0 "out"
        [("a.json", FileContent.arr [PyV.vdict emptyMediaArticleKvs])] 1 []
        = Except.error "IndexError")
    ∧ (imageUrlField okArticleKvs = Except.ok none)
    ∧ (process_collection_directory ext0 "out"
        [("a.json", FileContent.arr [PyV.vdict okArticleKvs])] 1 []
        = Except.ok ([okArticlePath],
            { files_processed := 1, articles_new := 1, articles_skipped := 0,
              errors := 0, errors_list := [] })) :=
  ⟨rfl, rfl, rfl, rfl⟩

/-- C9: a raw post with no `link` key normalizes to no article and an
error message identifying the post by its id
(`"Error processing required fields for article ID: {id}: KeyError - 'link'"`,
see `reqErrMsg`); in the batch this appends the message and increments
`errors` while `articles_new` is untouched and nothing is written. -/
theorem C9_missing_link :
    ∀ (ext : ExternalFns) (kvs : List (String × PyV)) (ts k : Int)
      (outputDir filename : String) (fs : List String) (st : NormStats),
      dictGet kvs "link" = none →
      dictGet kvs "id" = some (PyV.vint k) →
      (normalize_article ext kvs ts
          = NormResult.err (reqErrMsg ("ID: " ++ toString k) "KeyError" "'link'"))
      ∧ (processArticles ext outputDir filename ts [PyV.vdict kvs] (fs, st)
          = Except.ok (fs, addError (reqErrMsg ("ID: " ++ toString k) "KeyError" "'link'") st))
      ∧ (∀ m, (addError m st).articles_new = st.articles_new
            ∧ (addError m st).errors = st.errors + 1
            ∧ (addError m st).errors_list = st.errors_list ++ [m]) := by
  intro ext kvs ts k outputDir filename fs st hlink hid
  have hident : articleIdentifier kvs = "ID: " ++ toString k := by
    unfold articleIdentifier
    rw [hlink, hid]
    rfl
  have hmsg : normalize_article ext kvs ts
      = NormResult.err (reqErrMsg ("ID: " ++ toString k) "KeyError" "'link'") := by
    simp only [normalize_article]
    rw [hlink, hident]
  refine ⟨hmsg, ?_, fun m => ⟨rfl, rfl, rfl⟩⟩
  have hstep : itemStep ext outputDir filename ts (PyV.vdict kvs)
      = ItemStep.recordErr (reqErrMsg ("ID: " ++ toString k) "KeyError" "'link'") := by
    show (match normalize_article ext kvs ts with
          | NormResult.exn name => ItemStep.abort name
          | NormResult.err msg => ItemStep.recordErr msg
          | NormResult.ok art => ItemStep.okPath (articlePath ext outputDir art)) = _
    rw [hmsg]
  show (match itemStep ext outputDir filename ts (PyV.vdict kvs) with
        | ItemStep.abort name => Except.error name
        | ItemStep.recordErr msg =>
            processArticles ext outputDir filename ts [] (fs, addError msg st)
        | ItemStep.okPath path =>
            if path ∈ fs then
              processArticles ext outputDir filename ts []
                (fs, { st with articles_skipped := st.articles_skipped + 1 })
            else
              processArticles ext outputDir filename ts []
                (fs ++ [path], { st with articles_new := st.articles_new + 1 })) = _
  rw [hstep]
  rfl

/-- Witness for C9 at a concrete input: a post with only an id, showing
the exact message text. -/
theorem C9_missing_link_witness :
    (normalize_article ext0 [("id", PyV.vint 42)] 1
        = NormResult.err
            "Error processing required fields for article ID: 42: KeyError - 'link'")
    ∧ (processArticles ext0 "out" "a.json" 1 [PyV.vdict [("id", PyV.vint 42)]] ([], initStats)
        = Except.ok ([], addError
            "Error processing required fields for article ID: 42: KeyError - 'link'"
            initStats)) := by
  have h := C9_missing_link ext0 [("id", PyV.vint 42)] 1 42 "out" "a.json" [] initStats
    rfl rfl
  exact ⟨h.1, h.2.1⟩

/-! ## Rerun lemmas for the normalizer (claim C6) -/

theorem statsAdd_addError (st : NormStats) (msg : String) (dN dS dE : Nat) (msgs : List String) :
    statsAdd (addError msg st) dN dS dE msgs = statsAdd st dN dS (1 + dE) (msg :: msgs) := by
  simp [statsAdd, addError, Nat.add_assoc]

theorem statsAdd_skip (st : NormStats) (dN dS dE : Nat) (msgs : List String) :
    statsAdd { st with articles_skipped := st.articles_skipped + 1 } dN dS dE msgs
      = statsAdd st dN (1 + dS) dE msgs := by
  simp [statsAdd, Nat.add_assoc]

theorem statsAdd_new (st : NormStats) (dN dS dE : Nat) (msgs : List String) :
    statsAdd { st with articles_new := st.articles_new + 1 } dN dS dE msgs
      = statsAdd st (1 + dN) dS dE msgs := by
  simp [statsAdd, Nat.add_assoc]

theorem statsAdd_congr (st : NormStats) (msgs : List String) {dN dS dE dN' dS' dE' : Nat}
    (h1 : dN = dN') (h2 : dS = dS') (h3 : dE = dE') :
    statsAdd st dN dS dE msgs = statsAdd st dN' dS' dE' msgs := by
  subst h1; subst h2; subst h3; rfl

theorem processArticles_cons (ext : ExternalFns) (outputDir filename : String) (ts : Int)
    (item : PyV) (rest : List PyV) (fs : List String) (st : NormStats) :
    processArticles ext outputDir filename ts (item :: rest) (fs, st)
      = match itemStep ext outputDir filename ts item with
        | ItemStep.abort name => Except.error name
        | ItemStep.recordErr msg =>
            processArticles ext outputDir filename ts rest (fs, addError msg st)
        | ItemStep.okPath path =>
            if path ∈ fs then
              processArticles ext outputDir filename ts rest
                (fs, { st with articles_skipped := st.articles_skipped + 1 })
            else
              processArticles ext outputDir filename ts rest
                (fs ++ [path], { st with articles_new := st.articles_new + 1 }) := rfl

/-- Core rerun lemma at the article level: if a pass over `items` succeeds,
it only adds output files, its statistics change by fixed deltas, and a
second pass over the same items from any file set containing the first
pass's final one writes nothing and skips every article that was new or
skipped before. -/
theorem processArticles_rerun (ext : ExternalFns) (outputDir filename : String) (ts : Int) :
    ∀ (items : List PyV) (fs : List String) (st : NormStats)
      (fs' : List String) (st' : NormStats),
      processArticles ext outputDir filename ts items (fs, st) = Except.ok (fs', st') →
      ∃ dN dS dE msgs added,
        fs' = fs ++ added ∧
        st' = statsAdd st dN dS dE msgs ∧
        ∀ (fs₂ : List String) (st₂ : NormStats), (∀ p, p ∈ fs' → p ∈ fs₂) →
          processArticles ext outputDir filename ts items (fs₂, st₂)
            = Except.ok (fs₂, statsAdd st₂ 0 (dN + dS) dE msgs) := by
  intro items
  induction items with
  | nil =>
      intro fs st fs' st' h
      have h2 : Except.ok (ε := String) (fs, st) = Except.ok (fs', st') := h
      have h3 : (fs, st) = (fs', st') := by injection h2
      obtain ⟨rfl, rfl⟩ : fs = fs' ∧ st = st' :=
        ⟨congrArg Prod.fst h3, congrArg Prod.snd h3⟩
      refine ⟨0, 0, 0, [], [], by simp, by simp [statsAdd], ?_⟩
      intro fs₂ st₂ _
      simp [processArticles, statsAdd]
  | cons item rest ih =>
      intro fs st fs' st' h
      rw [processArticles_cons] at h
      rcases hstep : itemStep ext outputDir filename ts item with name | msg | path
      · rw [hstep] at h
        exact absurd (show Except.error name = Except.ok (fs', st') from h) (by simp)
      · rw [hstep] at h
        have h2 : processArticles ext outputDir filename ts rest (fs, addError msg st)
            = Except.ok (fs', st') := h
        obtain ⟨dN, dS, dE, msgs, added, hfs, hst, hrun2⟩ := ih fs (addError msg st) fs' st' h2
        refine ⟨dN, dS, 1 + dE, msg :: msgs, added, hfs, ?_, ?_⟩
        · rw [hst, statsAdd_addError]
        · intro fs₂ st₂ hsub
          rw [processArticles_cons, hstep]
          exact (hrun2 fs₂ (addError msg st₂) hsub).trans (by rw [statsAdd_addError])
      · rw [hstep] at h
        have h2 : (if path ∈ fs then
              processArticles ext outputDir filename ts rest
                (fs, { st with articles_skipped := st.articles_skipped + 1 })
            else
              processArticles ext outputDir filename ts rest
                (fs ++ [path], { st with articles_new := st.articles_new + 1 }))
            = Except.ok (fs', st') := h
        by_cases hmem : path ∈ fs
        · rw [if_pos hmem] at h2
          obtain ⟨dN, dS, dE, msgs, added, hfs, hst, hrun2⟩ := ih fs _ fs' st' h2
          refine ⟨dN, 1 + dS, dE, msgs, added, hfs, ?_, ?_⟩
          · rw [hst, statsAdd_skip]
          · intro fs₂ st₂ hsub
            rw [processArticles_cons, hstep]
            have hmem2 : path ∈ fs₂ := hsub path (hfs ▸ List.mem_append_left _ hmem)
            show (if path ∈ fs₂ then
                processArticles ext outputDir filename ts rest
                  (fs₂, { st₂ with articles_skipped := st₂.articles_skipped + 1 })
              else
                processArticles ext outputDir filename ts rest
                  (fs₂ ++ [path], { st₂ with articles_new := st₂.articles_new + 1 })) = _
            rw [if_pos hmem2]
            refine (hrun2 fs₂ _ hsub).trans ?_
            rw [statsAdd_skip]
            exact congrArg (fun s => Except.ok (fs₂, s))
              (statsAdd_congr st₂ msgs rfl (by omega) rfl)
        · rw [if_neg hmem] at h2
          obtain ⟨dN, dS, dE, msgs, added, hfs, hst, hrun2⟩ := ih (fs ++ [path]) _ fs' st' h2
          refine ⟨1 + dN, dS, dE, msgs, path :: added, ?_, ?_, ?_⟩
          · rw [hfs, List.append_assoc]
            rfl
          · rw [hst, statsAdd_new]
          · intro fs₂ st₂ hsub
            rw [processArticles_cons, hstep]
            have hmem2 : path ∈ fs₂ :=
              hsub path (hfs ▸ List.mem_append_left _ (List.mem_append_right _ (by simp)))
            show (if path ∈ fs₂ then
                processArticles ext outputDir filename ts rest
                  (fs₂, { st₂ with articles_skipped := st₂.articles_skipped + 1 })
              else
                processArticles ext outputDir filename ts rest
                  (fs₂ ++ [path], { st₂ with articles_new := st₂.articles_new + 1 })) = _
            rw [if_pos hmem2]
            refine (hrun2 fs₂ _ hsub).trans ?_
            rw [statsAdd_skip]
            exact congrArg (fun s => Except.ok (fs₂, s))
              (statsAdd_congr st₂ msgs rfl (by omega) rfl)

theorem statsAddF_addError_file (st : NormStats) (m : String) (dF dN dS dE : Nat)
    (msgs : List String) :
    statsAddF (addError m { st with files_processed := st.files_processed + 1 }) dF dN dS dE msgs
      = statsAddF st (1 + dF) dN dS (1 + dE) (m :: msgs) := by
  simp [statsAddF, addError, Nat.add_assoc]

theorem statsAddF_comp (st : NormStats) (aN aS aE dF dN dS dE : Nat)
    (am msgs : List String) :
    statsAddF (statsAdd { st with files_processed := st.files_processed + 1 } aN aS aE am)
        dF dN dS dE msgs
      = statsAddF st (1 + dF) (aN + dN) (aS + dS) (aE + dE) (am ++ msgs) := by
  simp [statsAddF, statsAdd, Nat.add_assoc]

theorem statsAddF_congr (st : NormStats) (msgs : List String)
    {dF dN dS dE dF' dN' dS' dE' : Nat}
    (h0 : dF = dF') (h1 : dN = dN') (h2 : dS = dS') (h3 : dE = dE') :
    statsAddF st dF dN dS dE msgs = statsAddF st dF' dN' dS' dE' msgs := by
  subst h0; subst h1; subst h2; subst h3; rfl

theorem processFile_skip (ext : ExternalFns) (outputDir : String) (ts : Int)
    (fs : List String) (st : NormStats) (filename : String) (content : FileContent)
    (h : ¬ strEndsWith filename ".json" = true ∨ filename = "_collection_summary.json"
      ∨ filename = "_normalization_summary.json") :
    processFile ext outputDir ts (fs, st) (filename, content) = Except.ok (fs, st) := by
  show (if ¬ strEndsWith filename ".json" = true ∨ filename = "_collection_summary.json"
        ∨ filename = "_normalization_summary.json" then
      Except.ok (fs, st)
    else
      match content with
      | FileContent.bad =>
          Except.ok (fs, addError
            ("Error decoding JSON or file is not a list of articles: " ++ filename)
            { st with files_processed := st.files_processed + 1 })
      | FileContent.arr items =>
          processArticles ext outputDir filename ts items
            (fs, { st with files_processed := st.files_processed + 1 })) = _
  rw [if_pos h]

theorem processFile_bad (ext : ExternalFns) (outputDir : String) (ts : Int)
    (fs : List String) (st : NormStats) (filename : String)
    (h : ¬ (¬ strEndsWith filename ".json" = true ∨ filename = "_collection_summary.json"
      ∨ filename = "_normalization_summary.json")) :
    processFile ext outputDir ts (fs, st) (filename, FileContent.bad)
      = Except.ok (fs, addError
          ("Error decoding JSON or file is not a list of articles: " ++ filename)
          { st with files_processed := st.files_processed + 1 }) := by
  show (if ¬ strEndsWith filename ".json" = true ∨ filename = "_collection_summary.json"
        ∨ filename = "_normalization_summary.json" then
      Except.ok (fs, st)
    else
      Except.ok (fs, addError
        ("Error decoding JSON or file is not a list of articles: " ++ filename)
        { st with files_processed := st.files_processed + 1 })) = _
  rw [if_neg h]

theorem processFile_arr (ext : ExternalFns) (outputDir : String) (ts : Int)
    (fs : List String) (st : NormStats) (filename : String) (items : List PyV)
    (h : ¬ (¬ strEndsWith filename ".json" = true ∨ filename = "_collection_summary.json"
      ∨ filename = "_normalization_summary.json")) :
    processFile ext outputDir ts (fs, st) (filename, FileContent.arr items)
      = processArticles ext outputDir filename ts items
          (fs, { st with files_processed := st.files_processed + 1 }) := by
  show (if ¬ strEndsWith filename ".json" = true ∨ filename = "_collection_summary.json"
        ∨ filename = "_normalization_summary.json" then
      Except.ok (fs, st)
    else
      processArticles ext outputDir filename ts items
        (fs, { st with files_processed := st.files_processed + 1 })) = _
  rw [if_neg h]

/-- Rerun lemma at the file level. -/
theorem processFiles_rerun (ext : ExternalFns) (outputDir : String) (ts : Int) :
    ∀ (files : List (String × FileContent)) (fs : List String) (st : NormStats)
      (fs' : List String) (st' : NormStats),
      processFiles ext outputDir ts files (fs, st) = Except.ok (fs', st') →
      ∃ dF dN dS dE msgs added,
        fs' = fs ++ added ∧
        st' = statsAddF st dF dN dS dE msgs ∧
        ∀ st₂ : NormStats,
          processFiles ext outputDir ts files (fs', st₂)
            = Except.ok (fs', statsAddF st₂ dF 0 (dN + dS) dE msgs) := by
  intro files
  induction files with
  | nil =>
      intro fs st fs' st' h
      have h2 : Except.ok (ε := String) (fs, st) = Except.ok (fs', st') := h
      have h3 : (fs, st) = (fs', st') := by injection h2
      obtain ⟨rfl, rfl⟩ : fs = fs' ∧ st = st' :=
        ⟨congrArg Prod.fst h3, congrArg Prod.snd h3⟩
      refine ⟨0, 0, 0, 0, [], [], by simp, by simp [statsAddF], ?_⟩
      intro st₂
      simp [processFiles, statsAddF]
  | cons file rest ih =>
      intro fs st fs' st' h
      obtain ⟨filename, content⟩ := file
      rw [processFiles] at h
      by_cases hskip : ¬ strEndsWith filename ".json" = true
          ∨ filename = "_collection_summary.json"
          ∨ filename = "_normalization_summary.json"
      · rw [processFile_skip ext outputDir ts fs st filename content hskip] at h
        have h2 : processFiles ext outputDir ts rest (fs, st) = Except.ok (fs', st') := h
        obtain ⟨dF, dN, dS, dE, msgs, added, hfs, hst, hrun2⟩ := ih fs st fs' st' h2
        refine ⟨dF, dN, dS, dE, msgs, added, hfs, hst, ?_⟩
        intro st₂
        rw [processFiles, processFile_skip ext outputDir ts fs' st₂ filename content hskip]
        exact hrun2 st₂
      · cases content with
        | bad =>
            rw [processFile_bad ext outputDir ts fs st filename hskip] at h
            have h2 : processFiles ext outputDir ts rest
                (fs, addError _ { st with files_processed := st.files_processed + 1 })
                = Except.ok (fs', st') := h
            obtain ⟨dF, dN, dS, dE, msgs, added, hfs, hst, hrun2⟩ := ih _ _ fs' st' h2
            refine ⟨1 + dF, dN, dS, 1 + dE,
              ("Error decoding JSON or file is not a list of articles: " ++ filename) :: msgs,
              added, hfs, ?_, ?_⟩
            · rw [hst, statsAddF_addError_file]
            · intro st₂
              rw [processFiles, processFile_bad ext outputDir ts fs' st₂ filename hskip]
              exact (hrun2 _).trans (by rw [statsAddF_addError_file])
        | arr items =>
            rw [processFile_arr ext outputDir ts fs st filename items hskip] at h
            rcases hpa : processArticles ext outputDir filename ts items
                (fs, { st with files_processed := st.files_processed + 1 }) with e | acc
            · rw [hpa] at h
              exact absurd (show Except.error e = Except.ok (fs', st') from h) (by simp)
            · obtain ⟨fsm, stm⟩ := acc
              rw [hpa] at h
              have h2 : processFiles ext outputDir ts rest (fsm, stm)
                  = Except.ok (fs', st') := h
              obtain ⟨aN, aS, aE, am, aadded, hafs, hast, harun2⟩ :=
                processArticles_rerun ext outputDir filename ts items fs _ fsm stm hpa
              obtain ⟨dF, dN, dS, dE, msgs, added, hfs, hst, hrun2⟩ := ih fsm stm fs' st' h2
              refine ⟨1 + dF, aN + dN, aS + dS, aE + dE, am ++ msgs, aadded ++ added,
                ?_, ?_, ?_⟩
              · rw [hfs, hafs, List.append_assoc]
              · rw [hst, hast, statsAddF_comp]
              · intro st₂
                rw [processFiles]
                have hsub : ∀ p, p ∈ fsm → p ∈ fs' := by
                  intro p hp
                  rw [hfs]
                  exact List.mem_append_left _ hp
                rw [processFile_arr ext outputDir ts fs' st₂ filename items hskip,
                  harun2 fs' _ hsub]
                show processFiles ext outputDir ts rest
                    (fs', statsAdd { st₂ with files_processed := st₂.files_processed + 1 }
                      0 (aN + aS) aE am) = _
                rw [hrun2]
                refine congrArg (fun s => Except.ok (fs', s)) ?_
                rw [statsAddF_comp]
                exact statsAddF_congr st₂ (am ++ msgs) rfl (by omega) (by omega) rfl

/-! ## Claim C6 (normalizer idempotence) -/

/-- Counterexample to C6 as stated: a raw input file holding the same
article twice.  The first run writes one file and skips one duplicate
(`articles_new = 1`, `articles_skipped = 1`); the second run skips both
(`articles_skipped = 2`), so the second run's `articles_skipped` does not
equal the first run's `articles_new`. -/
theorem C6_idempotence_counterexample :
    (process_collection_directory ext0 "out" c6Files 1 []
        = Except.ok ([okArticlePath],
            { files_processed := 1, articles_new := 1, articles_skipped := 1,
              errors := 0, errors_list := [] }))
    ∧ (process_collection_directory ext0 "out" c6Files 1 [okArticlePath]
        = Except.ok ([okArticlePath],
            { files_processed := 1, articles_new := 0, articles_skipped := 2,
              errors := 0, errors_list := [] }))
    ∧ (2 : Nat) ≠ (1 : Nat) :=
  ⟨rfl, rfl, by decide⟩

/-- C6 (amended): normalization writes each article file at most once per
url hash; running `process_collection_directory` twice over the same raw
input produces zero new files on the second run, and the second run's
`articles_skipped` equals the first run's `articles_new` *plus* the first
run's `articles_skipped` (every article the first run wrote or skipped is
skipped again); error counts and messages repeat identically. -/
theorem C6_idempotence_amended :
    ∀ (ext : ExternalFns) (outputDir : String) (files : List (String × FileContent))
      (ts : Int) (fs0 fs1 fs2 : List String) (st1 st2 : NormStats),
      process_collection_directory ext outputDir files ts fs0 = Except.ok (fs1, st1) →
      process_collection_directory ext outputDir files ts fs1 = Except.ok (fs2, st2) →
      fs2 = fs1
      ∧ st2.articles_new = 0
      ∧ st2.articles_skipped = st1.articles_new + st1.articles_skipped
      ∧ st2.errors = st1.errors
      ∧ st2.errors_list = st1.errors_list
      ∧ st2.files_processed = st1.files_processed := by
  intro ext outputDir files ts fs0 fs1 fs2 st1 st2 h1 h2
  obtain ⟨dF, dN, dS, dE, msgs, added, hfs, hst, hrun2⟩ :=
    processFiles_rerun ext outputDir ts files fs0 initStats fs1 st1 h1
  have h2' : Except.ok (ε := String) (fs1, statsAddF initStats dF 0 (dN + dS) dE msgs)
      = Except.ok (fs2, st2) := by
    rw [← hrun2 initStats]
    exact h2
  have h3 : (fs1, statsAddF initStats dF 0 (dN + dS) dE msgs) = (fs2, st2) := by
    injection h2'
  obtain ⟨rfl, rfl⟩ : fs1 = fs2 ∧ statsAddF initStats dF 0 (dN + dS) dE msgs = st2 :=
    ⟨congrArg Prod.fst h3, congrArg Prod.snd h3⟩
  rw [hst]
  refine ⟨rfl, ?_, ?_, ?_, ?_, ?_⟩ <;> simp [statsAddF, initStats]

/-- Witness for C6 (amended) at a concrete input: the duplicate-article
directory `c6Files`. -/
theorem C6_idempotence_amended_witness :
    ([okArticlePath] : List String) = [okArticlePath]
    ∧ ({ files_processed := 1, articles_new := 0, articles_skipped := 2,
         errors := 0, errors_list := [] } : NormStats).articles_new = 0
    ∧ ({ files_processed := 1, articles_new := 0, articles_skipped := 2,
         errors := 0, errors_list := [] } : NormStats).articles_skipped
        = ({ files_processed := 1, articles_new := 1, articles_skipped := 1,
             errors := 0, errors_list := [] } : NormStats).articles_new
          + ({ files_processed := 1, articles_new := 1, articles_skipped := 1,
               errors := 0, errors_list := [] } : NormStats).articles_skipped := by
  have h := C6_idempotence_amended ext0 "out" c6Files 1 [] [okArticlePath] [okArticlePath]
    { files_processed := 1, articles_new := 1, articles_skipped := 1,
      errors := 0, errors_list := [] }
    { files_processed := 1, articles_new := 0, articles_skipped := 2,
      errors := 0, errors_list := [] }
    rfl rfl
  exact ⟨h.1, h.2.1, h.2.2.1⟩


/-- Simultaneous induction over the three mutual JSON value types. -/
theorem jmut (P : JVal → Prop) (Q : JList → Prop) (R : JMembers → Prop)
    (h1 : P JVal.jnull) (h2 : ∀ b, P (JVal.jbool b))
    (h3 : ∀ s, P (JVal.jnum s)) (h4 : ∀ s, P (JVal.jstr s))
    (h5 : ∀ l, Q l → P (JVal.jarr l)) (h6 : ∀ m, R m → P (JVal.jobj m))
    (h7 : Q JList.jnil) (h8 : ∀ v l, P v → Q l → Q (JList.jcons v l))
    (h9 : R JMembers.mnil) (h10 : ∀ k v m, P v → R m → R (JMembers.mcons k v m)) :
    (∀ v, P v) ∧ (∀ l, Q l) ∧ (∀ m, R m) :=
  ⟨fun v => @JVal.rec P Q R h1 h2 h3 h4 h5 h6 h7 h8 h9 h10 v,
   fun l => @JList.rec P Q R h1 h2 h3 h4 h5 h6 h7 h8 h9 h10 l,
   fun m => @JMembers.rec P Q R h1 h2 h3 h4 h5 h6 h7 h8 h9 h10 m⟩

theorem charIdx_shift {c : Char} {xs : List Char} (ys : List Char)
    (h : ∀ d ∈ xs, d ≠ c) :
    charIdx c (xs ++ ys) = (charIdx c ys).map (fun i => i + xs.length) := by
  induction xs with
  | nil =>
    simp only [List.nil_append, List.length_nil]
    cases charIdx c ys <;> simp
  | cons x xs ih =>
    have hx : ¬(x = c) := h x (by simp)
    have ih' := ih (fun d hd => h d (by simp [hd]))
    show (if x = c then some 0 else (charIdx c (xs ++ ys)).map Nat.succ)
        = (charIdx c ys).map (fun i => i + (x :: xs).length)
    rw [if_neg hx, ih']
    cases charIdx c ys with
    | none => rfl
    | some i =>
      show some (Nat.succ (i + xs.length)) = some (i + (xs.length + 1))
      exact congrArg some (by omega)

theorem charIdx_head {c : Char} {cs : List Char} : charIdx c (c :: cs) = some 0 := by
  simp [charIdx]

theorem matchTag_tag {t rest : List Char} (h : validTagBody t = true) :
    matchTag ('<' :: (t ++ '>' :: rest)) = some rest := by
  have hne : t ≠ [] := by
    rcases t with _ | _
    · simp [validTagBody] at h
    · simp
  have hfree : ∀ d ∈ t, d ≠ '>' := by
    intro d hd
    simp only [validTagBody, Bool.and_eq_true, List.all_eq_true] at h
    have := h.2 d hd
    simpa using this
  have hidx : charIdx '>' (t ++ '>' :: rest) = some t.length := by
    rw [charIdx_shift _ hfree, charIdx_head]
    simp
  have hlen : 1 ≤ t.length := by
    rcases t with _ | _
    · exact absurd rfl hne
    · simp
  have hdrop : (t ++ '>' :: rest).drop (t.length + 1) = rest := by
    have hsh : t ++ '>' :: rest = (t ++ ['>']) ++ rest := by simp
    rw [hsh, List.drop_left' (by simp)]
  simp [matchTag, hidx, hlen, hdrop]

theorem matchTag_not {c : Char} {cs : List Char} (h : c ≠ '<') :
    matchTag (c :: cs) = none := by
  simp [matchTag, h]

theorem matchCloseTag_not {c : Char} {cs : List Char} (h : c ≠ '<') :
    matchCloseTag (c :: cs) = none := by
  rcases cs with _ | ⟨d, rest⟩
  · rfl
  · simp [matchCloseTag, h]

theorem matchP2_not {c : Char} {cs : List Char} (h : c ≠ '<') :
    matchP2 (c :: cs) = none := by
  simp [matchP2, matchCloseRun, matchCloseTag_not h]

theorem renderOpen_cons (t : List Char) (ts : List (List Char)) :
    renderOpenTags (t :: ts) = '<' :: (t ++ '>' :: renderOpenTags ts) := by
  simp [renderOpenTags]

theorem renderOpen_len (ts : List (List Char)) :
    ts.length ≤ (renderOpenTags ts).length := by
  induction ts with
  | nil => simp [renderOpenTags]
  | cons t ts ih =>
    rw [renderOpen_cons]
    simp only [List.length_cons, List.length_append]
    omega

theorem tagRun_render {ts : List (List Char)} {rest : List Char}
    (hts : ∀ t ∈ ts, validTagBody t = true) (hrest : matchTag rest = none) :
    ∀ fuel, ts.length ≤ fuel → tagRunAux fuel (renderOpenTags ts ++ rest) = rest := by
  induction ts with
  | nil =>
    intro fuel _
    rcases fuel with _ | fuel
    · simp [tagRunAux, renderOpenTags]
    · simp [tagRunAux, renderOpenTags, hrest]
  | cons t ts ih =>
    intro fuel hf
    rcases fuel with _ | fuel
    · simp at hf
    · rw [renderOpen_cons]
      have hm : matchTag ('<' :: (t ++ '>' :: (renderOpenTags ts ++ rest))) =
          some (renderOpenTags ts ++ rest) := matchTag_tag (hts t (by simp))
      have : ('<' :: (t ++ '>' :: renderOpenTags ts)) ++ rest
          = '<' :: (t ++ '>' :: (renderOpenTags ts ++ rest)) := by simp
      rw [this, tagRunAux, hm]
      exact ih (fun u hu => hts u (by simp [hu])) fuel (by simpa using hf)

theorem p1Aux_pass {A : List Char} (hA : ∀ c ∈ A, c ≠ '<') :
    ∀ fuel ls B, ∃ X, p1Aux fuel ls (A ++ B) = A ++ X := by
  induction A with
  | nil => intro fuel ls B; exact ⟨p1Aux fuel ls B, rfl⟩
  | cons a A ih =>
    intro fuel ls B
    rcases fuel with _ | fuel
    · exact ⟨B, rfl⟩
    · have ha : a ≠ '<' := hA a (by simp)
      have hm : matchTagRun (a :: (A ++ B)) = none := by
        simp [matchTagRun, matchTag_not ha]
      obtain ⟨X, hX⟩ := ih (fun c hc => hA c (by simp [hc])) fuel (a = '\n') B
      rcases ls with _ | _
      · exact ⟨X, by simp [p1Aux, hX]⟩
      · refine ⟨X, ?_⟩
        simp only [List.cons_append, p1Aux, hm, hX]
        simp

theorem p2Aux_pass {A : List Char} (hA : ∀ c ∈ A, c ≠ '<') :
    ∀ fuel B, ∃ Y, p2Aux fuel (A ++ B) = A ++ Y := by
  induction A with
  | nil => intro fuel B; exact ⟨p2Aux fuel B, rfl⟩
  | cons a A ih =>
    intro fuel B
    rcases fuel with _ | fuel
    · exact ⟨B, rfl⟩
    · have ha : a ≠ '<' := hA a (by simp)
      obtain ⟨Y, hY⟩ := ih (fun c hc => hA c (by simp [hc])) fuel B
      refine ⟨Y, ?_⟩
      simp only [List.cons_append, p2Aux, matchP2_not ha, hY]

theorem p1_wrap {opens : List (List Char)} {jt C : List Char}
    (hts : ∀ t ∈ opens, validTagBody t = true)
    (hjt : ∀ c ∈ jt, c ≠ '<') (hne : jt ≠ []) :
    ∃ X, p1 (renderOpenTags opens ++ (jt ++ C)) = jt ++ X := by
  rcases opens with _ | ⟨o, os⟩
  · simpa [p1, renderOpenTags] using p1Aux_pass hjt (jt ++ C).length true C
  · rw [renderOpen_cons]
    have hmt : matchTag (jt ++ C) = none := by
      rcases jt with _ | ⟨c0, jt'⟩
      · exact absurd rfl hne
      · exact matchTag_not (hjt c0 (by simp))
    have hm : matchTag ('<' :: (o ++ '>' :: (renderOpenTags os ++ (jt ++ C)))) =
        some (renderOpenTags os ++ (jt ++ C)) := matchTag_tag (hts o (by simp))
    have hshape : ('<' :: (o ++ '>' :: renderOpenTags os)) ++ (jt ++ C)
        = '<' :: (o ++ '>' :: (renderOpenTags os ++ (jt ++ C))) := by simp
    have hlen : os.length ≤ ('<' :: (o ++ '>' :: (renderOpenTags os ++ (jt ++ C)))).length := by
      have := renderOpen_len os
      simp only [List.length_cons, List.length_append]
      omega
    have hrun : matchTagRun ('<' :: (o ++ '>' :: (renderOpenTags os ++ (jt ++ C)))) =
        some (jt ++ C) := by
      simp only [matchTagRun, hm]
      rw [tagRun_render (fun u hu => hts u (by simp [hu])) hmt _ hlen]
    rw [p1, hshape]
    have hL : ('<' :: (o ++ '>' :: (renderOpenTags os ++ (jt ++ C)))).length
        = (('<' :: (o ++ '>' :: (renderOpenTags os ++ (jt ++ C)))).length - 1) + 1 := by
      simp
    rw [hL, p1Aux, hrun]
    exact p1Aux_pass hjt _ false C

theorem p2_pass {jt Y0 : List Char} (hjt : ∀ c ∈ jt, c ≠ '<') :
    ∃ Y, p2 (jt ++ Y0) = jt ++ Y := by
  exact p2Aux_pass hjt (jt ++ Y0).length Y0

theorem SB_ext (cs : List Char) : ∀ {s r : List Char}, parseStringBody cs = some (s, r) →
    ∀ ext, parseStringBody (cs ++ ext) = some (s, r ++ ext) := by
  induction cs using parseStringBody.induct with
  | case1 =>
    intro s r h ext
    simp [parseStringBody] at h
  | case2 rest2 =>
    intro s r h ext
    rw [parseStringBody.eq_def] at h
    simp only [if_pos rfl, Option.some.injEq, Prod.mk.injEq] at h
    obtain ⟨rfl, rfl⟩ := h
    rw [parseStringBody.eq_def]
    simp
  | case3 hne =>
    intro s r h ext
    simp [parseStringBody] at h
  | case4 h1 h2 h3 h4 rest3 hhex s0 r0 hinner hne ih =>
    intro s r h ext
    have hstep : parseStringBody ('\\' :: 'u' :: h1 :: h2 :: h3 :: h4 :: rest3)
        = some ('\\' :: 'u' :: h1 :: h2 :: h3 :: h4 :: s0, r0) := by
      simp [parseStringBody, hhex, hinner]
    rw [hstep] at h
    simp only [Option.some.injEq, Prod.mk.injEq] at h
    obtain ⟨rfl, rfl⟩ := h
    simp only [List.cons_append]
    simp [parseStringBody, hhex, ih hinner ext]
  | case5 h1 h2 h3 h4 rest3 hhex hinner hne ih =>
    intro s r h ext
    simp [parseStringBody, hhex, hinner] at h
  | case6 h1 h2 h3 h4 rest3 hhex hne =>
    intro s r h ext
    simp [parseStringBody, hhex] at h
  | case7 rest2 hshape hne =>
    intro s r h ext
    rcases rest2 with _ | ⟨a, _ | ⟨b, _ | ⟨c, _ | ⟨d, e⟩⟩⟩⟩
    · simp [parseStringBody] at h
    · simp [parseStringBody] at h
    · simp [parseStringBody] at h
    · simp [parseStringBody] at h
    · exact (hshape a b c d e rfl).elim
  | case8 e rest2 hnu hesc s0 r0 hinner hne ih =>
    intro s r h ext
    have hstep : parseStringBody ('\\' :: e :: rest2) = some ('\\' :: e :: s0, r0) := by
      rw [parseStringBody.eq_def]
      simp [hnu, hesc, hinner]
    rw [hstep] at h
    simp only [Option.some.injEq, Prod.mk.injEq] at h
    obtain ⟨rfl, rfl⟩ := h
    simp only [List.cons_append]
    rw [parseStringBody.eq_def]
    simp [hnu, hesc, ih hinner ext]
  | case9 e rest2 hnu hesc hinner hne ih =>
    intro s r h ext
    rw [parseStringBody.eq_def] at h
    simp [hnu, hesc, hinner] at h
  | case10 e rest2 hnu hesc hne =>
    intro s r h ext
    rw [parseStringBody.eq_def] at h
    simp [hnu, hesc] at h
  | case11 e rest2 hnq hnb hlt =>
    intro s r h ext
    rw [parseStringBody.eq_def] at h
    simp [hnq, hnb, hlt] at h
  | case12 e rest2 hnq hnb hlt s0 r0 hinner ih =>
    intro s r h ext
    have hstep : parseStringBody (e :: rest2) = some (e :: s0, r0) := by
      rw [parseStringBody.eq_def]
      simp [hnq, hnb, hlt, hinner]
    rw [hstep] at h
    simp only [Option.some.injEq, Prod.mk.injEq] at h
    obtain ⟨rfl, rfl⟩ := h
    simp only [List.cons_append]
    rw [parseStringBody.eq_def]
    simp [hnq, hnb, hlt, ih hinner ext]
  | case13 e rest2 hnq hnb hlt hinner ih =>
    intro s r h ext
    rw [parseStringBody.eq_def] at h
    simp [hnq, hnb, hlt, hinner] at h


theorem tw_ext_nil {ext : List Char} (hs : safeHead ext = true) :
    ext.takeWhile Char.isDigit = [] ∧ ext.dropWhile Char.isDigit = ext := by
  rcases ext with _ | ⟨c, cs⟩
  · exact ⟨rfl, rfl⟩
  · simp only [safeHead, Bool.not_eq_eq_eq_not, Bool.not_true, Bool.or_eq_false_iff] at hs
    obtain ⟨⟨⟨hd, _⟩, _⟩, _⟩ := hs
    exact ⟨List.takeWhile_cons_of_neg (by simp [hd]),
      List.dropWhile_cons_of_neg (by simp [hd])⟩

theorem dw_ne_nil_ext {r : List Char} (ext : List Char) {d : Char} {ds : List Char}
    (h : r.dropWhile Char.isDigit = d :: ds) :
    (r ++ ext).takeWhile Char.isDigit = r.takeWhile Char.isDigit ∧
    (r ++ ext).dropWhile Char.isDigit = (d :: ds) ++ ext := by
  constructor
  · rw [List.takeWhile_append]
    have hlen : (r.takeWhile Char.isDigit).length ≠ r.length := by
      intro hl
      have := List.takeWhile_append_dropWhile Char.isDigit r
      have h2 := congrArg List.length this
      simp only [List.length_append] at h2
      rw [h] at h2
      simp only [List.length_cons] at h2
      omega
    rw [if_neg hlen]
  · rw [List.dropWhile_append, h]
    simp

theorem dw_nil_ext {r ext : List Char} (h : r.dropWhile Char.isDigit = [])
    (hs : safeHead ext = true) :
    (r ++ ext).takeWhile Char.isDigit = r ∧ (r ++ ext).dropWhile Char.isDigit = ext := by
  have hall : ∀ x ∈ r, Char.isDigit x = true := List.dropWhile_eq_nil_iff.mp h
  obtain ⟨h1, h2⟩ := tw_ext_nil hs
  constructor
  · rw [List.takeWhile_append_of_pos hall, h1, List.append_nil]
  · rw [List.dropWhile_append_of_pos hall, h2]

theorem IP_ext {xs ip rest ext : List Char} (h : parseIntPart xs = some (ip, rest))
    (hnil : rest = [] → safeHead ext = true) :
    parseIntPart (xs ++ ext) = some (ip, rest ++ ext) := by
  rcases xs with _ | ⟨c, r⟩
  · simp [parseIntPart] at h
  · simp only [parseIntPart] at h
    by_cases h0 : c = '0'
    · rw [if_pos h0] at h
      simp only [Option.some.injEq, Prod.mk.injEq] at h
      obtain ⟨rfl, rfl⟩ := h
      simp only [List.cons_append, parseIntPart, if_pos h0]
    · rw [if_neg h0] at h
      by_cases hd : c.isDigit
      · rw [if_pos hd] at h
        simp only [Option.some.injEq, Prod.mk.injEq] at h
        obtain ⟨rfl, rfl⟩ := h
        simp only [List.cons_append, parseIntPart]
        rw [if_neg h0, if_pos hd]
        rcases hdw : r.dropWhile Char.isDigit with _ | ⟨d, ds⟩
        · obtain ⟨t1, t2⟩ := dw_nil_ext hdw (hnil hdw)
          rw [t1, t2]
          have : r.takeWhile Char.isDigit = r := by
            have := List.takeWhile_append_dropWhile Char.isDigit r
            rw [hdw, List.append_nil] at this
            exact this
          rw [this]
          simp
        · obtain ⟨t1, t2⟩ := dw_ne_nil_ext ext hdw
          simp [t1, t2, hdw]
      · rw [if_neg hd] at h
        exact absurd h (by simp)

theorem safe_cons {c : Char} {cs : List Char} (h : safeHead (c :: cs) = true) :
    c.isDigit = false ∧ c ≠ '.' ∧ c ≠ 'e' ∧ c ≠ 'E' := by
  simp only [safeHead, Bool.not_eq_eq_eq_not, Bool.not_true, Bool.or_eq_false_iff] at h
  obtain ⟨⟨⟨h1, h2⟩, h3⟩, h4⟩ := h
  refine ⟨h1, by simpa using h2, by simpa using h3, by simpa using h4⟩

theorem E_shape {ys ep : List Char} (h : parseExp ys = (ep, [])) :
    ys = [] ∨ ∃ c cs, ys = c :: cs ∧ (c = 'e' ∨ c = 'E') := by
  rcases ys with _ | ⟨e, rest⟩
  · exact Or.inl rfl
  · right
    refine ⟨e, rest, rfl, ?_⟩
    by_cases he : (e = 'e' || e = 'E') = true
    · simpa using he
    · rw [parseExp.eq_def] at h
      simp only [he, Bool.false_eq_true, if_false] at h
      have h2 := congrArg Prod.snd h
      simp at h2

theorem E_ext {ys ep ext : List Char} (h : parseExp ys = (ep, []))
    (hsafe : safeHead ext = true) : parseExp (ys ++ ext) = (ep, ext) := by
  rcases ys with _ | ⟨e, rest⟩
  · have hep : ep = ([] : List Char) := by
      have := congrArg Prod.fst h
      simpa [parseExp] using this.symm
    subst hep
    rcases ext with _ | ⟨c, cs⟩
    · rfl
    · obtain ⟨-, -, h3, h4⟩ := safe_cons hsafe
      rw [parseExp.eq_def]
      simp [h3, h4]
  · by_cases he : (e = 'e' || e = 'E') = true
    · rw [parseExp.eq_def] at h
      simp only [he, if_true] at h
      rcases rest with _ | ⟨s, rest2⟩
      · exact absurd (congrArg Prod.snd h) (by simp)
      · by_cases hs : (s = '+' || s = '-') = true
        · simp only [hs, if_true] at h
          by_cases ht : (rest2.takeWhile Char.isDigit).isEmpty
          · rw [if_pos ht] at h
            exact absurd (congrArg Prod.snd h) (by simp)
          · rw [if_neg ht] at h
            have hep : ep = e :: s :: rest2.takeWhile Char.isDigit :=
              (congrArg Prod.fst h).symm
            have hdw : rest2.dropWhile Char.isDigit = [] := congrArg Prod.snd h
            have htw : rest2.takeWhile Char.isDigit = rest2 := by
              have := List.takeWhile_append_dropWhile Char.isDigit rest2
              rw [hdw, List.append_nil] at this
              exact this
            obtain ⟨t1, t2⟩ := dw_nil_ext hdw hsafe
            show parseExp (e :: s :: (rest2 ++ ext)) = (ep, ext)
            rw [parseExp.eq_def]
            simp only [he, if_true, hs, t1, t2]
            have hne : rest2.isEmpty = false := by
              rcases rest2 with _ | _
              · rw [htw] at ht; simp at ht
              · rfl
            rw [if_neg (by simp [hne])]
            rw [hep, htw]
        · simp only [hs, Bool.false_eq_true, if_false] at h
          by_cases ht : ((s :: rest2).takeWhile Char.isDigit).isEmpty
          · rw [if_pos ht] at h
            exact absurd (congrArg Prod.snd h) (by simp)
          · rw [if_neg ht] at h
            have hep : ep = e :: (s :: rest2).takeWhile Char.isDigit :=
              (congrArg Prod.fst h).symm
            have hdw : (s :: rest2).dropWhile Char.isDigit = [] := congrArg Prod.snd h
            have htw : (s :: rest2).takeWhile Char.isDigit = s :: rest2 := by
              have := List.takeWhile_append_dropWhile Char.isDigit (s :: rest2)
              rw [hdw, List.append_nil] at this
              exact this
            obtain ⟨t1, t2⟩ := dw_nil_ext hdw hsafe
            show parseExp (e :: ((s :: rest2) ++ ext)) = (ep, ext)
            rw [parseExp.eq_def]
            have hsafe2 : ((s :: rest2) ++ ext) = s :: (rest2 ++ ext) := by simp
            simp only [he, if_true, hs, Bool.false_eq_true, if_false, hsafe2]
            have t1' : (s :: (rest2 ++ ext)).takeWhile Char.isDigit = s :: rest2 := by
              rw [← hsafe2, t1]
            have t2' : (s :: (rest2 ++ ext)).dropWhile Char.isDigit = ext := by
              rw [← hsafe2, t2]
            rw [t1', t2']
            rw [if_neg (by simp)]
            rw [hep, htw]
    · rw [parseExp.eq_def] at h
      simp only [he, Bool.false_eq_true, if_false] at h
      exact absurd (congrArg Prod.snd h) (by simp)

theorem F_ext {ys fp rest ext : List Char} (h : parseFrac ys = (fp, rest))
    (hnil : rest = [] → safeHead ext = true)
    (hshape : ∀ c cs, rest = c :: cs → c = 'e' ∨ c = 'E') :
    parseFrac (ys ++ ext) = (fp, rest ++ ext) := by
  rcases ys with _ | ⟨c, r⟩
  · have h1 : fp = ([] : List Char) := (congrArg Prod.fst h).symm
    have h2 : rest = ([] : List Char) := (congrArg Prod.snd h).symm
    subst h1; subst h2
    have hsafe := hnil rfl
    rcases ext with _ | ⟨d, ds⟩
    · rfl
    · obtain ⟨-, hdot, -, -⟩ := safe_cons hsafe
      rw [parseFrac.eq_def]
      simp [hdot]
  · by_cases hc : c = '.'
    · subst hc
      rw [parseFrac.eq_def] at h
      simp only [if_pos rfl] at h
      by_cases ht : (r.takeWhile Char.isDigit).isEmpty
      · rw [if_pos ht] at h
        have h1 : fp = ([] : List Char) := (congrArg Prod.fst h).symm
        have h2 : rest = '.' :: r := (congrArg Prod.snd h).symm
        have := hshape '.' r h2
        rcases this with h' | h' <;> simp at h'
      · rw [if_neg ht] at h
        have h1 : fp = '.' :: r.takeWhile Char.isDigit := (congrArg Prod.fst h).symm
        have h2 : rest = r.dropWhile Char.isDigit := (congrArg Prod.snd h).symm
        show parseFrac ('.' :: (r ++ ext)) = (fp, rest ++ ext)
        rw [parseFrac.eq_def]
        simp only [if_pos rfl]
        rcases hdw : r.dropWhile Char.isDigit with _ | ⟨d, ds⟩
        · obtain ⟨t1, t2⟩ := dw_nil_ext hdw (hnil (h2.trans hdw))
          have htw : r.takeWhile Char.isDigit = r := by
            have := List.takeWhile_append_dropWhile Char.isDigit r
            rw [hdw, List.append_nil] at this
            exact this
          rw [t1, t2]
          have hne : r.isEmpty = false := by
            rcases r with _ | _
            · rw [htw] at ht; simp at ht
            · rfl
          have hcond : ¬(r.isEmpty = true) := by simp [hne]
          rw [if_neg hcond]
          rw [h1, htw, h2, hdw]
          simp
        · obtain ⟨t1, t2⟩ := dw_ne_nil_ext ext hdw
          rw [t1, t2]
          rw [if_neg ht]
          rw [h1, h2, hdw]
          simp
    · rw [parseFrac.eq_def] at h
      simp only [hc, if_false] at h
      have h1 : fp = ([] : List Char) := (congrArg Prod.fst h).symm
      have h2 : rest = c :: r := (congrArg Prod.snd h).symm
      subst h1
      rw [parseFrac.eq_def]
      simp only [List.cons_append, hc, if_false]
      rw [h2]
      simp

theorem IP_shape {xs s0 r0 : List Char} (h : parseIntPart xs = some (s0, r0)) :
    ∃ c L, xs = c :: L ∧ c.isDigit = true := by
  rcases xs with _ | ⟨c, r⟩
  · simp [parseIntPart] at h
  · refine ⟨c, r, rfl, ?_⟩
    simp only [parseIntPart] at h
    by_cases h0 : c = '0'
    · subst h0; decide
    · rw [if_neg h0] at h
      by_cases hd : c.isDigit
      · exact hd
      · rw [if_neg hd] at h
        simp at h

theorem NUM_shape {ld s0 r0 : List Char} (h : parseNumberBody ld = some (s0, r0)) :
    (∃ c L, ld = c :: L ∧ c.isDigit = true) ∨
    (∃ c2 L2, ld = '-' :: c2 :: L2 ∧ c2.isDigit = true) := by
  rcases ld with _ | ⟨c, L⟩
  · simp [parseNumberBody, parseIntPart] at h
  · by_cases hc : c = '-'
    · subst hc
      right
      have h' : (match parseIntPart L with
          | none => none
          | some (ip, cs2) =>
              some (['-'] ++ ip ++ (parseFrac cs2).1 ++ (parseExp (parseFrac cs2).2).1,
                (parseExp (parseFrac cs2).2).2)) = some (s0, r0) := h
      rcases hip : parseIntPart L with _ | ⟨ip, cs2⟩
      · rw [hip] at h'; simp at h'
      · obtain ⟨c2, L2, hL, hd⟩ := IP_shape hip
        exact ⟨c2, L2, by rw [hL], hd⟩
    · left
      simp only [parseNumberBody, if_neg hc] at h
      rcases hip : parseIntPart (c :: L) with _ | ⟨ip, cs2⟩
      · rw [hip] at h; simp at h
      · obtain ⟨c2, L2, hL, hd⟩ := IP_shape hip
        have hcc : c = c2 := by
          injection hL
        exact ⟨c, L, rfl, hcc ▸ hd⟩

theorem NUM_ext {ld ext : List Char} (h : parseNumberBody ld = some (ld, []))
    (hsafe : safeHead ext = true) : parseNumberBody (ld ++ ext) = some (ld, ext) := by
  rcases ld with _ | ⟨c, L⟩
  · simp [parseNumberBody, parseIntPart] at h
  · by_cases hc : c = '-'
    · subst hc
      have h' : (match parseIntPart L with
          | none => none
          | some (ip, cs2) =>
              some (['-'] ++ ip ++ (parseFrac cs2).1 ++ (parseExp (parseFrac cs2).2).1,
                (parseExp (parseFrac cs2).2).2)) = some ('-' :: L, []) := h
      rcases hip : parseIntPart L with _ | ⟨ip, cs2⟩
      · rw [hip] at h'; simp at h'
      · rw [hip] at h'
        simp only [Option.some.injEq, Prod.mk.injEq] at h'
        obtain ⟨hlex, hrest⟩ := h'
        rcases hfp : parseFrac cs2 with ⟨f1, f2⟩
        rcases hep : parseExp f2 with ⟨e1, e2⟩
        rw [hfp, hep] at hlex hrest
        simp only at hlex hrest
        subst hrest
        have hfpx := F_ext hfp (fun _ => hsafe)
          (fun c2 cs2 hc2 => by
            rcases E_shape hep with hsh | ⟨d, ds, hdd, hor⟩
            · rw [hsh] at hc2; cases hc2
            · rw [hdd] at hc2
              injection hc2 with hd1 _
              rw [← hd1]; exact hor)
        have hepx := E_ext hep hsafe
        show (match parseIntPart (L ++ ext) with
            | none => none
            | some (ip, cs2) =>
                some (['-'] ++ ip ++ (parseFrac cs2).1 ++ (parseExp (parseFrac cs2).2).1,
                  (parseExp (parseFrac cs2).2).2)) = some ('-' :: L, ext)
        rw [IP_ext hip (fun _ => hsafe)]
        show some (['-'] ++ ip ++ (parseFrac (cs2 ++ ext)).1
              ++ (parseExp (parseFrac (cs2 ++ ext)).2).1,
            (parseExp (parseFrac (cs2 ++ ext)).2).2) = some ('-' :: L, ext)
        simp only [hfpx, hepx]
        rw [← hlex]
    · simp only [parseNumberBody, if_neg hc] at h
      rcases hip : parseIntPart (c :: L) with _ | ⟨ip, cs2⟩
      · rw [hip] at h; simp at h
      · rw [hip] at h
        simp only [Option.some.injEq, Prod.mk.injEq] at h
        obtain ⟨hlex, hrest⟩ := h
        rcases hfp : parseFrac cs2 with ⟨f1, f2⟩
        rcases hep : parseExp f2 with ⟨e1, e2⟩
        rw [hfp, hep] at hlex hrest
        simp only at hlex hrest
        subst hrest
        have hfpx := F_ext hfp (fun _ => hsafe)
          (fun c2 cs2 hc2 => by
            rcases E_shape hep with hsh | ⟨d, ds, hdd, hor⟩
            · rw [hsh] at hc2; cases hc2
            · rw [hdd] at hc2
              injection hc2 with hd1 _
              rw [← hd1]; exact hor)
        have hepx := E_ext hep hsafe
        have hip2 : parseIntPart ((c :: L) ++ ext) = some (ip, cs2 ++ ext) :=
          IP_ext hip (fun _ => hsafe)
        show parseNumberBody (c :: (L ++ ext)) = some (c :: L, ext)
        simp only [parseNumberBody, if_neg hc]
        rw [show c :: (L ++ ext) = (c :: L) ++ ext from rfl, hip2]
        show some (([] : List Char) ++ ip ++ (parseFrac (cs2 ++ ext)).1
              ++ (parseExp (parseFrac (cs2 ++ ext)).2).1,
            (parseExp (parseFrac (cs2 ++ ext)).2).2) = some (c :: L, ext)
        simp only [hfpx, hepx]
        rw [← hlex]



theorem pv_fuel0 {cs : List Char} : parseVal 0 cs = none := rfl

theorem pv_lt {f : Nat} {cs : List Char} : parseVal (f + 1) ('<' :: cs) = none := rfl

theorem pv_null {f : Nat} {rest : List Char} :
    parseVal (f + 1) ('n' :: 'u' :: 'l' :: 'l' :: rest) = some (JVal.jnull, rest) := by
  simp [parseVal, List.isPrefixOf]

theorem pv_true {f : Nat} {rest : List Char} :
    parseVal (f + 1) ('t' :: 'r' :: 'u' :: 'e' :: rest) = some (JVal.jbool true, rest) := by
  simp [parseVal, List.isPrefixOf]

theorem pv_false {f : Nat} {rest : List Char} :
    parseVal (f + 1) ('f' :: 'a' :: 'l' :: 's' :: 'e' :: rest)
      = some (JVal.jbool false, rest) := by
  simp [parseVal, List.isPrefixOf]

theorem pv_nan {f : Nat} {rest : List Char} :
    parseVal (f + 1) ('N' :: 'a' :: 'N' :: rest) = some (JVal.jnum "NaN", rest) := by
  simp [parseVal, List.isPrefixOf]

theorem pv_inf {f : Nat} {rest : List Char} :
    parseVal (f + 1) ('I' :: 'n' :: 'f' :: 'i' :: 'n' :: 'i' :: 't' :: 'y' :: rest)
      = some (JVal.jnum "Infinity", rest) := by
  simp [parseVal, List.isPrefixOf]

theorem pv_ninf {f : Nat} {rest : List Char} :
    parseVal (f + 1) ('-' :: 'I' :: 'n' :: 'f' :: 'i' :: 'n' :: 'i' :: 't' :: 'y' :: rest)
      = some (JVal.jnum "-Infinity", rest) := by
  simp [parseVal, List.isPrefixOf]

theorem pv_str {f : Nat} {rest s r : List Char} (h : parseStringBody rest = some (s, r)) :
    parseVal (f + 1) ('"' :: rest) = some (JVal.jstr (String.mk s), r) := by
  show (match parseStringBody rest with
    | some (s, r) => some (JVal.jstr (String.mk s), r)
    | none => none) = some (JVal.jstr (String.mk s), r)
  rw [h]

theorem pv_arr_nil {f : Nat} {rest : List Char} :
    parseVal (f + 1) ('[' :: ']' :: rest) = some (JVal.jarr JList.jnil, rest) := rfl

theorem pv_obj_nil {f : Nat} {rest : List Char} :
    parseVal (f + 1) ('\x7b' :: '\x7d' :: rest) = some (JVal.jobj JMembers.mnil, rest) := rfl

theorem pv_arr_cons {f : Nat} {rest : List Char} (h : headIs ']' (skipJsonWs rest) = false) :
    parseVal (f + 1) ('[' :: rest)
      = (match parseArrElems f (skipJsonWs rest) with
         | some (l, r) => some (JVal.jarr l, r)
         | none => none) := by
  show (if headIs ']' (skipJsonWs rest) = true
        then some (JVal.jarr JList.jnil, (skipJsonWs rest).tail)
        else match parseArrElems f (skipJsonWs rest) with
         | some (l, r) => some (JVal.jarr l, r)
         | none => none) = _
  rw [h]
  simp

theorem pv_obj_cons {f : Nat} {rest : List Char} (h : headIs '\x7d' (skipJsonWs rest) = false) :
    parseVal (f + 1) ('\x7b' :: rest)
      = (match parseObjMembers f (skipJsonWs rest) with
         | some (m, r) => some (JVal.jobj m, r)
         | none => none) := by
  show (if headIs '\x7d' (skipJsonWs rest) = true
        then some (JVal.jobj JMembers.mnil, (skipJsonWs rest).tail)
        else match parseObjMembers f (skipJsonWs rest) with
         | some (m, r) => some (JVal.jobj m, r)
         | none => none) = _
  rw [h]
  simp

theorem digit_ne_of {c d : Char} (hd : c.isDigit = true) (hnd : d.isDigit = false) :
    c ≠ d := by
  intro h
  subst h
  rw [hd] at hnd
  cases hnd

theorem digit_not_ws {c : Char} (hd : c.isDigit = true) :
    jsonWs c = false ∧ isPyWs c = false := by
  constructor
  · rcases hjw : jsonWs c with _ | _
    · rfl
    · exfalso
      simp [jsonWs] at hjw
      rcases hjw with ((h | h) | h) | h <;> subst h <;> simp at hd
  · rcases hjw : isPyWs c with _ | _
    · rfl
    · exfalso
      simp [isPyWs] at hjw
      rcases hjw with ((((h | h) | h) | h) | h) | h <;> subst h <;> simp at hd

theorem pv_num_digit {f : Nat} {c : Char} {rest : List Char} (hd : c.isDigit = true) :
    parseVal (f + 1) (c :: rest)
      = (match parseNumberBody (c :: rest) with
         | some (lex, r) => some (JVal.jnum (String.mk lex), r)
         | none => none) := by
  have k1 : ("null".data.isPrefixOf (c :: rest)) = false := by
    simp [List.isPrefixOf]
    intro h
    exact absurd h.symm (digit_ne_of hd (by decide))
  have k2 : ("true".data.isPrefixOf (c :: rest)) = false := by
    simp [List.isPrefixOf]
    intro h
    exact absurd h.symm (digit_ne_of hd (by decide))
  have k3 : ("false".data.isPrefixOf (c :: rest)) = false := by
    simp [List.isPrefixOf]
    intro h
    exact absurd h.symm (digit_ne_of hd (by decide))
  have k4 : ("NaN".data.isPrefixOf (c :: rest)) = false := by
    simp [List.isPrefixOf]
    intro h
    exact absurd h.symm (digit_ne_of hd (by decide))
  have k5 : ("Infinity".data.isPrefixOf (c :: rest)) = false := by
    simp [List.isPrefixOf]
    intro h
    exact absurd h.symm (digit_ne_of hd (by decide))
  have k6 : ("-Infinity".data.isPrefixOf (c :: rest)) = false := by
    simp [List.isPrefixOf]
    intro h
    exact absurd h.symm (digit_ne_of hd (by decide))
  have kq : ¬(c = '"') := digit_ne_of hd (by decide)
  have kb : ¬(c = '[') := digit_ne_of hd (by decide)
  have ko : ¬(c = '\x7b') := digit_ne_of hd (by decide)
  simp only [parseVal, k1, k2, k3, k4, k5, k6, Bool.false_eq_true, if_false,
    if_neg kq, if_neg kb, if_neg ko]

theorem pv_num_neg {f : Nat} {c2 : Char} {rest2 : List Char} (hd : c2.isDigit = true) :
    parseVal (f + 1) ('-' :: c2 :: rest2)
      = (match parseNumberBody ('-' :: c2 :: rest2) with
         | some (lex, r) => some (JVal.jnum (String.mk lex), r)
         | none => none) := by
  have k6 : ("-Infinity".data.isPrefixOf ('-' :: c2 :: rest2)) = false := by
    simp [List.isPrefixOf]
    intro h
    exact absurd h.symm (digit_ne_of hd (by decide))
  have k1 : ("null".data.isPrefixOf ('-' :: c2 :: rest2)) = false := by
    simp [List.isPrefixOf]
  have k2 : ("true".data.isPrefixOf ('-' :: c2 :: rest2)) = false := by
    simp [List.isPrefixOf]
  have k3 : ("false".data.isPrefixOf ('-' :: c2 :: rest2)) = false := by
    simp [List.isPrefixOf]
  have k4 : ("NaN".data.isPrefixOf ('-' :: c2 :: rest2)) = false := by
    simp [List.isPrefixOf]
  have k5 : ("Infinity".data.isPrefixOf ('-' :: c2 :: rest2)) = false := by
    simp [List.isPrefixOf]
  simp only [parseVal, k1, k2, k3, k4, k5, k6, Bool.false_eq_true, if_false,
    if_neg (by decide : ¬(('-' : Char) = '"')), if_neg (by decide : ¬(('-' : Char) = '[')),
    if_neg (by decide : ¬(('-' : Char) = '\x7b'))]

theorem safe_comma {x : List Char} : safeHead (',' :: x) = true := by simp [safeHead]

theorem safe_rbracket {x : List Char} : safeHead (']' :: x) = true := by simp [safeHead]

theorem safe_rbrace {x : List Char} : safeHead ('\x7d' :: x) = true := by simp [safeHead]

theorem jtext_head (v : JVal) (hwf : wfVal v = true) :
    ∃ c T, jtext v = c :: T ∧ jsonWs c = false ∧ isPyWs c = false ∧
      c ≠ ']' ∧ c ≠ '\x7d' ∧ c ≠ '<' := by
  cases v with
  | jnull => exact ⟨'n', ['u', 'l', 'l'], rfl, by decide, by decide, by decide, by decide, by decide⟩
  | jbool b =>
    cases b
    · exact ⟨'f', ['a', 'l', 's', 'e'], rfl, by decide, by decide, by decide, by decide, by decide⟩
    · exact ⟨'t', ['r', 'u', 'e'], rfl, by decide, by decide, by decide, by decide, by decide⟩
  | jnum lex =>
    have hwf' : wfNumLex lex = true := hwf
    simp only [wfNumLex, Bool.or_eq_true] at hwf'
    rcases hwf' with ((hv | hn) | hi) | hni
    · rcases hpb : parseNumberBody lex.data with _ | ⟨s0, r0⟩
      · rw [validNumLexeme, hpb] at hv
        cases hv
      · rcases NUM_shape hpb with ⟨c, L, hld, hdig⟩ | ⟨c2, L2, hld, hdig⟩
      
        · obtain ⟨w1, w2⟩ := digit_not_ws hdig
          exact ⟨c, L, hld, w1, w2, digit_ne_of hdig (by decide),
            digit_ne_of hdig (by decide), digit_ne_of hdig (by decide)⟩
        · exact ⟨'-', c2 :: L2, hld, by decide, by decide, by decide, by decide, by decide⟩
    · have : lex = "NaN" := eq_of_beq hn
      subst this
      exact ⟨'N', ['a', 'N'], by decide, by decide, by decide, by decide, by decide, by decide⟩
    · have : lex = "Infinity" := eq_of_beq hi
      subst this
      exact ⟨'I', ['n', 'f', 'i', 'n', 'i', 't', 'y'], by decide, by decide, by decide,
        by decide, by decide, by decide⟩
    · have : lex = "-Infinity" := eq_of_beq hni
      subst this
      exact ⟨'-', ['I', 'n', 'f', 'i', 'n', 'i', 't', 'y'], by decide, by decide, by decide,
        by decide, by decide, by decide⟩
  | jstr lex =>
    exact ⟨'"', lex.data ++ ['"'], rfl, by decide, by decide, by decide, by decide, by decide⟩
  | jarr l =>
    cases l with
    | jnil => exact ⟨'[', [']'], rfl, by decide, by decide, by decide, by decide, by decide⟩
    | jcons h t =>
      exact ⟨'[', jtext h ++ jtextList t ++ [']'], rfl, by decide, by decide, by decide,
        by decide, by decide⟩
  | jobj m =>
    cases m with
    | mnil => exact ⟨'\x7b', ['\x7d'], rfl, by decide, by decide, by decide, by decide, by decide⟩
    | mcons k v t =>
      exact ⟨'\x7b', '"' :: (k.data ++ '"' :: ':' :: (jtext v ++ jtextMembers t ++ ['\x7d'])),
        rfl, by decide, by decide, by decide, by decide, by decide⟩

theorem skip_nonws {c : Char} {cs : List Char} (h : jsonWs c = false) :
    skipJsonWs (c :: cs) = c :: cs := by
  unfold skipJsonWs
  rw [List.dropWhile_cons_of_neg (by simp [h])]

theorem smk_eta (s : String) : String.mk s.data = s := rfl

theorem VN {lex : String} (h : validNumLexeme lex = true) :
    parseNumberBody lex.data = some (lex.data, []) := by
  rcases hpb : parseNumberBody lex.data with _ | ⟨s0, r0⟩
  · rw [validNumLexeme, hpb] at h
    cases h
  · rw [validNumLexeme, hpb] at h
    simp only [Bool.and_eq_true, beq_iff_eq, List.isEmpty_iff] at h
    rw [h.1, h.2]

theorem VS {lex : String} (h : validStrLexeme lex = true) :
    parseStringBody (lex.data ++ ['"']) = some (lex.data, []) := by
  rcases hpb : parseStringBody (lex.data ++ ['"']) with _ | ⟨s0, r0⟩
  · rw [validStrLexeme, hpb] at h
    cases h
  · rw [validStrLexeme, hpb] at h
    simp only [Bool.and_eq_true, beq_iff_eq, List.isEmpty_iff] at h
    rw [h.1, h.2]

theorem SB_valid_append {lex : String} {ext : List Char} (h : validStrLexeme lex = true) :
    parseStringBody (lex.data ++ '"' :: ext) = some (lex.data, ext) := by
  have := SB_ext (lex.data ++ ['"']) (VS h) ext
  rw [List.append_assoc] at this
  simpa using this

theorem headIs_ne {c d : Char} {cs : List Char} (h : d ≠ c) : headIs c (d :: cs) = false := by
  simp [headIs, h]


theorem pae_step {f : Nat} {cs : List Char} :
    parseArrElems (f + 1) cs
      = (match parseVal f cs with
         | none => none
         | some (v, rest) =>
           match skipJsonWs rest with
           | [] => none
           | c :: rest2 =>
             if c = ',' then
               match parseArrElems f (skipJsonWs rest2) with
               | some (l, r) => some (JList.jcons v l, r)
               | none => none
             else if c = ']' then some (JList.jcons v JList.jnil, rest2)
             else none) := rfl

theorem pom_step {f : Nat} {cs : List Char} :
    parseObjMembers (f + 1) cs
      = (match cs with
         | [] => none
         | c :: rest =>
           if c = '"' then
             match parseStringBody rest with
             | none => none
             | some (k, rest2) =>
               match skipJsonWs rest2 with
               | [] => none
               | d :: rest3 =>
                 if d = ':' then
                   match parseVal f (skipJsonWs rest3) with
                   | none => none
                   | some (v, rest4) =>
                     match skipJsonWs rest4 with
                     | [] => none
                     | e :: rest5 =>
                       if e = ',' then
                         match parseObjMembers f (skipJsonWs rest5) with
                         | some (m, r) => some (JMembers.mcons (String.mk k) v m, r)
                         | none => none
                       else if e = '\x7d' then
                         some (JMembers.mcons (String.mk k) v JMembers.mnil, rest5)
                       else none
                 else none
           else none) := rfl

theorem splice_all :
    (∀ v, wfVal v = true → ∀ fuel rest, depthV v ≤ fuel → numOk v rest →
        parseVal fuel (jtext v ++ rest) = some (v, rest)) ∧
    (∀ l, wfList l = true → ∀ fuel rest h0 t0, l = JList.jcons h0 t0 → depthL l ≤ fuel →
        parseArrElems fuel (jtext h0 ++ (jtextList t0 ++ ']' :: rest))
          = some (JList.jcons h0 t0, rest)) ∧
    (∀ m, wfMembers m = true → ∀ fuel rest k0 v0 t0, m = JMembers.mcons k0 v0 t0 →
        depthM m ≤ fuel →
        parseObjMembers fuel
            ('"' :: (k0.data ++ '"' :: ':' :: (jtext v0 ++ (jtextMembers t0 ++ '\x7d' :: rest))))
          = some (JMembers.mcons k0 v0 t0, rest)) := by
  refine jmut _ _ _ ?_ ?_ ?_ ?_ ?_ ?_ ?_ ?_ ?_ ?_
  case _ =>
    intro _ fuel rest hdep _
    rcases fuel with _ | f
    · simp [depthV] at hdep
    · exact pv_null
  case _ =>
    intro b _ fuel rest hdep _
    rcases fuel with _ | f
    · simp [depthV] at hdep
    · cases b
      · exact pv_false
      · exact pv_true
  case _ =>
    intro s hwf fuel rest hdep hnum
    rcases fuel with _ | f
    · simp [depthV] at hdep
    · have hw : wfNumLex s = true := hwf
      have hnum' : validNumLexeme s = true → safeHead rest = true := hnum
      simp only [wfNumLex, Bool.or_eq_true] at hw
      rcases hw with ((hv | hn) | hi) | hni
      · have hpb := VN hv
        have hext := NUM_ext hpb (hnum' hv)
        rcases NUM_shape hpb with ⟨c, L, hld, hdig⟩ | ⟨c2, L2, hld, hdig⟩
        · show parseVal (f + 1) (s.data ++ rest) = some (JVal.jnum s, rest)
          rw [hld] at hext ⊢
          rw [List.cons_append, pv_num_digit hdig, ← List.cons_append, hext]
          show some (JVal.jnum (String.mk (c :: L)), rest) = some (JVal.jnum s, rest)
          rw [← hld, smk_eta]
        · show parseVal (f + 1) (s.data ++ rest) = some (JVal.jnum s, rest)
          rw [hld] at hext ⊢
          rw [List.cons_append, List.cons_append, pv_num_neg hdig,
            ← List.cons_append, ← List.cons_append, hext]
          show some (JVal.jnum (String.mk ('-' :: c2 :: L2)), rest) = some (JVal.jnum s, rest)
          rw [← hld, smk_eta]
      · have hns : s = "NaN" := eq_of_beq hn
        subst hns
        show parseVal (f + 1) ("NaN".data ++ rest) = some (JVal.jnum "NaN", rest)
        rw [show ("NaN".data : List Char) = ['N', 'a', 'N'] from by decide]
        exact pv_nan
      · have hns : s = "Infinity" := eq_of_beq hi
        subst hns
        show parseVal (f + 1) ("Infinity".data ++ rest) = some (JVal.jnum "Infinity", rest)
        rw [show ("Infinity".data : List Char)
            = ['I', 'n', 'f', 'i', 'n', 'i', 't', 'y'] from by decide]
        exact pv_inf
      · have hns : s = "-Infinity" := eq_of_beq hni
        subst hns
        show parseVal (f + 1) ("-Infinity".data ++ rest) = some (JVal.jnum "-Infinity", rest)
        rw [show ("-Infinity".data : List Char)
            = ['-', 'I', 'n', 'f', 'i', 'n', 'i', 't', 'y'] from by decide]
        exact pv_ninf
  case _ =>
    intro s hwf fuel rest hdep _
    rcases fuel with _ | f
    · simp [depthV] at hdep
    · have hv : validStrLexeme s = true := hwf
      have hsb : parseStringBody ((s.data ++ ['"']) ++ rest) = some (s.data, rest) := by
        rw [List.append_assoc]
        exact SB_valid_append hv
      have hres := @pv_str f ((s.data ++ ['"']) ++ rest) s.data rest hsb
      rw [smk_eta] at hres
      exact hres
  case _ =>
    intro l Ql hwf fuel rest hdep _
    have hwl : wfList l = true := hwf
    have hdep' : depthL l + 1 ≤ fuel := by
      have : depthV (JVal.jarr l) = depthL l + 1 := by simp [depthV]
      omega
    rcases fuel with _ | f
    · omega
    · have hdl : depthL l ≤ f := by omega
      cases l with
      | jnil => exact pv_arr_nil
      | jcons h t =>
        have hw2 : wfVal h = true ∧ wfList t = true := by
          have : (wfVal h && wfList t) = true := hwl
          simpa [Bool.and_eq_true] using this
        obtain ⟨c0, T, hT, hws, _, hnrb, _, _⟩ := jtext_head h hw2.1
        have hskip : skipJsonWs (jtext h ++ (jtextList t ++ ']' :: rest))
            = jtext h ++ (jtextList t ++ ']' :: rest) := by
          rw [hT, List.cons_append]
          exact skip_nonws hws
        have hhead : headIs ']' (skipJsonWs (jtext h ++ (jtextList t ++ ']' :: rest)))
            = false := by
          rw [hskip, hT, List.cons_append]
          exact headIs_ne hnrb
        show parseVal (f + 1) ('[' :: ((jtext h ++ jtextList t ++ [']']) ++ rest))
            = some (JVal.jarr (JList.jcons h t), rest)
        have hre : (jtext h ++ jtextList t ++ [']']) ++ rest
            = jtext h ++ (jtextList t ++ ']' :: rest) := by
          simp [List.append_assoc]
        rw [hre, pv_arr_cons hhead, hskip, Ql hwl f rest h t rfl hdl]
  case _ =>
    intro m Rm hwf fuel rest hdep _
    have hwm : wfMembers m = true := hwf
    have hdep' : depthM m + 1 ≤ fuel := by
      have : depthV (JVal.jobj m) = depthM m + 1 := by simp [depthV]
      omega
    rcases fuel with _ | f
    · omega
    · have hdm : depthM m ≤ f := by omega
      cases m with
      | mnil => exact pv_obj_nil
      | mcons k v t =>
        show parseVal (f + 1)
            ('\x7b' :: (('"' :: (k.data ++ '"' :: ':' :: (jtext v ++ jtextMembers t ++ ['\x7d'])))
              ++ rest))
            = some (JVal.jobj (JMembers.mcons k v t), rest)
        have hre : ('"' :: (k.data ++ '"' :: ':' :: (jtext v ++ jtextMembers t ++ ['\x7d']))) ++ rest
            = '"' :: (k.data ++ '"' :: ':' :: (jtext v ++ (jtextMembers t ++ '\x7d' :: rest))) := by
          simp [List.append_assoc]
        have hhead : headIs '\x7d' (skipJsonWs
            ('"' :: (k.data ++ '"' :: ':' :: (jtext v ++ (jtextMembers t ++ '\x7d' :: rest)))))
            = false := by
          rw [skip_nonws (by decide)]
          exact headIs_ne (by decide)
        rw [hre, pv_obj_cons hhead, skip_nonws (by decide),
          Rm hwm f rest k v t rfl hdm]
  case _ =>
    intro _ fuel rest h0 t0 heq _
    cases heq
  case _ =>
    intro v l Pv Ql hwf fuel rest h0 t0 heq hdep
    have he1 : v = h0 := by injection heq
    have he2 : l = t0 := by injection heq
    subst he1
    subst he2
    have hw2 : wfVal v = true ∧ wfList l = true := by
      have : (wfVal v && wfList l) = true := hwf
      simpa [Bool.and_eq_true] using this
    have hdep' : max (depthV v) (depthL l) + 1 ≤ fuel := by
      have : depthL (JList.jcons v l) = max (depthV v) (depthL l) + 1 := by simp [depthL]
      omega
    rcases fuel with _ | f
    · omega
    · have hdv : depthV v ≤ f := by omega
      have hdl : depthL l ≤ f := by omega
      have hnum : numOk v (jtextList l ++ ']' :: rest) := by
        cases v <;> try trivial
        intro _
        cases l
        · exact safe_rbracket
        · exact safe_comma
      rw [pae_step, Pv hw2.1 f _ hdv hnum]
      cases l with
      | jnil =>
        show (match skipJsonWs (']' :: rest) with
              | [] => none
              | c :: rest2 =>
                if c = ',' then
                  match parseArrElems f (skipJsonWs rest2) with
                  | some (l, r) => some (JList.jcons v l, r)
                  | none => none
                else if c = ']' then some (JList.jcons v JList.jnil, rest2)
                else none) = some (JList.jcons v JList.jnil, rest)
        rw [skip_nonws (by decide)]
        simp
      | jcons h2 t2 =>
        show (match skipJsonWs (',' :: ((jtext h2 ++ jtextList t2) ++ ']' :: rest)) with
              | [] => none
              | c :: rest2 =>
                if c = ',' then
                  match parseArrElems f (skipJsonWs rest2) with
                  | some (l, r) => some (JList.jcons v l, r)
                  | none => none
                else if c = ']' then some (JList.jcons v JList.jnil, rest2)
                else none) = some (JList.jcons v (JList.jcons h2 t2), rest)
        rw [skip_nonws (by decide)]
        have hw3 : wfVal h2 = true ∧ wfList t2 = true := by
          have : (wfVal h2 && wfList t2) = true := hw2.2
          simpa [Bool.and_eq_true] using this
        obtain ⟨c0, T, hT, hws, _, _, _, _⟩ := jtext_head h2 hw3.1
        have hre : (jtext h2 ++ jtextList t2) ++ ']' :: rest
            = jtext h2 ++ (jtextList t2 ++ ']' :: rest) := by
          simp [List.append_assoc]
        have hskip : skipJsonWs ((jtext h2 ++ jtextList t2) ++ ']' :: rest)
            = jtext h2 ++ (jtextList t2 ++ ']' :: rest) := by
          rw [hre, hT, List.cons_append]
          exact skip_nonws hws
        have hdl2 : depthL (JList.jcons h2 t2) ≤ f := hdl
        simp only [hskip, Ql hw2.2 f rest h2 t2 rfl hdl2]
        simp
  case _ =>
    intro _ fuel rest k0 v0 t0 heq _
    cases heq
  case _ =>
    intro k v m Pv Rm hwf fuel rest k0 v0 t0 heq hdep
    have he1 : k = k0 := by injection heq
    have he2 : v = v0 := by injection heq
    have he3 : m = t0 := by injection heq
    subst he1
    subst he2
    subst he3
    have hw2 : validStrLexeme k = true ∧ wfVal v = true ∧ wfMembers m = true := by
      have : (validStrLexeme k && wfVal v && wfMembers m) = true := hwf
      simpa [Bool.and_eq_true, and_assoc] using this
    have hdep' : max (depthV v) (depthM m) + 1 ≤ fuel := by
      have : depthM (JMembers.mcons k v m) = max (depthV v) (depthM m) + 1 := by simp [depthM]
      omega
    rcases fuel with _ | f
    · omega
    · have hdv : depthV v ≤ f := by omega
      have hdm : depthM m ≤ f := by omega
      have hsb : parseStringBody (k.data ++ '"' :: ':'
          :: (jtext v ++ (jtextMembers m ++ '\x7d' :: rest)))
          = some (k.data, ':' :: (jtext v ++ (jtextMembers m ++ '\x7d' :: rest))) :=
        SB_valid_append hw2.1
      have hnum : numOk v (jtextMembers m ++ '\x7d' :: rest) := by
        cases v <;> try trivial
        intro _
        cases m
        · exact safe_rbrace
        · exact safe_comma
      obtain ⟨c0, T, hT, hws, _, _, _, _⟩ := jtext_head v hw2.2.1
      have hskip : skipJsonWs (jtext v ++ (jtextMembers m ++ '\x7d' :: rest))
          = jtext v ++ (jtextMembers m ++ '\x7d' :: rest) := by
        rw [hT, List.cons_append]
        exact skip_nonws hws
      rw [pom_step]
      simp only [hsb, skip_nonws (show jsonWs ':' = false from by decide), hskip,
        Pv hw2.2.1 f _ hdv hnum]
      cases m with
      | mnil =>
        show (match skipJsonWs ('\x7d' :: rest) with
              | [] => none
              | e :: rest5 =>
                if e = ',' then
                  match parseObjMembers f (skipJsonWs rest5) with
                  | some (m2, r) => some (JMembers.mcons (String.mk k.data) v m2, r)
                  | none => none
                else if e = '\x7d' then
                  some (JMembers.mcons (String.mk k.data) v JMembers.mnil, rest5)
                else none) = some (JMembers.mcons k v JMembers.mnil, rest)
        rw [skip_nonws (by decide)]
        simp [smk_eta]
      | mcons k2 v2 t2 =>
        show (match skipJsonWs (',' :: ('"' :: (k2.data ++ '"' :: ':'
                :: (jtext v2 ++ jtextMembers t2)) ++ '\x7d' :: rest)) with
              | [] => none
              | e :: rest5 =>
                if e = ',' then
                  match parseObjMembers f (skipJsonWs rest5) with
                  | some (m2, r) => some (JMembers.mcons (String.mk k.data) v m2, r)
                  | none => none
                else if e = '\x7d' then
                  some (JMembers.mcons (String.mk k.data) v JMembers.mnil, rest5)
                else none) = some (JMembers.mcons k v (JMembers.mcons k2 v2 t2), rest)
        rw [skip_nonws (by decide)]
        have hre : ('"' :: (k2.data ++ '"' :: ':' :: (jtext v2 ++ jtextMembers t2)))
              ++ '\x7d' :: rest
            = '"' :: (k2.data ++ '"' :: ':'
              :: (jtext v2 ++ (jtextMembers t2 ++ '\x7d' :: rest))) := by
          simp [List.append_assoc]
        have hskip2 : skipJsonWs (('"' :: (k2.data ++ '"' :: ':'
              :: (jtext v2 ++ jtextMembers t2))) ++ '\x7d' :: rest)
            = '"' :: (k2.data ++ '"' :: ':'
              :: (jtext v2 ++ (jtextMembers t2 ++ '\x7d' :: rest))) := by
          rw [hre]
          exact skip_nonws (by decide)
        simp only [hskip2, Rm hw2.2.2 f rest k2 v2 t2 rfl hdm]
        simp [smk_eta]

theorem dlen_all :
    (∀ v, wfVal v = true → depthV v ≤ (jtext v).length) ∧
    (∀ l, wfList l = true → depthL l ≤ (jtextList l).length) ∧
    (∀ m, wfMembers m = true → depthM m ≤ (jtextMembers m).length) := by
  refine jmut _ _ _ ?_ ?_ ?_ ?_ ?_ ?_ ?_ ?_ ?_ ?_
  · intro _
    simp [depthV, jtext]
  · intro b _
    cases b <;> simp [depthV, jtext]
  · intro s hwf
    obtain ⟨c, T, hT, -⟩ := jtext_head (JVal.jnum s) hwf
    rw [hT]
    simp [depthV]
  · intro s _
    simp [depthV, jtext]
  · intro l Ql hwf
    cases l with
    | jnil => simp [depthV, depthL, jtext]
    | jcons h t =>
      have hq : depthL (JList.jcons h t) ≤ (jtextList (JList.jcons h t)).length := Ql hwf
      simp only [jtextList, List.length_cons, List.length_append] at hq
      simp only [depthV, jtext, List.length_cons, List.length_append]
      omega
  · intro m Rm hwf
    cases m with
    | mnil => simp [depthV, depthM, jtext]
    | mcons k v t =>
      have hq : depthM (JMembers.mcons k v t) ≤ (jtextMembers (JMembers.mcons k v t)).length :=
        Rm hwf
      simp only [jtextMembers, List.length_cons, List.length_append] at hq
      simp only [depthV, jtext, List.length_cons, List.length_append]
      omega
  · intro _
    simp [depthL, jtextList]
  · intro v l Pv Ql hwf
    have hw2 : wfVal v = true ∧ wfList l = true := by
      have h0 : (wfVal v && wfList l) = true := hwf
      simpa [Bool.and_eq_true] using h0
    have h1 := Pv hw2.1
    have h2 := Ql hw2.2
    obtain ⟨c, T, hT, -⟩ := jtext_head v hw2.1
    have h3 : (jtext v).length = T.length + 1 := by rw [hT]; rfl
    simp only [depthL, jtextList, List.length_cons, List.length_append]
    omega
  · intro _
    simp [depthM, jtextMembers]
  · intro k v m Pv Rm hwf
    have hw2 : validStrLexeme k = true ∧ wfVal v = true ∧ wfMembers m = true := by
      have h0 : (validStrLexeme k && wfVal v && wfMembers m) = true := hwf
      simpa [Bool.and_eq_true, and_assoc] using h0
    have h1 := Pv hw2.2.1
    have h2 := Rm hw2.2.2
    simp only [depthM, jtextMembers, List.length_cons, List.length_append]
    omega

theorem loads_jtext_ext {l : JList} (hwf : wfVal (JVal.jarr l) = true) (Z : List Char) :
    loadsChars (jtext (JVal.jarr l) ++ Z)
      = (if (skipJsonWs Z).isEmpty then some (JVal.jarr l) else none) := by
  obtain ⟨c0, T, hT, hws, -, -, -, -⟩ := jtext_head (JVal.jarr l) hwf
  unfold loadsChars
  have hskip : skipJsonWs (jtext (JVal.jarr l) ++ Z) = jtext (JVal.jarr l) ++ Z := by
    rw [hT, List.cons_append]
    exact skip_nonws hws
  rw [hskip]
  have hdep : depthV (JVal.jarr l) ≤ 2 * (jtext (JVal.jarr l) ++ Z).length + 2 := by
    have hd := dlen_all.1 (JVal.jarr l) hwf
    have hlen : (jtext (JVal.jarr l) ++ Z).length
        = (jtext (JVal.jarr l)).length + Z.length := by simp
    omega
  rw [splice_all.1 (JVal.jarr l) hwf _ Z hdep trivial]

theorem loadsChars_lt {cs : List Char} : loadsChars ('<' :: cs) = none := by
  unfold loadsChars
  rw [skip_nonws (by decide)]
  have hs : 2 * (('<' :: cs).length) + 2 = (2 * (('<' :: cs).length) + 1) + 1 := rfl
  rw [hs, pv_lt]

theorem dw_app_headFalse {p : Char → Bool} {y : Char} (xs : List Char) {ys : List Char}
    (h : p y = false) :
    (xs ++ y :: ys).dropWhile p = xs.dropWhile p ++ y :: ys := by
  have hy : (y :: ys).dropWhile p = y :: ys :=
    List.dropWhile_cons_of_neg (by simp [h])
  rw [List.dropWhile_append]
  rcases hdw : xs.dropWhile p with _ | ⟨d, ds⟩
  · simp [hy]
  · simp

theorem dw_head_false {p : Char → Bool} {xs : List Char} {c : Char} {cs : List Char}
    (h : xs.dropWhile p = c :: cs) : p c = false := by
  induction xs with
  | nil => simp at h
  | cons x rest ih =>
    by_cases hp : p x
    · exact ih (by rwa [List.dropWhile_cons_of_pos hp] at h)
    · rw [List.dropWhile_cons_of_neg hp] at h
      have hx : x = c := by injection h
      subst hx
      simpa using hp

theorem ws_mono {c : Char} (h : jsonWs c = true) : isPyWs c = true := by
  simp only [jsonWs, Bool.or_eq_true, decide_eq_true_eq] at h
  rcases h with ((h | h) | h) | h <;> subst h <;> decide

theorem strip_jtext_ext (M Y : List Char) :
    stripChars (('[' :: (M ++ [']'])) ++ Y)
      = ('[' :: (M ++ [']'])) ++ (Y.reverse.dropWhile isPyWs).reverse := by
  unfold stripChars
  have h1 : (('[' :: (M ++ [']'])) ++ Y).dropWhile isPyWs = ('[' :: (M ++ [']'])) ++ Y := by
    rw [List.cons_append]
    exact List.dropWhile_cons_of_neg (by decide)
  rw [h1]
  have h2 : (('[' :: (M ++ [']'])) ++ Y).reverse
      = Y.reverse ++ ']' :: (M.reverse ++ ['[']) := by
    simp
  rw [h2, dw_app_headFalse Y.reverse (show isPyWs ']' = false from by decide)]
  simp

theorem stripEnd_skip_ne {Y : List Char} (h : (Y.reverse.dropWhile isPyWs).reverse ≠ []) :
    (skipJsonWs ((Y.reverse.dropWhile isPyWs).reverse)).isEmpty = false := by
  rcases hdw : Y.reverse.dropWhile isPyWs with _ | ⟨w, W⟩
  · rw [hdw] at h
    simp at h
  · have hw : isPyWs w = false := dw_head_false hdw
    have hjw : jsonWs w = false := by
      rcases hjw : jsonWs w with _ | _
      · rfl
      · rw [ws_mono hjw] at hw
        cases hw
    have hr : (w :: W).reverse = W.reverse ++ w :: [] := by simp
    rw [hr]
    unfold skipJsonWs
    rw [dw_app_headFalse W.reverse hjw]
    simp

theorem bracketFree_mem {t : List Char} (hb : bracketFree t = true) {c : Char} (hc : c ∈ t) :
    c ≠ '[' ∧ c ≠ ']' ∧ c ≠ '\x7b' ∧ c ≠ '\x7d' := by
  simp only [bracketFree, List.all_eq_true] at hb
  have := hb c hc
  simp only [Bool.and_eq_true, decide_eq_true_eq] at this
  exact ⟨this.1.1.1, this.1.1.2, this.1.2, this.2⟩

theorem render_open_chars {ts : List (List Char)} (h : ∀ t ∈ ts, bracketFree t = true) :
    ∀ c ∈ renderOpenTags ts, c ≠ '[' ∧ c ≠ ']' ∧ c ≠ '\x7b' ∧ c ≠ '\x7d' := by
  induction ts with
  | nil =>
    intro c hc
    simp [renderOpenTags] at hc
  | cons t ts ih =>
    intro c hc
    rw [renderOpen_cons] at hc
    rcases List.mem_cons.mp hc with hc1 | hc2
    · subst hc1
      exact ⟨by decide, by decide, by decide, by decide⟩
    · rcases List.mem_append.mp hc2 with hc3 | hc4
      · exact bracketFree_mem (h t (by simp)) hc3
      · rcases List.mem_cons.mp hc4 with hc5 | hc6
        · subst hc5
          exact ⟨by decide, by decide, by decide, by decide⟩
        · exact ih (fun u hu => h u (by simp [hu])) c hc6

theorem renderClose_cons (t : List Char) (ts : List (List Char)) :
    renderCloseTags (t :: ts) = '<' :: '/' :: (t ++ '>' :: renderCloseTags ts) := by
  simp [renderCloseTags]

theorem render_close_chars {ts : List (List Char)} (h : ∀ t ∈ ts, bracketFree t = true) :
    ∀ c ∈ renderCloseTags ts, c ≠ '[' ∧ c ≠ ']' ∧ c ≠ '\x7b' ∧ c ≠ '\x7d' := by
  induction ts with
  | nil =>
    intro c hc
    simp [renderCloseTags] at hc
  | cons t ts ih =>
    intro c hc
    rw [renderClose_cons] at hc
    rcases List.mem_cons.mp hc with hc1 | hc2
    · subst hc1
      exact ⟨by decide, by decide, by decide, by decide⟩
    · rcases List.mem_cons.mp hc2 with hc1 | hc3
      · subst hc1
        exact ⟨by decide, by decide, by decide, by decide⟩
      · rcases List.mem_append.mp hc3 with hc5 | hc6
        · exact bracketFree_mem (h t (by simp)) hc5
        · rcases List.mem_cons.mp hc6 with hc7 | hc8
          · subst hc7
            exact ⟨by decide, by decide, by decide, by decide⟩
          · exact ih (fun u hu => h u (by simp [hu])) c hc8

theorem fallbackExtract_eq {cs : List Char} {a e : Nat} (hfind : strFind cs '[' = some a)
    (hrf : strRFind cs ']' = some e) (hgt : a < e + 1)
    (hobj : (strFind cs '\x7b' = none) ∨ (∃ o, strFind cs '\x7b' = some o ∧ a < o)) :
    fallbackExtract cs = loadsChars ((cs.drop a).take (e + 1 - a)) := by
  unfold fallbackExtract
  rcases hobj with hN | ⟨o, hS, hao⟩
  · simp [hfind, hrf, hN, hgt]
  · simp [hfind, hrf, hS, hao, hgt]

theorem fallback_wrap {opens closes : List (List Char)} {l : JList} (M : List Char)
    (hjt : jtext (JVal.jarr l) = '[' :: (M ++ [']']))
    (hwf : wfVal (JVal.jarr l) = true)
    (hopens : ∀ t ∈ opens, bracketFree t = true)
    (hcloses : ∀ t ∈ closes, bracketFree t = true) :
    fallbackExtract (renderOpenTags opens
        ++ (jtext (JVal.jarr l) ++ renderCloseTags closes))
      = some (JVal.jarr l) := by
  rw [hjt]
  have hload : loadsChars ('[' :: (M ++ [']'])) = some (JVal.jarr l) := by
    have h0 := loads_jtext_ext hwf []
    rw [List.append_nil, hjt] at h0
    simpa using h0
  have hAfree : ∀ d ∈ renderOpenTags opens, d ≠ '[' :=
    fun d hd => (render_open_chars hopens d hd).1
  have hALb : ∀ d ∈ renderOpenTags opens, d ≠ '\x7b' :=
    fun d hd => (render_open_chars hopens d hd).2.2.1
  have hCfree : ∀ d ∈ (renderCloseTags closes).reverse, d ≠ ']' :=
    fun d hd => (render_close_chars hcloses d (List.mem_reverse.mp hd)).2.1
  have hfind : strFind (renderOpenTags opens
      ++ (('[' :: (M ++ [']'])) ++ renderCloseTags closes)) '['
      = some (renderOpenTags opens).length := by
    show charIdx '[' _ = _
    rw [charIdx_shift _ hAfree, List.cons_append, charIdx_head]
    simp
  have hre : (renderOpenTags opens
      ++ (('[' :: (M ++ [']'])) ++ renderCloseTags closes)).reverse
      = (renderCloseTags closes).reverse
        ++ ']' :: (M.reverse ++ '[' :: (renderOpenTags opens).reverse) := by
    simp
  have hlen : (renderOpenTags opens
      ++ (('[' :: (M ++ [']'])) ++ renderCloseTags closes)).length
      = (renderOpenTags opens).length + M.length + 2 + (renderCloseTags closes).length := by
    simp
    omega
  have hrb : strRFind (renderOpenTags opens
      ++ (('[' :: (M ++ [']'])) ++ renderCloseTags closes)) ']'
      = some ((renderOpenTags opens).length + M.length + 1) := by
    show (charIdx ']' _).map _ = _
    rw [hre, charIdx_shift _ hCfree, charIdx_head, hlen]
    simp
    try omega
  have hobj : strFind (renderOpenTags opens
      ++ (('[' :: (M ++ [']'])) ++ renderCloseTags closes)) '\x7b'
      = ((charIdx '\x7b' ((M ++ [']']) ++ renderCloseTags closes)).map Nat.succ).map
          (fun i => i + (renderOpenTags opens).length) := by
    show charIdx '\x7b' _ = _
    rw [charIdx_shift _ hALb, List.cons_append]
    show Option.map _ (if ('[' : Char) = '\x7b' then some 0
        else (charIdx '\x7b' ((M ++ [']']) ++ renderCloseTags closes)).map Nat.succ) = _
    rw [if_neg (by decide)]
  have hobj2 : (strFind (renderOpenTags opens
        ++ (('[' :: (M ++ [']'])) ++ renderCloseTags closes)) '\x7b' = none)
      ∨ (∃ o, strFind (renderOpenTags opens
          ++ (('[' :: (M ++ [']'])) ++ renderCloseTags closes)) '\x7b' = some o
          ∧ (renderOpenTags opens).length < o) := by
    rcases hob : charIdx '\x7b' ((M ++ [']']) ++ renderCloseTags closes) with _ | ⟨j⟩
    · left
      rw [hobj, hob]
      rfl
    · right
      refine ⟨j + 1 + (renderOpenTags opens).length, ?_, by omega⟩
      rw [hobj, hob]
      rfl
  rw [fallbackExtract_eq hfind hrb (by omega) hobj2]
  have h1 : (renderOpenTags opens).length + M.length + 1 + 1
      - (renderOpenTags opens).length = M.length + 2 := by omega
  rw [h1, List.drop_left]
  rw [List.take_left' (by simp)]
  exact hload

theorem jarr_shape (l : JList) : ∃ M, jtext (JVal.jarr l) = '[' :: (M ++ [']']) := by
  cases l with
  | jnil => exact ⟨[], rfl⟩
  | jcons h t => exact ⟨jtext h ++ jtextList t, rfl⟩


theorem charIdx_some {c : Char} : ∀ {xs : List Char} {i : Nat}, charIdx c xs = some i →
    ∃ A B, xs = A ++ c :: B ∧ A.length = i := by
  intro xs
  induction xs with
  | nil => intro i h; simp [charIdx] at h
  | cons d rest ih =>
    intro i h
    by_cases hd : d = c
    · subst hd
      rw [charIdx_head] at h
      have hi : i = 0 := by injection h with h2; omega
      exact ⟨[], rest, rfl, by simp [hi]⟩
    · have : charIdx c (d :: rest) = (charIdx c rest).map Nat.succ := by
        simp [charIdx, hd]
      rw [this] at h
      rcases hr : charIdx c rest with _ | j
      · rw [hr] at h; simp at h
      · rw [hr] at h
        have hij : i = j + 1 := by
          simp at h
          omega
        obtain ⟨A, B, hAB, hlen⟩ := ih hr
        exact ⟨d :: A, B, by rw [hAB]; simp, by simp [hlen, hij]⟩

theorem split_last {A P S : List Char} {b c : Char} (h : A ++ [b] = P ++ c :: S)
    (hne : c ≠ b) : ∃ S1, S = S1 ++ [b] ∧ A = P ++ c :: S1 := by
  rcases List.eq_nil_or_concat S with hS | ⟨S1, b2, hS⟩
  · subst hS
    have hlen : A.length = P.length := by
      have := congrArg List.length h
      simp at this
      omega
    obtain ⟨h1, h2⟩ := List.append_inj' h (by simp)
    have : b = c := by injection h2
    exact absurd this.symm hne
  · rw [List.concat_eq_append] at hS
    subst hS
    have hre : P ++ c :: (S1 ++ [b2]) = (P ++ c :: S1) ++ [b2] := by simp
    rw [hre] at h
    obtain ⟨h1, h2⟩ := List.append_inj' h (by simp)
    have hb : b = b2 := by injection h2
    subst hb
    exact ⟨S1, rfl, h1⟩

theorem p2Aux_nil : ∀ fuel, p2Aux fuel [] = [] := by
  intro fuel
  rcases fuel with _ | f <;> rfl

theorem p2Aux_nl (W : List Char) : ∀ fuel, ∃ W2, p2Aux fuel ('\n' :: W) = '\n' :: W2 := by
  intro fuel
  rcases fuel with _ | f
  · exact ⟨W, rfl⟩
  · refine ⟨p2Aux f W, ?_⟩
    simp [p2Aux, matchP2_not (show ('\n' : Char) ≠ '<' from by decide)]

theorem p2WsEnd_eq (cs : List Char) :
    p2WsEnd cs
      = (if (cs.dropWhile isPyWs).isEmpty then some []
         else
           match (charIdx '\n' (cs.takeWhile isPyWs).reverse).map
               (fun i => (cs.takeWhile isPyWs).length - 1 - i) with
           | some j => some ((cs.takeWhile isPyWs).drop j ++ cs.dropWhile isPyWs)
           | none => none) := rfl

theorem matchP2_shape {cs rest2 : List Char} (h : matchP2 cs = some rest2) :
    (∃ X, cs = '<' :: X) ∧ (rest2 = [] ∨ ∃ W, rest2 = '\n' :: W) := by
  unfold matchP2 at h
  rcases hcr : matchCloseRun cs with _ | r1
  · rw [hcr] at h; cases h
  · rw [hcr] at h
    have h2 : p2WsEnd r1 = some rest2 := h
    have hhead : ∃ X, cs = '<' :: X := by
      unfold matchCloseRun at hcr
      rcases hct : matchCloseTag cs with _ | r0
      · rw [hct] at hcr; cases hcr
      · rcases cs with _ | ⟨c0, _ | ⟨d0, rest0⟩⟩
        · cases hct
        · cases hct
        · by_cases hc0 : c0 = '<'
          · exact ⟨d0 :: rest0, by rw [hc0]⟩
          · rw [matchCloseTag_not hc0] at hct; cases hct
    refine ⟨hhead, ?_⟩
    rw [p2WsEnd_eq] at h2
    by_cases hre : (r1.dropWhile isPyWs).isEmpty
    · rw [if_pos hre] at h2
      left
      injection h2 with h3
      exact h3.symm
    · rw [if_neg hre] at h2
      rcases hci : charIdx '\n' ((r1.takeWhile isPyWs).reverse) with _ | i
      · rw [hci] at h2; cases h2
      · rw [hci] at h2
        have h4 : some ((r1.takeWhile isPyWs).drop ((r1.takeWhile isPyWs).length - 1 - i)
            ++ r1.dropWhile isPyWs) = some rest2 := h2
        right
        obtain ⟨A, B, hAB, hlen⟩ := charIdx_some hci
        have hw : r1.takeWhile isPyWs = B.reverse ++ '\n' :: A.reverse := by
          have := congrArg List.reverse hAB
          simpa using this
        have hwlen : (r1.takeWhile isPyWs).length = B.length + 1 + A.length := by
          rw [hw]; simp; omega
        have hlen2 : (r1.takeWhile isPyWs).length - 1 - i = B.reverse.length := by
          simp only [hwlen, List.length_reverse, ← hlen]
          omega
        have hdrop : (r1.takeWhile isPyWs).drop ((r1.takeWhile isPyWs).length - 1 - i)
            = '\n' :: A.reverse := by
          rw [hlen2, hw, List.drop_left]
        refine ⟨A.reverse ++ r1.dropWhile isPyWs, ?_⟩
        injection h4 with h3
        rw [← h3, hdrop]
        simp

theorem p2Aux_cutpass : ∀ (A : List Char) (fuel : Nat) (B : List Char),
    (∃ Y, p2Aux fuel (A ++ B) = A ++ Y) ∨
    (∃ P S T, A = P ++ '<' :: S ∧ p2Aux fuel (A ++ B) = P ++ T ∧
      (T = [] ∨ ∃ W, T = '\n' :: W)) := by
  intro A
  induction A with
  | nil => intro fuel B; exact Or.inl ⟨p2Aux fuel B, rfl⟩
  | cons a A ih =>
    intro fuel B
    rcases fuel with _ | f
    · exact Or.inl ⟨B, rfl⟩
    · rcases hm : matchP2 (a :: (A ++ B)) with _ | rest2
      · rcases ih f B with ⟨Y, hY⟩ | ⟨P, S, T, h1, h2, h3⟩
        · left
          refine ⟨Y, ?_⟩
          simp only [List.cons_append, p2Aux, hm, hY]
        · right
          refine ⟨a :: P, S, T, by rw [h1]; simp, ?_, h3⟩
          simp only [List.cons_append, p2Aux, hm, h2]
      · obtain ⟨⟨X, hX⟩, hsh⟩ := matchP2_shape hm
        have ha : a = '<' := by injection hX
        rcases hsh with rfl | ⟨W, rfl⟩
        · right
          refine ⟨[], A, [], by rw [ha]; rfl, ?_, Or.inl rfl⟩
          simp only [List.cons_append, p2Aux, hm, p2Aux_nil]
          rfl
        · obtain ⟨W2, hW2⟩ := p2Aux_nl W f
          right
          refine ⟨[], A, '\n' :: W2, by rw [ha]; rfl, ?_, Or.inr ⟨W2, rfl⟩⟩
          simp only [List.cons_append, p2Aux, hm, hW2]
          rfl

theorem p1Aux_pass_nl {A : List Char} (hA : ∀ c ∈ A, c ≠ '\n') :
    ∀ fuel B, ∃ X, p1Aux fuel false (A ++ B) = A ++ X := by
  induction A with
  | nil => intro fuel B; exact ⟨p1Aux fuel false B, rfl⟩
  | cons a A ih =>
    intro fuel B
    rcases fuel with _ | f
    · exact ⟨B, rfl⟩
    · have ha : a ≠ '\n' := hA a (by simp)
      obtain ⟨X, hX⟩ := ih (fun c hc => hA c (by simp [hc])) f B
      refine ⟨X, ?_⟩
      simp only [List.cons_append, p1Aux]
      rw [show (decide (a = '\n')) = false from by simp [ha], hX]
      simp

theorem p1_wrap_nl {opens : List (List Char)} {jt C : List Char}
    (hts : ∀ t ∈ opens, validTagBody t = true)
    (hnl : ∀ c ∈ jt, c ≠ '\n') {c0 : Char} {T0 : List Char}
    (hhd : jt = c0 :: T0) (hc0 : c0 ≠ '<') :
    ∃ X, p1 (renderOpenTags opens ++ (jt ++ C)) = jt ++ X := by
  have hc0n : c0 ≠ '\n' := hnl c0 (by rw [hhd]; simp)
  have hnl' : ∀ c ∈ T0, c ≠ '\n' := fun c hc => hnl c (by rw [hhd]; simp [hc])
  rcases opens with _ | ⟨o, os⟩
  · obtain ⟨X, hX⟩ := p1Aux_pass_nl hnl' (T0 ++ C).length C
    refine ⟨X, ?_⟩
    show p1 (renderOpenTags [] ++ (jt ++ C)) = jt ++ X
    rw [show renderOpenTags [] = [] from rfl, List.nil_append, hhd, p1]
    have hlen : ((c0 :: T0) ++ C).length = (T0 ++ C).length + 1 := by simp
    rw [hlen]
    have hmr : matchTagRun (c0 :: (T0 ++ C)) = none := by
      simp [matchTagRun, matchTag_not hc0]
    show (match matchTagRun (c0 :: (T0 ++ C)) with
          | some rest2 => p1Aux (T0 ++ C).length false rest2
          | none => c0 :: p1Aux (T0 ++ C).length (decide (c0 = '\n')) (T0 ++ C)) = _
    rw [hmr, show (decide (c0 = '\n')) = false from by simp [hc0n], hX]
    simp
  · rw [renderOpen_cons]
    have hmt : matchTag (jt ++ C) = none := by
      rw [hhd, List.cons_append]
      exact matchTag_not hc0
    have hm : matchTag ('<' :: (o ++ '>' :: (renderOpenTags os ++ (jt ++ C)))) =
        some (renderOpenTags os ++ (jt ++ C)) := matchTag_tag (hts o (by simp))
    have hshape : ('<' :: (o ++ '>' :: renderOpenTags os)) ++ (jt ++ C)
        = '<' :: (o ++ '>' :: (renderOpenTags os ++ (jt ++ C))) := by simp
    have hlen : os.length ≤ ('<' :: (o ++ '>' :: (renderOpenTags os ++ (jt ++ C)))).length := by
      have := renderOpen_len os
      simp only [List.length_cons, List.length_append]
      omega
    have hrun : matchTagRun ('<' :: (o ++ '>' :: (renderOpenTags os ++ (jt ++ C)))) =
        some (jt ++ C) := by
      simp only [matchTagRun, hm]
      rw [tagRun_render (fun u hu => hts u (by simp [hu])) hmt _ hlen]
    rw [p1, hshape]
    have hL : ('<' :: (o ++ '>' :: (renderOpenTags os ++ (jt ++ C)))).length
        = (('<' :: (o ++ '>' :: (renderOpenTags os ++ (jt ++ C)))).length - 1) + 1 := by
      simp
    rw [hL, p1Aux, hrun]
    exact p1Aux_pass_nl hnl _ C

theorem pyws_cases {c : Char} (h : isPyWs c = true) :
    c = ' ' ∨ c = '\t' ∨ c = '\n' ∨ c = '\r' ∨ c = '\x0b' ∨ c = '\x0c' := by
  simp only [isPyWs, Bool.or_eq_true, decide_eq_true_eq] at h
  tauto

theorem hex_not_pyws {c : Char} (h : isHexDig c = true) : isPyWs c = false := by
  rcases hpw : isPyWs c with _ | _
  · rfl
  · rcases pyws_cases hpw with rfl | rfl | rfl | rfl | rfl | rfl <;> exact absurd h (by decide)

theorem esc_not_pyws {e : Char} (h : simpleEscape e = true) : isPyWs e = false := by
  simp only [simpleEscape, Bool.or_eq_true, decide_eq_true_eq] at h
  rcases h with (((((((rfl | rfl) | rfl) | rfl) | rfl) | rfl) | rfl) | rfl) <;> decide

theorem SB_pyws (cs : List Char) : ∀ {s r : List Char}, parseStringBody cs = some (s, r) →
    ∀ c ∈ s, isPyWs c = true → c = ' ' := by
  induction cs using parseStringBody.induct with
  | case1 =>
    intro s r h
    simp [parseStringBody] at h
  | case2 rest2 =>
    intro s r h
    rw [parseStringBody.eq_def] at h
    simp only [if_pos rfl, Option.some.injEq, Prod.mk.injEq] at h
    obtain ⟨rfl, rfl⟩ := h
    intro c hc
    simp at hc
  | case3 hne =>
    intro s r h
    simp [parseStringBody] at h
  | case4 h1 h2 h3 h4 rest3 hhex s0 r0 hinner hne ih =>
    intro s r h
    have hstep : parseStringBody ('\\' :: 'u' :: h1 :: h2 :: h3 :: h4 :: rest3)
        = some ('\\' :: 'u' :: h1 :: h2 :: h3 :: h4 :: s0, r0) := by
      simp [parseStringBody, hhex, hinner]
    rw [hstep] at h
    simp only [Option.some.injEq, Prod.mk.injEq] at h
    obtain ⟨rfl, rfl⟩ := h
    intro c hc hpw
    have hhex4 : isHexDig h1 = true ∧ isHexDig h2 = true ∧ isHexDig h3 = true
        ∧ isHexDig h4 = true := by
      simpa [Bool.and_eq_true, and_assoc] using hhex
    simp only [List.mem_cons] at hc
    rcases hc with rfl | rfl | rfl | rfl | rfl | rfl | hc
    · exact absurd hpw (by decide)
    · exact absurd hpw (by decide)
    · rw [hex_not_pyws hhex4.1] at hpw; cases hpw
    · rw [hex_not_pyws hhex4.2.1] at hpw; cases hpw
    · rw [hex_not_pyws hhex4.2.2.1] at hpw; cases hpw
    · rw [hex_not_pyws hhex4.2.2.2] at hpw; cases hpw
    · exact ih hinner c hc hpw
  | case5 h1 h2 h3 h4 rest3 hhex hinner hne ih =>
    intro s r h
    simp [parseStringBody, hhex, hinner] at h
  | case6 h1 h2 h3 h4 rest3 hhex hne =>
    intro s r h
    simp [parseStringBody, hhex] at h
  | case7 rest2 hshape hne =>
    intro s r h
    rcases rest2 with _ | ⟨a, _ | ⟨b, _ | ⟨c, _ | ⟨d, e⟩⟩⟩⟩
    · simp [parseStringBody] at h
    · simp [parseStringBody] at h
    · simp [parseStringBody] at h
    · simp [parseStringBody] at h
    · exact (hshape a b c d e rfl).elim
  | case8 e rest2 hnu hesc s0 r0 hinner hne ih =>
    intro s r h
    have hstep : parseStringBody ('\\' :: e :: rest2) = some ('\\' :: e :: s0, r0) := by
      rw [parseStringBody.eq_def]
      simp [hnu, hesc, hinner]
    rw [hstep] at h
    simp only [Option.some.injEq, Prod.mk.injEq] at h
    obtain ⟨rfl, rfl⟩ := h
    intro c hc hpw
    simp only [List.mem_cons] at hc
    rcases hc with rfl | rfl | hc
    · exact absurd hpw (by decide)
    · rw [esc_not_pyws hesc] at hpw; cases hpw
    · exact ih hinner c hc hpw
  | case9 e rest2 hnu hesc hinner hne ih =>
    intro s r h
    rw [parseStringBody.eq_def] at h
    simp [hnu, hesc, hinner] at h
  | case10 e rest2 hnu hesc hne =>
    intro s r h
    rw [parseStringBody.eq_def] at h
    simp [hnu, hesc] at h
  | case11 e rest2 hnq hnb hlt =>
    intro s r h
    rw [parseStringBody.eq_def] at h
    simp [hnq, hnb, hlt] at h
  | case12 e rest2 hnq hnb hlt s0 r0 hinner ih =>
    intro s r h
    have hstep : parseStringBody (e :: rest2) = some (e :: s0, r0) := by
      rw [parseStringBody.eq_def]
      simp [hnq, hnb, hlt, hinner]
    rw [hstep] at h
    simp only [Option.some.injEq, Prod.mk.injEq] at h
    obtain ⟨rfl, rfl⟩ := h
    intro c hc hpw
    simp only [List.mem_cons] at hc
    rcases hc with rfl | hc
    · rcases pyws_cases hpw with rfl | rfl | rfl | rfl | rfl | rfl
      · rfl
      · exact absurd (by decide) hlt
      · exact absurd (by decide) hlt
      · exact absurd (by decide) hlt
      · exact absurd (by decide) hlt
      · exact absurd (by decide) hlt
    · exact ih hinner c hc hpw
  | case13 e rest2 hnq hnb hlt hinner ih =>
    intro s r h
    rw [parseStringBody.eq_def] at h
    simp [hnq, hnb, hlt, hinner] at h

theorem IP_class {xs ip rest : List Char} (h : parseIntPart xs = some (ip, rest)) :
    ∀ c ∈ ip, c.isDigit = true := by
  rcases xs with _ | ⟨c0, r0⟩
  · simp [parseIntPart] at h
  · by_cases h0 : c0 = '0'
    · subst h0
      simp only [parseIntPart, if_pos rfl, Option.some.injEq, Prod.mk.injEq] at h
      obtain ⟨rfl, rfl⟩ := h
      intro c hc
      simp only [List.mem_singleton] at hc
      subst hc
      decide
    · by_cases hd : c0.isDigit
      · simp only [parseIntPart, if_neg h0, if_pos hd, Option.some.injEq, Prod.mk.injEq] at h
        obtain ⟨rfl, rfl⟩ := h
        intro c hc
        simp only [List.mem_cons] at hc
        rcases hc with rfl | hc
        · exact hd
        · exact List.mem_takeWhile_imp hc
      · simp [parseIntPart, h0, hd] at h

theorem F_class {ys fp rest : List Char} (h : parseFrac ys = (fp, rest)) :
    ∀ c ∈ fp, (c.isDigit || c = '.') = true := by
  rcases ys with _ | ⟨c0, r0⟩
  · simp only [parseFrac] at h
    obtain ⟨rfl, rfl⟩ := h
    intro c hc
    simp at hc
  · by_cases h0 : c0 = '.'
    · subst h0
      simp only [parseFrac, if_pos rfl] at h
      by_cases ht : (r0.takeWhile Char.isDigit).isEmpty
      · rw [if_pos ht] at h
        obtain ⟨rfl, rfl⟩ := h
        intro c hc
        simp at hc
      · rw [if_neg ht] at h
        obtain ⟨rfl, rfl⟩ := h
        intro c hc
        simp only [List.mem_cons] at hc
        rcases hc with rfl | hc
        · decide
        · simp [List.mem_takeWhile_imp hc]
    · simp only [parseFrac, if_neg h0] at h
      obtain ⟨rfl, rfl⟩ := h
      intro c hc
      simp at hc

theorem E_class {ys ep rest : List Char} (h : parseExp ys = (ep, rest)) :
    ∀ c ∈ ep, (c.isDigit || c = 'e' || c = 'E' || c = '+' || c = '-') = true := by
  rcases ys with _ | ⟨e0, r0⟩
  · simp only [parseExp] at h
    obtain ⟨rfl, rfl⟩ := h
    intro c hc
    simp at hc
  · by_cases he : e0 = 'e' ∨ e0 = 'E'
    · have heb : (e0 = 'e' || e0 = 'E') = true := by
        rcases he with rfl | rfl <;> simp
      rcases r0 with _ | ⟨s0, r1⟩
      · simp only [parseExp, heb, if_pos rfl] at h
        obtain ⟨rfl, rfl⟩ := h
        intro c hc
        simp at hc
      · by_cases hs : s0 = '+' ∨ s0 = '-'
        · have hsb : (s0 = '+' || s0 = '-') = true := by
            rcases hs with rfl | rfl <;> simp
          simp only [parseExp, heb, if_pos rfl, hsb] at h
          by_cases ht : (r1.takeWhile Char.isDigit).isEmpty
          · rw [if_pos ht] at h
            obtain ⟨rfl, rfl⟩ := h
            intro c hc
            simp at hc
          · rw [if_neg ht] at h
            obtain ⟨rfl, rfl⟩ := h
            intro c hc
            simp only [List.mem_cons] at hc
            rcases hc with rfl | rfl | hc
            · rcases he with rfl | rfl <;> decide
            · rcases hs with rfl | rfl <;> decide
            · simp [List.mem_takeWhile_imp hc]
        · have hsb : (s0 = '+' || s0 = '-') = false := by
            simp only [Bool.or_eq_false_iff, decide_eq_false_iff_not]
            exact ⟨fun hx => hs (Or.inl hx), fun hx => hs (Or.inr hx)⟩
          simp only [parseExp, heb, if_pos rfl, hsb] at h
          by_cases ht : ((s0 :: r1).takeWhile Char.isDigit).isEmpty
          · rw [if_pos ht] at h
            obtain ⟨rfl, rfl⟩ := h
            intro c hc
            simp at hc
          · rw [if_neg ht] at h
            obtain ⟨rfl, rfl⟩ := h
            intro c hc
            simp only [List.mem_cons] at hc
            rcases hc with rfl | hc
            · rcases he with rfl | rfl <;> decide
            · simp [List.mem_takeWhile_imp hc]
    · have heb : (e0 = 'e' || e0 = 'E') = false := by
        simp only [Bool.or_eq_false_iff, decide_eq_false_iff_not]
        exact ⟨fun hx => he (Or.inl hx), fun hx => he (Or.inr hx)⟩
      simp only [parseExp, heb, Bool.false_eq_true, if_false] at h
      obtain ⟨rfl, rfl⟩ := h
      intro c hc
      simp at hc

theorem or_to_num {c : Char} (h : (c.isDigit || c = '.') = true
      ∨ (c.isDigit || c = 'e' || c = 'E' || c = '+' || c = '-') = true
      ∨ c.isDigit = true ∨ c = '-') :
    (c.isDigit || c = '-' || c = '+' || c = '.' || c = 'e' || c = 'E') = true := by
  rcases h with h | h | h | h
  · simp only [Bool.or_eq_true, decide_eq_true_eq] at h ⊢
    tauto
  · simp only [Bool.or_eq_true, decide_eq_true_eq] at h ⊢
    tauto
  · simp [h]
  · subst h
    decide

theorem NUM_class {cs lex r : List Char} (h : parseNumberBody cs = some (lex, r)) :
    ∀ c ∈ lex, (c.isDigit || c = '-' || c = '+' || c = '.' || c = 'e' || c = 'E') = true := by
  rcases cs with _ | ⟨c1, r1⟩
  · simp [parseNumberBody, parseIntPart] at h
  · by_cases hneg : c1 = '-'
    · subst hneg
      have h2 : (match parseIntPart r1 with
          | none => none
          | some (ip, cs2) =>
              some (['-'] ++ ip ++ (parseFrac cs2).1 ++ (parseExp (parseFrac cs2).2).1,
                (parseExp (parseFrac cs2).2).2)) = some (lex, r) := h
      rcases hip : parseIntPart r1 with _ | ⟨ip, cs2⟩
      · rw [hip] at h2; simp at h2
      · rw [hip] at h2
        simp only [Option.some.injEq, Prod.mk.injEq] at h2
        obtain ⟨rfl, rfl⟩ := h2
        intro c hc
        simp only [List.mem_append, List.mem_singleton] at hc
        rcases hc with ((hc | hc) | hc) | hc
        · subst hc
          decide
        · exact or_to_num (Or.inr (Or.inr (Or.inl (IP_class hip c hc))))
        · exact or_to_num (Or.inl
            (@F_class cs2 (parseFrac cs2).1 (parseFrac cs2).2 rfl c hc))
        · exact or_to_num (Or.inr (Or.inl
            (@E_class (parseFrac cs2).2 (parseExp (parseFrac cs2).2).1
              (parseExp (parseFrac cs2).2).2 rfl c hc)))
    · simp only [parseNumberBody, if_neg hneg] at h
      rcases hip : parseIntPart (c1 :: r1) with _ | ⟨ip, cs2⟩
      · rw [hip] at h; simp at h
      · rw [hip] at h
        simp only [Option.some.injEq, Prod.mk.injEq] at h
        obtain ⟨rfl, rfl⟩ := h
        intro c hc
        simp only [List.mem_append, List.nil_append] at hc
        rcases hc with (hc | hc) | hc
        · exact or_to_num (Or.inr (Or.inr (Or.inl (IP_class hip c hc))))
        · exact or_to_num (Or.inl
            (@F_class cs2 (parseFrac cs2).1 (parseFrac cs2).2 rfl c hc))
        · exact or_to_num (Or.inr (Or.inl
            (@E_class (parseFrac cs2).2 (parseExp (parseFrac cs2).2).1
              (parseExp (parseFrac cs2).2).2 rfl c hc)))

theorem num_not_pyws {c : Char}
    (h : (c.isDigit || c = '-' || c = '+' || c = '.' || c = 'e' || c = 'E') = true) :
    isPyWs c = false := by
  simp only [Bool.or_eq_true, decide_eq_true_eq] at h
  rcases h with ((((hd | rfl) | rfl) | rfl) | rfl) | rfl
  · exact (digit_not_ws hd).2
  · decide
  · decide
  · decide
  · decide
  · decide

theorem jtext_pyws :
    (∀ v, wfVal v = true → ∀ c ∈ jtext v, isPyWs c = true → c = ' ') ∧
    (∀ l, wfList l = true → ∀ c ∈ jtextList l, isPyWs c = true → c = ' ') ∧
    (∀ m, wfMembers m = true → ∀ c ∈ jtextMembers m, isPyWs c = true → c = ' ') := by
  refine jmut _ _ _ ?_ ?_ ?_ ?_ ?_ ?_ ?_ ?_ ?_ ?_
  · intro _ c hc hpw
    have he : jtext JVal.jnull = ['n', 'u', 'l', 'l'] := rfl
    rw [he] at hc
    simp only [List.mem_cons, List.not_mem_nil, or_false] at hc
    rcases hc with rfl | rfl | rfl | rfl <;> exact absurd hpw (by decide)
  · intro b _ c hc hpw
    cases b
    · have he : jtext (JVal.jbool false) = ['f', 'a', 'l', 's', 'e'] := rfl
      rw [he] at hc
      simp only [List.mem_cons, List.not_mem_nil, or_false] at hc
      rcases hc with rfl | rfl | rfl | rfl | rfl <;> exact absurd hpw (by decide)
    · have he : jtext (JVal.jbool true) = ['t', 'r', 'u', 'e'] := rfl
      rw [he] at hc
      simp only [List.mem_cons, List.not_mem_nil, or_false] at hc
      rcases hc with rfl | rfl | rfl | rfl <;> exact absurd hpw (by decide)
  · intro s hwf c hc hpw
    have hw : wfNumLex s = true := hwf
    have he : jtext (JVal.jnum s) = s.data := rfl
    rw [he] at hc
    simp only [wfNumLex, Bool.or_eq_true] at hw
    rcases hw with ((hv | hn) | hi) | hni
    · rw [num_not_pyws (NUM_class (VN hv) c hc)] at hpw
      cases hpw
    · have hs : s = "NaN" := eq_of_beq hn
      subst hs
      simp only [List.mem_cons, List.not_mem_nil, or_false,
        show ("NaN".data : List Char) = ['N', 'a', 'N'] from rfl] at hc
      rcases hc with rfl | rfl | rfl <;> exact absurd hpw (by decide)
    · have hs : s = "Infinity" := eq_of_beq hi
      subst hs
      simp only [List.mem_cons, List.not_mem_nil, or_false,
        show ("Infinity".data : List Char)
          = ['I', 'n', 'f', 'i', 'n', 'i', 't', 'y'] from rfl] at hc
      rcases hc with rfl | rfl | rfl | rfl | rfl | rfl | rfl | rfl <;>
        exact absurd hpw (by decide)
    · have hs : s = "-Infinity" := eq_of_beq hni
      subst hs
      simp only [List.mem_cons, List.not_mem_nil, or_false,
        show ("-Infinity".data : List Char)
          = ['-', 'I', 'n', 'f', 'i', 'n', 'i', 't', 'y'] from rfl] at hc
      rcases hc with rfl | rfl | rfl | rfl | rfl | rfl | rfl | rfl | rfl <;>
        exact absurd hpw (by decide)
  · intro s hwf c hc hpw
    have he : jtext (JVal.jstr s) = '"' :: (s.data ++ ['"']) := rfl
    rw [he] at hc
    simp only [List.mem_cons, List.mem_append, List.mem_singleton, List.not_mem_nil, or_false] at hc
    rcases hc with rfl | hc | rfl
    · exact absurd hpw (by decide)
    · exact SB_pyws (s.data ++ ['"']) (VS hwf) c hc hpw
    · exact absurd hpw (by decide)
  · intro l Ql hwf c hc hpw
    cases l with
    | jnil =>
      have he : jtext (JVal.jarr JList.jnil) = ['[', ']'] := rfl
      rw [he] at hc
      simp only [List.mem_cons, List.not_mem_nil, or_false] at hc
      rcases hc with rfl | rfl <;> exact absurd hpw (by decide)
    | jcons h t =>
      have he : jtext (JVal.jarr (JList.jcons h t))
          = '[' :: (jtext h ++ jtextList t ++ [']']) := rfl
      rw [he] at hc
      simp only [List.mem_cons, List.mem_append, List.mem_singleton, List.not_mem_nil, or_false] at hc
      rcases hc with rfl | (hc | hc) | rfl
      · exact absurd hpw (by decide)
      · exact Ql hwf c (by
          show c ∈ jtextList (JList.jcons h t)
          have he2 : jtextList (JList.jcons h t) = ',' :: (jtext h ++ jtextList t) := rfl
          rw [he2]
          simp [hc]) hpw
      · exact Ql hwf c (by
          show c ∈ jtextList (JList.jcons h t)
          have he2 : jtextList (JList.jcons h t) = ',' :: (jtext h ++ jtextList t) := rfl
          rw [he2]
          simp [hc]) hpw
      · exact absurd hpw (by decide)
  · intro m Rm hwf c hc hpw
    cases m with
    | mnil =>
      have he : jtext (JVal.jobj JMembers.mnil) = ['\x7b', '\x7d'] := rfl
      rw [he] at hc
      simp only [List.mem_cons, List.not_mem_nil, or_false] at hc
      rcases hc with rfl | rfl <;> exact absurd hpw (by decide)
    | mcons k v t =>
      have he : jtext (JVal.jobj (JMembers.mcons k v t))
          = '\x7b' :: '"' :: (k.data ++ '"' :: ':' :: (jtext v ++ jtextMembers t ++ ['\x7d'])) := rfl
      rw [he] at hc
      have he2 : jtextMembers (JMembers.mcons k v t)
          = ',' :: '"' :: (k.data ++ '"' :: ':' :: (jtext v ++ jtextMembers t)) := rfl
      simp only [List.mem_cons, List.mem_append, List.mem_singleton, List.not_mem_nil, or_false] at hc
      rcases hc with rfl | rfl | hc | rfl | rfl | (hc | hc) | rfl
      · exact absurd hpw (by decide)
      · exact absurd hpw (by decide)
      · exact Rm hwf c (by rw [he2]; simp [hc]) hpw
      · exact absurd hpw (by decide)
      · exact absurd hpw (by decide)
      · exact Rm hwf c (by rw [he2]; simp [hc]) hpw
      · exact Rm hwf c (by rw [he2]; simp [hc]) hpw
      · exact absurd hpw (by decide)
  · intro _ c hc hpw
    have he : jtextList JList.jnil = [] := rfl
    rw [he] at hc
    simp at hc
  · intro v l Pv Ql hwf c hc hpw
    have hw2 : wfVal v = true ∧ wfList l = true := by
      have : (wfVal v && wfList l) = true := hwf
      simpa [Bool.and_eq_true] using this
    have he : jtextList (JList.jcons v l) = ',' :: (jtext v ++ jtextList l) := rfl
    rw [he] at hc
    simp only [List.mem_cons, List.mem_append] at hc
    rcases hc with rfl | hc | hc
    · exact absurd hpw (by decide)
    · exact Pv hw2.1 c hc hpw
    · exact Ql hw2.2 c hc hpw
  · intro _ c hc hpw
    have he : jtextMembers JMembers.mnil = [] := rfl
    rw [he] at hc
    simp at hc
  · intro k v m Pv Rm hwf c hc hpw
    have hw2 : validStrLexeme k = true ∧ wfVal v = true ∧ wfMembers m = true := by
      have : (validStrLexeme k && wfVal v && wfMembers m) = true := hwf
      simpa [Bool.and_eq_true, and_assoc] using this
    have he : jtextMembers (JMembers.mcons k v m)
        = ',' :: '"' :: (k.data ++ '"' :: ':' :: (jtext v ++ jtextMembers m)) := rfl
    rw [he] at hc
    simp only [List.mem_cons, List.mem_append] at hc
    rcases hc with rfl | rfl | hc | rfl | rfl | hc | hc
    · exact absurd hpw (by decide)
    · exact absurd hpw (by decide)
    · exact SB_pyws (k.data ++ ['"']) (VS hw2.1) c hc hpw
    · exact absurd hpw (by decide)
    · exact absurd hpw (by decide)
    · exact Pv hw2.2.1 c hc hpw
    · exact Rm hw2.2.2 c hc hpw

theorem jtext_no_nl {v : JVal} (hwf : wfVal v = true) : ∀ c ∈ jtext v, c ≠ '\n' := by
  intro c hc hnl
  subst hnl
  have := jtext_pyws.1 v hwf '\n' hc (by decide)
  exact absurd this (by decide)

theorem SB_u1 {c : Char} (hc : isHexDig c = false) (X : List Char) :
    parseStringBody ('\\' :: 'u' :: c :: X) = none := by
  rcases X with _ | ⟨y1, _ | ⟨y2, _ | ⟨y3, Y⟩⟩⟩ <;> simp [parseStringBody, hc]

theorem SB_u2 {c : Char} (hc : isHexDig c = false) (x1 : Char) (X : List Char) :
    parseStringBody ('\\' :: 'u' :: x1 :: c :: X) = none := by
  rcases X with _ | ⟨y1, _ | ⟨y2, Y⟩⟩ <;> simp [parseStringBody, hc]

theorem SB_u3 {c : Char} (hc : isHexDig c = false) (x1 x2 : Char) (X : List Char) :
    parseStringBody ('\\' :: 'u' :: x1 :: x2 :: c :: X) = none := by
  rcases X with _ | ⟨y1, Y⟩ <;> simp [parseStringBody, hc]

theorem SB_u4 {c : Char} (hc : isHexDig c = false) (x1 x2 x3 : Char) (X : List Char) :
    parseStringBody ('\\' :: 'u' :: x1 :: x2 :: x3 :: c :: X) = none := by
  simp [parseStringBody, hc]

theorem SB_plain_step {a : Char} (haq : ¬(a = '"')) (hab : ¬(a = '\\'))
    (h32 : ¬(a.toNat < 32)) (R : List Char) :
    parseStringBody (a :: R)
      = (match parseStringBody R with
         | some (s, r) => some (a :: s, r)
         | none => none) := by
  rw [parseStringBody.eq_def]
  simp [haq, hab, h32]

theorem SB_esc_step {e : Char} (heu : ¬(e = 'u')) (hesc : simpleEscape e = true)
    (R : List Char) :
    parseStringBody ('\\' :: e :: R)
      = (match parseStringBody R with
         | some (s, r) => some ('\\' :: e :: s, r)
         | none => none) := by
  rw [parseStringBody.eq_def]
  simp [heu, hesc]

theorem SB_u_step {x1 x2 x3 x4 : Char}
    (hg : (isHexDig x1 && isHexDig x2 && isHexDig x3 && isHexDig x4) = true)
    (R : List Char) :
    parseStringBody ('\\' :: 'u' :: x1 :: x2 :: x3 :: x4 :: R)
      = (match parseStringBody R with
         | some (s, r) => some ('\\' :: 'u' :: x1 :: x2 :: x3 :: x4 :: s, r)
         | none => none) := by
  rw [parseStringBody.eq_def]
  simp [hg]

theorem SB_u_step_none {x1 x2 x3 x4 : Char}
    (hg : (isHexDig x1 && isHexDig x2 && isHexDig x3 && isHexDig x4) = false)
    (R : List Char) :
    parseStringBody ('\\' :: 'u' :: x1 :: x2 :: x3 :: x4 :: R) = none := by
  rw [parseStringBody.eq_def]
  simp [hg]

theorem SB_cut {c : Char} (hc : c = '<' ∨ c = ' ') :
    ∀ n P, P.length ≤ n → ∀ S T,
      parseStringBody ((P ++ c :: S) ++ ['"']) = some (P ++ c :: S, []) →
      parseStringBody T = none → parseStringBody (P ++ T) = none := by
  have hcu : c ≠ 'u' := by rcases hc with rfl | rfl <;> decide
  have hchex : isHexDig c = false := by rcases hc with rfl | rfl <;> decide
  have hcesc : simpleEscape c = false := by rcases hc with rfl | rfl <;> decide
  intro n
  induction n with
  | zero =>
    intro P hP S T hS hT
    have hP0 : P = [] := by
      rcases P with _ | ⟨a, P1⟩
      · rfl
      · simp at hP
    subst hP0
    simpa using hT
  | succ n ih =>
    intro P hP S T hS hT
    rcases P with _ | ⟨a, P1⟩
    · simpa using hT
    · have hP1 : P1.length ≤ n := by
        simp only [List.length_cons] at hP
        omega
      by_cases haq : a = '"'
      · subst haq
        rw [parseStringBody.eq_def] at hS
        simp at hS
      · by_cases hab : a = '\\'
        · subst hab
          rcases P1 with _ | ⟨e, P2⟩
          · simp only [List.nil_append, List.cons_append] at hS
            rw [parseStringBody.eq_def] at hS
            simp [hcu, hcesc] at hS
          · by_cases heu : e = 'u'
            · subst heu
              rcases P2 with _ | ⟨x1, _ | ⟨x2, _ | ⟨x3, _ | ⟨x4, P4⟩⟩⟩⟩
              · rw [show ((['\\', 'u'] ++ c :: S) ++ ['"'])
                    = '\\' :: 'u' :: c :: (S ++ ['"']) from by simp] at hS
                rw [SB_u1 hchex] at hS
                cases hS
              · rw [show ((['\\', 'u', x1] ++ c :: S) ++ ['"'])
                    = '\\' :: 'u' :: x1 :: c :: (S ++ ['"']) from by simp] at hS
                rw [SB_u2 hchex] at hS
                cases hS
              · rw [show ((['\\', 'u', x1, x2] ++ c :: S) ++ ['"'])
                    = '\\' :: 'u' :: x1 :: x2 :: c :: (S ++ ['"']) from by simp] at hS
                rw [SB_u3 hchex] at hS
                cases hS
              · rw [show ((['\\', 'u', x1, x2, x3] ++ c :: S) ++ ['"'])
                    = '\\' :: 'u' :: x1 :: x2 :: x3 :: c :: (S ++ ['"']) from by simp] at hS
                rw [SB_u4 hchex] at hS
                cases hS
              · have hsh : ((('\\' :: 'u' :: x1 :: x2 :: x3 :: x4 :: P4) ++ c :: S) ++ ['"'])
                    = '\\' :: 'u' :: x1 :: x2 :: x3 :: x4 :: ((P4 ++ c :: S) ++ ['"']) := by
                  simp
                rw [hsh] at hS
                rcases hg : (isHexDig x1 && isHexDig x2 && isHexDig x3 && isHexDig x4)
                    with _ | _
                · rw [SB_u_step_none hg] at hS
                  cases hS
                · rw [SB_u_step hg] at hS
                  rcases hrec : parseStringBody ((P4 ++ c :: S) ++ ['"']) with _ | ⟨s0, r0⟩
                  · rw [hrec] at hS
                    cases hS
                  · rw [hrec] at hS
                    have hS3 : some (('\\' :: 'u' :: x1 :: x2 :: x3 :: x4 :: s0 : List Char), r0)
                        = some (('\\' :: 'u' :: x1 :: x2 :: x3 :: x4 :: (P4 ++ c :: S) : List Char),
                            ([] : List Char)) := hS
                    simp only [Option.some.injEq, Prod.mk.injEq, List.cons.injEq,
                      true_and] at hS3
                    obtain ⟨hs0, hr0⟩ := hS3
                    rw [hs0, hr0] at hrec
                    have hP4 : P4.length ≤ n := by
                      simp only [List.length_cons] at hP
                      omega
                    have hres := ih P4 hP4 S T hrec hT
                    rw [show (('\\' :: 'u' :: x1 :: x2 :: x3 :: x4 :: P4) ++ T)
                        = '\\' :: 'u' :: x1 :: x2 :: x3 :: x4 :: (P4 ++ T) from by simp]
                    rw [SB_u_step hg, hres]
            · by_cases hesc : simpleEscape e
              · have hsh : ((('\\' :: e :: P2) ++ c :: S) ++ ['"'])
                    = '\\' :: e :: ((P2 ++ c :: S) ++ ['"']) := by simp
                rw [hsh, SB_esc_step heu hesc] at hS
                rcases hrec : parseStringBody ((P2 ++ c :: S) ++ ['"']) with _ | ⟨s0, r0⟩
                · rw [hrec] at hS
                  cases hS
                · rw [hrec] at hS
                  have hS3 : some (('\\' :: e :: s0 : List Char), r0)
                      = some (('\\' :: e :: (P2 ++ c :: S) : List Char), ([] : List Char)) := hS
                  simp only [Option.some.injEq, Prod.mk.injEq, List.cons.injEq,
                    true_and] at hS3
                  obtain ⟨hs0, hr0⟩ := hS3
                  rw [hs0, hr0] at hrec
                  have hP2 : P2.length ≤ n := by
                    simp only [List.length_cons] at hP
                    omega
                  have hres := ih P2 hP2 S T hrec hT
                  rw [show (('\\' :: e :: P2) ++ T) = '\\' :: e :: (P2 ++ T) from by simp]
                  rw [SB_esc_step heu hesc, hres]
              · have hsh : ((('\\' :: e :: P2) ++ c :: S) ++ ['"'])
                    = '\\' :: e :: ((P2 ++ c :: S) ++ ['"']) := by simp
                rw [hsh, parseStringBody.eq_def] at hS
                simp [heu, hesc] at hS
        · by_cases h32 : a.toNat < 32
          · have hsh : (((a :: P1) ++ c :: S) ++ ['"'])
                = a :: ((P1 ++ c :: S) ++ ['"']) := by simp
            rw [hsh, parseStringBody.eq_def] at hS
            simp [haq, hab, h32] at hS
          · have hsh : (((a :: P1) ++ c :: S) ++ ['"'])
                = a :: ((P1 ++ c :: S) ++ ['"']) := by simp
            rw [hsh, SB_plain_step haq hab h32] at hS
            rcases hrec : parseStringBody ((P1 ++ c :: S) ++ ['"']) with _ | ⟨s0, r0⟩
            · rw [hrec] at hS
              cases hS
            · rw [hrec] at hS
              have hS3 : some ((a :: s0 : List Char), r0)
                  = some ((a :: (P1 ++ c :: S) : List Char), ([] : List Char)) := hS
              simp only [Option.some.injEq, Prod.mk.injEq, List.cons.injEq, true_and] at hS3
              obtain ⟨hs0, hr0⟩ := hS3
              rw [hs0, hr0] at hrec
              have hres := ih P1 hP1 S T hrec hT
              rw [show ((a :: P1) ++ T) = a :: (P1 ++ T) from by simp]
              rw [SB_plain_step haq hab h32, hres]

theorem splice_weak :
    (∀ v, wfVal v = true → ∀ fuel rest, numOk v rest →
        parseVal fuel (jtext v ++ rest) = none ∨
        parseVal fuel (jtext v ++ rest) = some (v, rest)) ∧
    (∀ l, wfList l = true → ∀ fuel rest h0 t0, l = JList.jcons h0 t0 →
        parseArrElems fuel (jtext h0 ++ (jtextList t0 ++ ']' :: rest)) = none ∨
        parseArrElems fuel (jtext h0 ++ (jtextList t0 ++ ']' :: rest))
          = some (JList.jcons h0 t0, rest)) ∧
    (∀ m, wfMembers m = true → ∀ fuel rest k0 v0 t0, m = JMembers.mcons k0 v0 t0 →
        parseObjMembers fuel
            ('"' :: (k0.data ++ '"' :: ':' :: (jtext v0 ++ (jtextMembers t0 ++ '\x7d' :: rest))))
          = none ∨
        parseObjMembers fuel
            ('"' :: (k0.data ++ '"' :: ':' :: (jtext v0 ++ (jtextMembers t0 ++ '\x7d' :: rest))))
          = some (JMembers.mcons k0 v0 t0, rest)) := by
  refine jmut _ _ _ ?_ ?_ ?_ ?_ ?_ ?_ ?_ ?_ ?_ ?_
  case _ =>
    intro _ fuel rest _
    rcases fuel with _ | f
    · exact Or.inl pv_fuel0
    · exact Or.inr pv_null
  case _ =>
    intro b _ fuel rest _
    rcases fuel with _ | f
    · exact Or.inl pv_fuel0
    · cases b
      · exact Or.inr pv_false
      · exact Or.inr pv_true
  case _ =>
    intro s hwf fuel rest hnum
    rcases fuel with _ | f
    · exact Or.inl pv_fuel0
    · right
      have hw : wfNumLex s = true := hwf
      have hnum' : validNumLexeme s = true → safeHead rest = true := hnum
      simp only [wfNumLex, Bool.or_eq_true] at hw
      rcases hw with ((hv | hn) | hi) | hni
      · have hpb := VN hv
        have hext := NUM_ext hpb (hnum' hv)
        rcases NUM_shape hpb with ⟨c, L, hld, hdig⟩ | ⟨c2, L2, hld, hdig⟩
        · show parseVal (f + 1) (s.data ++ rest) = some (JVal.jnum s, rest)
          rw [hld] at hext ⊢
          rw [List.cons_append, pv_num_digit hdig, ← List.cons_append, hext]
          show some (JVal.jnum (String.mk (c :: L)), rest) = some (JVal.jnum s, rest)
          rw [← hld, smk_eta]
        · show parseVal (f + 1) (s.data ++ rest) = some (JVal.jnum s, rest)
          rw [hld] at hext ⊢
          rw [List.cons_append, List.cons_append, pv_num_neg hdig,
            ← List.cons_append, ← List.cons_append, hext]
          show some (JVal.jnum (String.mk ('-' :: c2 :: L2)), rest) = some (JVal.jnum s, rest)
          rw [← hld, smk_eta]
      · have hns : s = "NaN" := eq_of_beq hn
        subst hns
        show parseVal (f + 1) ("NaN".data ++ rest) = some (JVal.jnum "NaN", rest)
        rw [show ("NaN".data : List Char) = ['N', 'a', 'N'] from by decide]
        exact pv_nan
      · have hns : s = "Infinity" := eq_of_beq hi
        subst hns
        show parseVal (f + 1) ("Infinity".data ++ rest) = some (JVal.jnum "Infinity", rest)
        rw [show ("Infinity".data : List Char)
            = ['I', 'n', 'f', 'i', 'n', 'i', 't', 'y'] from by decide]
        exact pv_inf
      · have hns : s = "-Infinity" := eq_of_beq hni
        subst hns
        show parseVal (f + 1) ("-Infinity".data ++ rest) = some (JVal.jnum "-Infinity", rest)
        rw [show ("-Infinity".data : List Char)
            = ['-', 'I', 'n', 'f', 'i', 'n', 'i', 't', 'y'] from by decide]
        exact pv_ninf
  case _ =>
    intro s hwf fuel rest _
    rcases fuel with _ | f
    · exact Or.inl pv_fuel0
    · right
      have hv : validStrLexeme s = true := hwf
      have hsb : parseStringBody ((s.data ++ ['"']) ++ rest) = some (s.data, rest) := by
        rw [List.append_assoc]
        exact SB_valid_append hv
      have hres := @pv_str f ((s.data ++ ['"']) ++ rest) s.data rest hsb
      rw [smk_eta] at hres
      exact hres
  case _ =>
    intro l Ql hwf fuel rest _
    have hwl : wfList l = true := hwf
    rcases fuel with _ | f
    · exact Or.inl pv_fuel0
    · cases l with
      | jnil => exact Or.inr pv_arr_nil
      | jcons h t =>
        have hw2 : wfVal h = true ∧ wfList t = true := by
          have : (wfVal h && wfList t) = true := hwl
          simpa [Bool.and_eq_true] using this
        obtain ⟨c0, T, hT, hws, _, hnrb, _, _⟩ := jtext_head h hw2.1
        have hskip : skipJsonWs (jtext h ++ (jtextList t ++ ']' :: rest))
            = jtext h ++ (jtextList t ++ ']' :: rest) := by
          rw [hT, List.cons_append]
          exact skip_nonws hws
        have hhead : headIs ']' (skipJsonWs (jtext h ++ (jtextList t ++ ']' :: rest)))
            = false := by
          rw [hskip, hT, List.cons_append]
          exact headIs_ne hnrb
        have hre : (jtext h ++ jtextList t ++ [']']) ++ rest
            = jtext h ++ (jtextList t ++ ']' :: rest) := by
          simp [List.append_assoc]
        rcases Ql hwl f rest h t rfl with hn | hs
        · left
          show parseVal (f + 1) ('[' :: ((jtext h ++ jtextList t ++ [']']) ++ rest)) = none
          rw [hre, pv_arr_cons hhead, hskip, hn]
        · right
          show parseVal (f + 1) ('[' :: ((jtext h ++ jtextList t ++ [']']) ++ rest))
              = some (JVal.jarr (JList.jcons h t), rest)
          rw [hre, pv_arr_cons hhead, hskip, hs]
  case _ =>
    intro m Rm hwf fuel rest _
    have hwm : wfMembers m = true := hwf
    rcases fuel with _ | f
    · exact Or.inl pv_fuel0
    · cases m with
      | mnil => exact Or.inr pv_obj_nil
      | mcons k v t =>
        have hre : ('"' :: (k.data ++ '"' :: ':' :: (jtext v ++ jtextMembers t ++ ['\x7d'])))
              ++ rest
            = '"' :: (k.data ++ '"' :: ':' :: (jtext v ++ (jtextMembers t ++ '\x7d' :: rest))) := by
          simp [List.append_assoc]
        have hhead : headIs '\x7d' (skipJsonWs
            ('"' :: (k.data ++ '"' :: ':' :: (jtext v ++ (jtextMembers t ++ '\x7d' :: rest)))))
            = false := by
          rw [skip_nonws (by decide)]
          exact headIs_ne (by decide)
        rcases Rm hwm f rest k v t rfl with hn | hs
        · left
          show parseVal (f + 1)
              ('\x7b' :: (('"' :: (k.data ++ '"' :: ':' :: (jtext v ++ jtextMembers t
                ++ ['\x7d']))) ++ rest)) = none
          rw [hre, pv_obj_cons hhead, skip_nonws (by decide), hn]
        · right
          show parseVal (f + 1)
              ('\x7b' :: (('"' :: (k.data ++ '"' :: ':' :: (jtext v ++ jtextMembers t
                ++ ['\x7d']))) ++ rest))
              = some (JVal.jobj (JMembers.mcons k v t), rest)
          rw [hre, pv_obj_cons hhead, skip_nonws (by decide), hs]
  case _ =>
    intro _ fuel rest h0 t0 heq
    cases heq
  case _ =>
    intro v l Pv Ql hwf fuel rest h0 t0 heq
    have he1 : v = h0 := by injection heq
    have he2 : l = t0 := by injection heq
    subst he1
    subst he2
    have hw2 : wfVal v = true ∧ wfList l = true := by
      have : (wfVal v && wfList l) = true := hwf
      simpa [Bool.and_eq_true] using this
    rcases fuel with _ | f
    · exact Or.inl rfl
    · have hnum : numOk v (jtextList l ++ ']' :: rest) := by
        cases v <;> try trivial
        intro _
        cases l
        · exact safe_rbracket
        · exact safe_comma
      rcases Pv hw2.1 f _ hnum with hn | hs
      · left
        rw [pae_step, hn]
      · rw [pae_step, hs]
        cases l with
        | jnil =>
          right
          show (match skipJsonWs (']' :: rest) with
                | [] => none
                | c :: rest2 =>
                  if c = ',' then
                    match parseArrElems f (skipJsonWs rest2) with
                    | some (l, r) => some (JList.jcons v l, r)
                    | none => none
                  else if c = ']' then some (JList.jcons v JList.jnil, rest2)
                  else none) = some (JList.jcons v JList.jnil, rest)
          rw [skip_nonws (by decide)]
          simp
        | jcons h2 t2 =>
          have hw3 : wfVal h2 = true ∧ wfList t2 = true := by
            have : (wfVal h2 && wfList t2) = true := hw2.2
            simpa [Bool.and_eq_true] using this
          obtain ⟨c0, T, hT, hws, _, _, _, _⟩ := jtext_head h2 hw3.1
          have hre : (jtext h2 ++ jtextList t2) ++ ']' :: rest
              = jtext h2 ++ (jtextList t2 ++ ']' :: rest) := by
            simp [List.append_assoc]
          have hskip : skipJsonWs ((jtext h2 ++ jtextList t2) ++ ']' :: rest)
              = jtext h2 ++ (jtextList t2 ++ ']' :: rest) := by
            rw [hre, hT, List.cons_append]
            exact skip_nonws hws
          rcases Ql hw2.2 f rest h2 t2 rfl with hn2 | hs2
          · left
            show (match skipJsonWs (',' :: ((jtext h2 ++ jtextList t2) ++ ']' :: rest)) with
                  | [] => none
                  | c :: rest2 =>
                    if c = ',' then
                      match parseArrElems f (skipJsonWs rest2) with
                      | some (l, r) => some (JList.jcons v l, r)
                      | none => none
                    else if c = ']' then some (JList.jcons v JList.jnil, rest2)
                    else none) = none
            rw [skip_nonws (by decide)]
            simp only [hskip, hn2]
            simp
          · right
            show (match skipJsonWs (',' :: ((jtext h2 ++ jtextList t2) ++ ']' :: rest)) with
                  | [] => none
                  | c :: rest2 =>
                    if c = ',' then
                      match parseArrElems f (skipJsonWs rest2) with
                      | some (l, r) => some (JList.jcons v l, r)
                      | none => none
                    else if c = ']' then some (JList.jcons v JList.jnil, rest2)
                    else none) = some (JList.jcons v (JList.jcons h2 t2), rest)
            rw [skip_nonws (by decide)]
            simp only [hskip, hs2]
            simp
  case _ =>
    intro _ fuel rest k0 v0 t0 heq
    cases heq
  case _ =>
    intro k v m Pv Rm hwf fuel rest k0 v0 t0 heq
    have he1 : k = k0 := by injection heq
    have he2 : v = v0 := by injection heq
    have he3 : m = t0 := by injection heq
    subst he1
    subst he2
    subst he3
    have hw2 : validStrLexeme k = true ∧ wfVal v = true ∧ wfMembers m = true := by
      have : (validStrLexeme k && wfVal v && wfMembers m) = true := hwf
      simpa [Bool.and_eq_true, and_assoc] using this
    rcases fuel with _ | f
    · exact Or.inl rfl
    · have hsb : parseStringBody (k.data ++ '"' :: ':'
          :: (jtext v ++ (jtextMembers m ++ '\x7d' :: rest)))
          = some (k.data, ':' :: (jtext v ++ (jtextMembers m ++ '\x7d' :: rest))) :=
        SB_valid_append hw2.1
      have hnum : numOk v (jtextMembers m ++ '\x7d' :: rest) := by
        cases v <;> try trivial
        intro _
        cases m
        · exact safe_rbrace
        · exact safe_comma
      obtain ⟨c0, T, hT, hws, _, _, _, _⟩ := jtext_head v hw2.2.1
      have hskip : skipJsonWs (jtext v ++ (jtextMembers m ++ '\x7d' :: rest))
          = jtext v ++ (jtextMembers m ++ '\x7d' :: rest) := by
        rw [hT, List.cons_append]
        exact skip_nonws hws
      rcases Pv hw2.2.1 f _ hnum with hn | hs
      · left
        rw [pom_step]
        simp only [hsb, skip_nonws (show jsonWs ':' = false from by decide), hskip, hn]
        simp
      · rw [pom_step]
        simp only [hsb, skip_nonws (show jsonWs ':' = false from by decide), hskip, hs]
        cases m with
        | mnil =>
          right
          show (match skipJsonWs ('\x7d' :: rest) with
                | [] => none
                | e :: rest5 =>
                  if e = ',' then
                    match parseObjMembers f (skipJsonWs rest5) with
                    | some (m2, r) => some (JMembers.mcons (String.mk k.data) v m2, r)
                    | none => none
                  else if e = '\x7d' then
                    some (JMembers.mcons (String.mk k.data) v JMembers.mnil, rest5)
                  else none) = some (JMembers.mcons k v JMembers.mnil, rest)
          rw [skip_nonws (by decide)]
          simp [smk_eta]
        | mcons k2 v2 t2 =>
          have hre : ('"' :: (k2.data ++ '"' :: ':' :: (jtext v2 ++ jtextMembers t2)))
                ++ '\x7d' :: rest
              = '"' :: (k2.data ++ '"' :: ':'
                :: (jtext v2 ++ (jtextMembers t2 ++ '\x7d' :: rest))) := by
            simp [List.append_assoc]
          have hskip2 : skipJsonWs (('"' :: (k2.data ++ '"' :: ':'
                :: (jtext v2 ++ jtextMembers t2))) ++ '\x7d' :: rest)
              = '"' :: (k2.data ++ '"' :: ':'
                :: (jtext v2 ++ (jtextMembers t2 ++ '\x7d' :: rest))) := by
            rw [hre]
            exact skip_nonws (by decide)
          rcases Rm hw2.2.2 f rest k2 v2 t2 rfl with hn2 | hs2
          · left
            show (match skipJsonWs (',' :: (('"' :: (k2.data ++ '"' :: ':'
                    :: (jtext v2 ++ jtextMembers t2))) ++ '\x7d' :: rest)) with
                  | [] => none
                  | e :: rest5 =>
                    if e = ',' then
                      match parseObjMembers f (skipJsonWs rest5) with
                      | some (m2, r) => some (JMembers.mcons (String.mk k.data) v m2, r)
                      | none => none
                    else if e = '\x7d' then
                      some (JMembers.mcons (String.mk k.data) v JMembers.mnil, rest5)
                    else none) = none
            rw [skip_nonws (by decide)]
            simp only [hskip2, hn2]
            simp
          · right
            show (match skipJsonWs (',' :: (('"' :: (k2.data ++ '"' :: ':'
                    :: (jtext v2 ++ jtextMembers t2))) ++ '\x7d' :: rest)) with
                  | [] => none
                  | e :: rest5 =>
                    if e = ',' then
                      match parseObjMembers f (skipJsonWs rest5) with
                      | some (m2, r) => some (JMembers.mcons (String.mk k.data) v m2, r)
                      | none => none
                    else if e = '\x7d' then
                      some (JMembers.mcons (String.mk k.data) v JMembers.mnil, rest5)
                    else none) = some (JMembers.mcons k v (JMembers.mcons k2 v2 t2), rest)
            rw [skip_nonws (by decide)]
            simp only [hskip2, hs2]
            simp [smk_eta]

theorem pv_str_none {f : Nat} {rest : List Char} (h : parseStringBody rest = none) :
    parseVal (f + 1) ('"' :: rest) = none := by
  show (match parseStringBody rest with
    | some (s, r) => some (JVal.jstr (String.mk s), r)
    | none => none) = none
  rw [h]

theorem cut_all :
    (∀ v, wfVal v = true → ∀ c, (c = '<' ∨ c = ' ') → ∀ A S, jtext v = A ++ c :: S →
        ∀ T, parseStringBody T = none → ∀ fuel, parseVal fuel (A ++ T) = none) ∧
    (∀ l, wfList l = true → ∀ h0 t0, l = JList.jcons h0 t0 → ∀ c, (c = '<' ∨ c = ' ') →
        ∀ A S, jtext h0 ++ jtextList t0 = A ++ c :: S →
        ∀ T, parseStringBody T = none → ∀ fuel, parseArrElems fuel (A ++ T) = none) ∧
    (∀ m, wfMembers m = true → ∀ k0 v0 t0, m = JMembers.mcons k0 v0 t0 →
        ∀ c, (c = '<' ∨ c = ' ') →
        ∀ A S, '"' :: (k0.data ++ '"' :: ':' :: (jtext v0 ++ jtextMembers t0)) = A ++ c :: S →
        ∀ T, parseStringBody T = none → ∀ fuel, parseObjMembers fuel (A ++ T) = none) := by
  refine jmut _ _ _ ?_ ?_ ?_ ?_ ?_ ?_ ?_ ?_ ?_ ?_
  case _ =>
    intro _ c hc A S hsp T hT fuel
    have hcm : c ∈ jtext JVal.jnull := by
      rw [hsp]
      exact List.mem_append_right _ (List.mem_cons_self _ _)
    rcases hc with rfl | rfl <;> exact absurd hcm (by decide)
  case _ =>
    intro b _ c hc A S hsp T hT fuel
    have hcm : c ∈ jtext (JVal.jbool b) := by
      rw [hsp]
      exact List.mem_append_right _ (List.mem_cons_self _ _)
    cases b <;> rcases hc with rfl | rfl <;> exact absurd hcm (by decide)
  case _ =>
    intro s hwf c hc A S hsp T hT fuel
    have hcm : c ∈ jtext (JVal.jnum s) := by
      rw [hsp]
      exact List.mem_append_right _ (List.mem_cons_self _ _)
    have hcm2 : c ∈ s.data := hcm
    have hw : wfNumLex s = true := hwf
    simp only [wfNumLex, Bool.or_eq_true] at hw
    rcases hw with ((hv | hn) | hi) | hni
    · have hcl := NUM_class (VN hv) c hcm2
      rcases hc with rfl | rfl <;> exact absurd hcl (by decide)
    · have hs : s = "NaN" := eq_of_beq hn
      subst hs
      rcases hc with rfl | rfl <;> exact absurd hcm2 (by decide)
    · have hs : s = "Infinity" := eq_of_beq hi
      subst hs
      rcases hc with rfl | rfl <;> exact absurd hcm2 (by decide)
    · have hs : s = "-Infinity" := eq_of_beq hni
      subst hs
      rcases hc with rfl | rfl <;> exact absurd hcm2 (by decide)
  case _ =>
    intro s hwf c hc A S hsp T hT
    have hcq : c ≠ '"' := by rcases hc with rfl | rfl <;> decide
    have hje : jtext (JVal.jstr s) = '"' :: (s.data ++ ['"']) := rfl
    rw [hje] at hsp
    rcases A with _ | ⟨a0, A1⟩
    · simp only [List.nil_append] at hsp
      have h1 : '"' = c := by injection hsp
      exact absurd h1.symm hcq
    · simp only [List.cons_append] at hsp
      injection hsp with h1 h2
      obtain ⟨S1, hS1, hsd⟩ := split_last h2 hcq
      intro fuel
      rcases fuel with _ | f
      · exact pv_fuel0
      · subst h1
        have hvs := VS (show validStrLexeme s = true from hwf)
        rw [hsd] at hvs
        have hnone := SB_cut hc A1.length A1 le_rfl S1 T hvs hT
        rw [show (('"' :: A1) ++ T) = '"' :: (A1 ++ T) from by simp]
        exact pv_str_none hnone
  case _ =>
    intro l Ql hwf c hc A S hsp T hT
    cases l with
    | jnil =>
      intro fuel
      have hcm : c ∈ jtext (JVal.jarr JList.jnil) := by
        rw [hsp]
        exact List.mem_append_right _ (List.mem_cons_self _ _)
      rcases hc with rfl | rfl <;> exact absurd hcm (by decide)
    | jcons h t =>
      have hcbr : c ≠ '[' := by rcases hc with rfl | rfl <;> decide
      have hcrb : c ≠ ']' := by rcases hc with rfl | rfl <;> decide
      have hje : jtext (JVal.jarr (JList.jcons h t)) = '[' :: (jtext h ++ jtextList t ++ [']']) := rfl
      rw [hje] at hsp
      rcases A with _ | ⟨a0, A1⟩
      · simp only [List.nil_append] at hsp
        have h1 : '[' = c := by injection hsp
        exact absurd h1.symm hcbr
      · simp only [List.cons_append] at hsp
        injection hsp with h1 h2
        obtain ⟨S1, hS1, hsd⟩ := split_last h2 hcrb
        have hw2 : wfVal h = true ∧ wfList t = true := by
          have : (wfVal h && wfList t) = true := hwf
          simpa [Bool.and_eq_true] using this
        obtain ⟨c0, T0j, hT0, hws0, hpw0, hnrb0, hnbc0, hlt0⟩ := jtext_head h hw2.1
        intro fuel
        rcases fuel with _ | f
        · exact pv_fuel0
        · subst h1
          rcases A1 with _ | ⟨q0, A2⟩
          · rw [hT0] at hsd
            simp only [List.nil_append, List.cons_append] at hsd
            have hce : c0 = c := by injection hsd
            rcases hc with rfl | rfl
            · exact absurd hce hlt0
            · rw [hce] at hpw0
              exact absurd hpw0 (by decide)
          · have hsd2 := hsd
            rw [hT0] at hsd2
            simp only [List.cons_append] at hsd2
            have hq0 : c0 = q0 := by injection hsd2
            have hq0ws : jsonWs q0 = false := hq0 ▸ hws0
            have hq0rb : q0 ≠ ']' := hq0 ▸ hnrb0
            rw [show (('[' :: q0 :: A2) ++ T) = '[' :: ((q0 :: A2) ++ T) from by simp]
            have hskip : skipJsonWs ((q0 :: A2) ++ T) = (q0 :: A2) ++ T := by
              rw [List.cons_append]
              exact skip_nonws hq0ws
            have hhead : headIs ']' (skipJsonWs ((q0 :: A2) ++ T)) = false := by
              rw [hskip, List.cons_append]
              exact headIs_ne hq0rb
            rw [pv_arr_cons hhead, hskip,
              Ql (show wfList (JList.jcons h t) = true from hwf) h t rfl c hc
                (q0 :: A2) S1 hsd T hT f]
  case _ =>
    intro m Rm hwf c hc A S hsp T hT
    cases m with
    | mnil =>
      intro fuel
      have hcm : c ∈ jtext (JVal.jobj JMembers.mnil) := by
        rw [hsp]
        exact List.mem_append_right _ (List.mem_cons_self _ _)
      rcases hc with rfl | rfl <;> exact absurd hcm (by decide)
    | mcons k v t =>
      have hcob : c ≠ '\x7b' := by rcases hc with rfl | rfl <;> decide
      have hccb : c ≠ '\x7d' := by rcases hc with rfl | rfl <;> decide
      have hcqq : c ≠ '"' := by rcases hc with rfl | rfl <;> decide
      have hje : jtext (JVal.jobj (JMembers.mcons k v t))
          = '\x7b' :: (('"' :: (k.data ++ '"' :: ':' :: (jtext v ++ jtextMembers t))) ++ ['\x7d']) := by
        show '\x7b' :: '"' :: (k.data ++ '"' :: ':' :: (jtext v ++ jtextMembers t ++ ['\x7d'])) = _
        simp
      rw [hje] at hsp
      rcases A with _ | ⟨a0, A1⟩
      · simp only [List.nil_append] at hsp
        have h1 : '\x7b' = c := by injection hsp
        exact absurd h1.symm hcob
      · injection hsp with h1 h2
        obtain ⟨S1, hS1, hsd⟩ := split_last h2 hccb
        intro fuel
        rcases fuel with _ | f
        · exact pv_fuel0
        · subst h1
          rcases A1 with _ | ⟨q0, A2⟩
          · simp only [List.nil_append] at hsd
            have hce : '"' = c := by injection hsd
            exact absurd hce.symm hcqq
          · have hsd2 := hsd
            simp only [List.cons_append] at hsd2
            have hq0 : '"' = q0 := by injection hsd2
            subst hq0
            rw [show (('\x7b' :: '"' :: A2) ++ T) = '\x7b' :: (('"' :: A2) ++ T) from by simp]
            have hskip : skipJsonWs (('"' :: A2) ++ T) = ('"' :: A2) ++ T := by
              rw [List.cons_append]
              exact skip_nonws (by decide)
            have hhead : headIs '\x7d' (skipJsonWs (('"' :: A2) ++ T)) = false := by
              rw [hskip, List.cons_append]
              exact headIs_ne (by decide)
            rw [pv_obj_cons hhead, hskip,
              Rm (show wfMembers (JMembers.mcons k v t) = true from hwf) k v t rfl c hc
                ('"' :: A2) S1 hsd T hT f]
  case _ =>
    intro _ h0 t0 heq
    cases heq
  case _ =>
    intro v l Pv Ql hwf h0 t0 heq c hc A S hsp T hT
    have he1 : v = h0 := by injection heq
    have he2 : l = t0 := by injection heq
    subst he1
    subst he2
    have hw2 : wfVal v = true ∧ wfList l = true := by
      have : (wfVal v && wfList l) = true := hwf
      simpa [Bool.and_eq_true] using this
    have hccom : c ≠ ',' := by rcases hc with rfl | rfl <;> decide
    rcases List.append_eq_append_iff.mp hsp with ⟨as, has1, has2⟩ | ⟨cs2, hcs1, hcs2⟩
    · -- cut in the tail of the element list
      cases l with
      | jnil =>
        have h0 : ([] : List Char) = as ++ c :: S := has2
        rcases as with _ | ⟨x, xs⟩ <;> simp at h0
      | jcons h2 t2 =>
        have hjl : jtextList (JList.jcons h2 t2) = ',' :: (jtext h2 ++ jtextList t2) := rfl
        rw [hjl] at has2
        rcases as with _ | ⟨a0, as1⟩
        · simp only [List.nil_append] at has2
          have h1 : ',' = c := by injection has2
          exact absurd h1.symm hccom
        · simp only [List.cons_append] at has2
          injection has2 with hb1 hb2
          have hw3 : wfVal h2 = true ∧ wfList t2 = true := by
            have : (wfVal h2 && wfList t2) = true := hw2.2
            simpa [Bool.and_eq_true] using this
          obtain ⟨c0, T0j, hT0, hws0, hpw0, _, _, hlt0⟩ := jtext_head h2 hw3.1
          rcases as1 with _ | ⟨b0, as2⟩
          · rw [hT0] at hb2
            simp only [List.nil_append, List.cons_append] at hb2
            have hce : c0 = c := by injection hb2
            rcases hc with rfl | rfl
            · exact absurd hce hlt0
            · rw [hce] at hpw0
              exact absurd hpw0 (by decide)
          · have hb3 := hb2
            rw [hT0] at hb3
            simp only [List.cons_append] at hb3
            have hq0 : c0 = b0 := by injection hb3
            have hb0ws : jsonWs b0 = false := hq0 ▸ hws0
            intro fuel
            rcases fuel with _ | f
            · exact rfl
            · subst has1
              subst hb1
              have hre : (jtext v ++ ',' :: (b0 :: as2)) ++ T
                  = jtext v ++ (',' :: ((b0 :: as2) ++ T)) := by simp
              rw [hre, pae_step]
              have hnum : numOk v (',' :: ((b0 :: as2) ++ T)) := by
                cases v <;> try trivial
                intro _
                exact safe_comma
              rcases splice_weak.1 v hw2.1 f (',' :: ((b0 :: as2) ++ T)) hnum with hn | hs
              · rw [hn]
              · rw [hs]
                show (match skipJsonWs (',' :: ((b0 :: as2) ++ T)) with
                      | [] => none
                      | c2 :: rest2 =>
                        if c2 = ',' then
                          match parseArrElems f (skipJsonWs rest2) with
                          | some (l2, r) => some (JList.jcons v l2, r)
                          | none => none
                        else if c2 = ']' then some (JList.jcons v JList.jnil, rest2)
                        else none) = none
                rw [skip_nonws (by decide)]
                have hskip2 : skipJsonWs ((b0 :: as2) ++ T) = (b0 :: as2) ++ T := by
                  rw [List.cons_append]
                  exact skip_nonws hb0ws
                have hql := Ql hw2.2 h2 t2 rfl c hc (b0 :: as2) S hb2 T hT f
                simp only [hskip2, hql]
                simp
    · -- boundary or cut inside the head element
      rcases cs2 with _ | ⟨c2, S2⟩
      · simp only [List.append_nil] at hcs1
        cases l with
        | jnil =>
          have h0 : (c :: S : List Char) = ([] : List Char) := hcs2
          simp at h0
        | jcons h2 t2 =>
          have h0 : (c :: S : List Char) = ',' :: (jtext h2 ++ jtextList t2) := hcs2
          have h1 : c = ',' := by injection h0
          exact absurd h1 hccom
      · simp only [List.cons_append] at hcs2
        injection hcs2 with hd1 hd2
        subst hd1
        intro fuel
        rcases fuel with _ | f
        · exact rfl
        · rw [pae_step, Pv hw2.1 c hc A S2 hcs1 T hT f]
  case _ =>
    intro _ k0 v0 t0 heq
    cases heq
  case _ =>
    intro k v m Pv Rm hwf k0 v0 t0 heq c hc A S hsp T hT
    have he1 : k = k0 := by injection heq
    have he2 : v = v0 := by injection heq
    have he3 : m = t0 := by injection heq
    subst he1
    subst he2
    subst he3
    have hw2 : validStrLexeme k = true ∧ wfVal v = true ∧ wfMembers m = true := by
      have : (validStrLexeme k && wfVal v && wfMembers m) = true := hwf
      simpa [Bool.and_eq_true, and_assoc] using this
    have hcqq : c ≠ '"' := by rcases hc with rfl | rfl <;> decide
    have hccol : c ≠ ':' := by rcases hc with rfl | rfl <;> decide
    have hccom : c ≠ ',' := by rcases hc with rfl | rfl <;> decide
    rcases A with _ | ⟨a0, A1⟩
    · simp only [List.nil_append] at hsp
      have h1 : '"' = c := by injection hsp
      exact absurd h1.symm hcqq
    · simp only [List.cons_append] at hsp
      injection hsp with h1 h2
      subst h1
      rcases List.append_eq_append_iff.mp h2 with ⟨as, has1, has2⟩ | ⟨cs2, hcs1, hcs2⟩
      · -- cut after the key
        rcases as with _ | ⟨b0, as1⟩
        · simp only [List.nil_append] at has2
          have h3 : '"' = c := by injection has2
          exact absurd h3.symm hcqq
        · simp only [List.cons_append] at has2
          injection has2 with hb1 hb2
          rcases as1 with _ | ⟨d0, as2⟩
          · simp only [List.nil_append] at hb2
            have h3 : ':' = c := by injection hb2
            exact absurd h3.symm hccol
          · simp only [List.cons_append] at hb2
            injection hb2 with he1 he2
            subst hb1
            subst he1
            subst has1
            intro fuel
            rcases fuel with _ | f
            · exact rfl
            · have hre : ('"' :: (k.data ++ '"' :: ':' :: as2)) ++ T
                  = '"' :: (k.data ++ '"' :: ':' :: (as2 ++ T)) := by simp
              rw [hre, pom_step]
              have hsb : parseStringBody (k.data ++ '"' :: ':' :: (as2 ++ T))
                  = some (k.data, ':' :: (as2 ++ T)) := SB_valid_append hw2.1
              rcases List.append_eq_append_iff.mp he2 with ⟨bs, hbs1, hbs2⟩ | ⟨ds, hds1, hds2⟩
              · -- cut in the member tail
                cases m with
                | mnil =>
                  have h0 : ([] : List Char) = bs ++ c :: S := hbs2
                  rcases bs with _ | ⟨x, xs⟩ <;> simp at h0
                | mcons k2 v2 t2 =>
                  have hjm : jtextMembers (JMembers.mcons k2 v2 t2)
                      = ',' :: '"' :: (k2.data ++ '"' :: ':' :: (jtext v2 ++ jtextMembers t2)) := rfl
                  rw [hjm] at hbs2
                  rcases bs with _ | ⟨e0, bs1⟩
                  · simp only [List.nil_append] at hbs2
                    have h3 : ',' = c := by injection hbs2
                    exact absurd h3.symm hccom
                  · simp only [List.cons_append] at hbs2
                    injection hbs2 with hf1 hf2
                    rcases bs1 with _ | ⟨g0, bs2⟩
                    · simp only [List.nil_append] at hf2
                      have h3 : '"' = c := by injection hf2
                      exact absurd h3.symm hcqq
                    · simp only [List.cons_append] at hf2
                      injection hf2 with hg1 hg2
                      subst hf1
                      subst hg1
                      subst hbs1
                      obtain ⟨c0, T0j, hT0, hws0, _, _, _, _⟩ := jtext_head v hw2.2.1
                      have hre2 : (jtext v ++ ',' :: '"' :: bs2) ++ T
                          = jtext v ++ (',' :: '"' :: (bs2 ++ T)) := by simp
                      have hskipv : skipJsonWs ((jtext v ++ ',' :: '"' :: bs2) ++ T)
                          = jtext v ++ (',' :: '"' :: (bs2 ++ T)) := by
                        rw [hre2, hT0, List.cons_append]
                        exact skip_nonws hws0
                      have hnum : numOk v (',' :: '"' :: (bs2 ++ T)) := by
                        cases v <;> try trivial
                        intro _
                        exact safe_comma
                      have hf2' : '"' :: (k2.data ++ '"' :: ':' :: (jtext v2 ++ jtextMembers t2))
                          = ('"' :: bs2) ++ c :: S := by
                        rw [List.cons_append, hg2]
                      have hrm := Rm hw2.2.2 k2 v2 t2 rfl c hc ('"' :: bs2) S hf2' T hT f
                      rcases splice_weak.1 v hw2.2.1 f (',' :: '"' :: (bs2 ++ T)) hnum
                          with hn | hs
                      · simp only [hsb, skip_nonws (show jsonWs ':' = false from by decide),
                          hskipv, hn]
                        simp
                      · simp only [hsb, skip_nonws (show jsonWs ':' = false from by decide),
                          hskipv, hs]
                        show (match skipJsonWs (',' :: '"' :: (bs2 ++ T)) with
                              | [] => none
                              | e :: rest5 =>
                                if e = ',' then
                                  match parseObjMembers f (skipJsonWs rest5) with
                                  | some (m2, r) => some (JMembers.mcons (String.mk k.data) v m2, r)
                                  | none => none
                                else if e = '\x7d' then
                                  some (JMembers.mcons (String.mk k.data) v JMembers.mnil, rest5)
                                else none) = none
                        rw [skip_nonws (by decide)]
                        have hskipq : skipJsonWs ('"' :: (bs2 ++ T)) = '"' :: (bs2 ++ T) :=
                          skip_nonws (by decide)
                        have hrm2 : parseObjMembers f ('"' :: (bs2 ++ T)) = none := by
                          have := hrm
                          rw [show ('"' :: bs2) ++ T = '"' :: (bs2 ++ T) from by simp] at this
                          exact this
                        simp only [hskipq, hrm2]
                        simp
              · -- boundary or cut inside the value
                rcases ds with _ | ⟨d1, ds1⟩
                · simp only [List.append_nil] at hds1
                  cases m with
                  | mnil =>
                    have h0 : (c :: S : List Char) = ([] : List Char) := hds2
                    simp at h0
                  | mcons k2 v2 t2 =>
                    have h0 : (c :: S : List Char)
                        = ',' :: '"' :: (k2.data ++ '"' :: ':' :: (jtext v2 ++ jtextMembers t2)) :=
                      hds2
                    have h1 : c = ',' := by injection h0
                    exact absurd h1 hccom
                · simp only [List.cons_append] at hds2
                  injection hds2 with hh1 hh2
                  subst hh1
                  -- hds1 : jtext v = as2 ++ c :: ds1 : cut inside the value
                  have hpvn := Pv hw2.2.1 c hc as2 ds1 hds1 T hT f
                  rcases as2 with _ | ⟨q0, as3⟩
                  · obtain ⟨c0, T0j, hT0, hws0, hpw0, _, _, hlt0⟩ := jtext_head v hw2.2.1
                    rw [hT0] at hds1
                    simp only [List.nil_append] at hds1
                    have hce : c0 = c := by injection hds1
                    rcases hc with rfl | rfl
                    · exact absurd hce hlt0
                    · rw [hce] at hpw0
                      exact absurd hpw0 (by decide)
                  · obtain ⟨c0, T0j, hT0, hws0, _, _, _, _⟩ := jtext_head v hw2.2.1
                    have hds1b := hds1
                    rw [hT0] at hds1b
                    simp only [List.cons_append] at hds1b
                    have hq0 : c0 = q0 := by injection hds1b
                    have hskipq : skipJsonWs ((q0 :: as3) ++ T) = (q0 :: as3) ++ T := by
                      rw [List.cons_append]
                      exact skip_nonws (hq0 ▸ hws0)
                    simp only [hsb, skip_nonws (show jsonWs ':' = false from by decide),
                      hskipq, hpvn]
                    simp
      · -- cut inside the key
        rcases cs2 with _ | ⟨c2, S2⟩
        · simp only [List.nil_append] at hcs2
          have h3 : c = '"' := by injection hcs2
          exact absurd h3 hcqq
        · simp only [List.cons_append] at hcs2
          injection hcs2 with hd1 hd2
          subst hd1
          intro fuel
          rcases fuel with _ | f
          · exact rfl
          · have hvs := VS hw2.1
            rw [hcs1] at hvs
            have hnone := SB_cut hc A1.length A1 le_rfl S2 T hvs hT
            rw [show (('"' :: A1) ++ T) = '"' :: (A1 ++ T) from by simp, pom_step]
            simp [hnone]

theorem stripEnd_spec (X : List Char) :
    ∃ R, X = (X.reverse.dropWhile isPyWs).reverse ++ R ∧ ∀ c ∈ R, isPyWs c = true := by
  refine ⟨(X.reverse.takeWhile isPyWs).reverse, ?_, ?_⟩
  · have h := List.takeWhile_append_dropWhile isPyWs X.reverse
    have h2 := congrArg List.reverse h
    rw [List.reverse_append, List.reverse_reverse] at h2
    exact h2.symm
  · intro c hc
    exact List.mem_takeWhile_imp (List.mem_reverse.mp hc)

theorem stripEnd_allws {A B : List Char} (h : ∀ c ∈ B, isPyWs c = true) :
    ((A ++ B).reverse.dropWhile isPyWs).reverse = (A.reverse.dropWhile isPyWs).reverse := by
  rw [List.reverse_append, List.dropWhile_append]
  have hBe : B.reverse.dropWhile isPyWs = [] :=
    List.dropWhile_eq_nil_iff.mpr (fun a ha => h a (List.mem_reverse.mp ha))
  rw [hBe]
  simp

theorem stripEnd_append_ne {A B : List Char} (h : (B.reverse.dropWhile isPyWs).reverse ≠ []) :
    ((A ++ B).reverse.dropWhile isPyWs).reverse
      = A ++ (B.reverse.dropWhile isPyWs).reverse := by
  have hne : (B.reverse.dropWhile isPyWs).isEmpty = false := by
    rcases hdw : B.reverse.dropWhile isPyWs with _ | ⟨d, D⟩
    · rw [hdw] at h
      simp at h
    · simp
  rw [List.reverse_append, List.dropWhile_append, hne]
  simp

theorem stripEnd_ne_of_mem {B : List Char} (h : ∃ c ∈ B, isPyWs c = false) :
    (B.reverse.dropWhile isPyWs).reverse ≠ [] := by
  intro h0
  obtain ⟨R, hR, hws⟩ := stripEnd_spec B
  rw [h0, List.nil_append] at hR
  obtain ⟨c, hcB, hcw⟩ := h
  rw [hR] at hcB
  rw [hws c hcB] at hcw
  cases hcw

theorem stripEnd_nl_head {W : List Char} (h : (('\n' :: W).reverse.dropWhile isPyWs).reverse ≠ []) :
    ∃ W2, (('\n' :: W).reverse.dropWhile isPyWs).reverse = '\n' :: W2 := by
  obtain ⟨R, hR, hws⟩ := stripEnd_spec ('\n' :: W)
  rcases hdw : (('\n' :: W).reverse.dropWhile isPyWs).reverse with _ | ⟨d, D⟩
  · exact absurd hdw h
  · rw [hdw] at hR
    simp only [List.cons_append] at hR
    have hd : '\n' = d := by injection hR
    exact ⟨D, by rw [← hd]⟩

theorem cut_loads {l : JList} (hwf : wfVal (JVal.jarr l) = true) {c : Char}
    (hc : c = '<' ∨ c = ' ') {A S : List Char}
    (hsp : jtext (JVal.jarr l) = A ++ c :: S) {T : List Char}
    (hT : parseStringBody T = none) :
    loadsChars (A ++ T) = none := by
  obtain ⟨M, hM⟩ := jarr_shape l
  rcases A with _ | ⟨a0, A1⟩
  · rw [hM] at hsp
    simp only [List.nil_append] at hsp
    have h1 : '[' = c := by injection hsp
    rcases hc with rfl | rfl <;> exact absurd h1 (by decide)
  · have ha0 : a0 = '[' := by
      rw [hM] at hsp
      simp only [List.cons_append] at hsp
      have h1 : '[' = a0 := by injection hsp
      exact h1.symm
    subst ha0
    unfold loadsChars
    rw [show skipJsonWs (('[' :: A1) ++ T) = ('[' :: A1) ++ T from by
      rw [List.cons_append]
      exact skip_nonws (by decide)]
    rw [cut_all.1 (JVal.jarr l) hwf c hc ('[' :: A1) S hsp T hT _]

theorem stripEndA_cut {l : JList} (hwf : wfVal (JVal.jarr l) = true) {A S : List Char}
    (hsp : jtext (JVal.jarr l) = A ++ '<' :: S) :
    loadsChars ((A.reverse.dropWhile isPyWs).reverse) = none := by
  obtain ⟨R, hR, hws⟩ := stripEnd_spec A
  rcases R with _ | ⟨r0, R1⟩
  · have hA : A = (A.reverse.dropWhile isPyWs).reverse := by simpa using hR
    have h := cut_loads hwf (Or.inl rfl) (show jtext (JVal.jarr l)
        = (A.reverse.dropWhile isPyWs).reverse ++ '<' :: S from by rw [← hA]; exact hsp)
      (show parseStringBody [] = none from rfl)
    simpa using h
  · have hsp2 : jtext (JVal.jarr l)
        = (A.reverse.dropWhile isPyWs).reverse ++ r0 :: (R1 ++ '<' :: S) := by
      rw [hsp]
      conv_lhs => rw [hR]
      simp only [List.append_assoc, List.cons_append]
    have hr0m : r0 ∈ jtext (JVal.jarr l) := by
      rw [hsp2]
      exact List.mem_append_right _ (List.mem_cons_self _ _)
    have hr0 : r0 = ' ' := jtext_pyws.1 _ hwf r0 hr0m (hws r0 (by simp))
    have h := cut_loads hwf (Or.inr hr0) hsp2 (show parseStringBody [] = none from rfl)
    simpa using h

theorem stage2_cut {l : JList} (hwf : wfVal (JVal.jarr l) = true) {A S T0 : List Char}
    (hsp : jtext (JVal.jarr l) = A ++ '<' :: S)
    (hT0 : T0 = [] ∨ ∃ W, T0 = '\n' :: W) :
    loadsChars (stripChars (A ++ T0)) = none := by
  obtain ⟨M, hM⟩ := jarr_shape l
  rcases A with _ | ⟨a0, A1⟩
  · rw [hM] at hsp
    simp only [List.nil_append] at hsp
    have h1 : '[' = '<' := by injection hsp
    exact absurd h1 (by decide)
  · have ha0 : a0 = '[' := by
      rw [hM] at hsp
      simp only [List.cons_append] at hsp
      have h1 : '[' = a0 := by injection hsp
      exact h1.symm
    subst ha0
    have hfront : stripChars (('[' :: A1) ++ T0)
        = (((('[' :: A1) ++ T0).reverse.dropWhile isPyWs).reverse) := by
      unfold stripChars
      rw [List.cons_append,
        List.dropWhile_cons_of_neg (show ¬(isPyWs '[' = true) from by decide),
        ← List.cons_append]
    rw [hfront]
    rcases hT0 with rfl | ⟨W, rfl⟩
    · rw [List.append_nil]
      exact stripEndA_cut hwf hsp
    · by_cases hall : ∀ x ∈ ('\n' :: W), isPyWs x = true
      · rw [stripEnd_allws hall]
        exact stripEndA_cut hwf hsp
      · have hex : ∃ x ∈ ('\n' :: W), isPyWs x = false := by
          by_contra h2
          apply hall
          intro x hx
          rcases hb : isPyWs x with _ | _
          · exact absurd ⟨x, hx, hb⟩ h2
          · rfl
        have hne := stripEnd_ne_of_mem hex
        rw [stripEnd_append_ne hne]
        obtain ⟨W2, hW2⟩ := stripEnd_nl_head hne
        rw [hW2]
        exact cut_loads hwf (Or.inl rfl) hsp
          (show parseStringBody ('\n' :: W2) = none from by
            rw [parseStringBody.eq_def]
            simp)

theorem extract_eq (w : List Char) :
    extract_json_from_content (String.mk w)
      = (match loadsChars w with
         | some v => some v
         | none =>
           match (if "<html".data.isPrefixOf (stripChars w)
                    || "<!DOCTYPE".data.isPrefixOf (stripChars w) then
                  loadsChars (stripChars (p2 (p1 w)))
                else none) with
           | some v => some v
           | none => fallbackExtract w) := rfl

/-- C5 (amended): for every well-formed JSON array value, rendered in its
canonical text, embedded in arbitrary wrapping HTML tags whose bodies are
nonempty, `>`-free and contain no bracket characters,
`extract_json_from_content` applied to the wrapped text recovers exactly
the parsed structure of the array text.  String values of the array may
contain `<` (embedded HTML markup); only the bracket-free restriction on
the tag bodies is needed. -/
theorem C5_roundtrip_amended (l : JList) (opens closes : List (List Char))
    (hwf : wfVal (JVal.jarr l) = true)
    (hopens : ∀ t ∈ opens, validTagBody t = true ∧ bracketFree t = true)
    (hcloses : ∀ t ∈ closes, validTagBody t = true ∧ bracketFree t = true) :
    extract_json_from_content (String.mk (wrapHtml opens closes (jtext (JVal.jarr l))))
      = some (JVal.jarr l) := by
  obtain ⟨M, hM⟩ := jarr_shape l
  have hnl : ∀ c ∈ jtext (JVal.jarr l), c ≠ '\n' := jtext_no_nl hwf
  have hwW : wrapHtml opens closes (jtext (JVal.jarr l))
      = renderOpenTags opens ++ (jtext (JVal.jarr l) ++ renderCloseTags closes) := by
    unfold wrapHtml
    rw [List.append_assoc]
  obtain ⟨X, hX⟩ := p1_wrap_nl (fun t ht => (hopens t ht).1) hnl hM (by decide)
  have hstage2 : loadsChars (stripChars (p2 (p1 (renderOpenTags opens
        ++ (jtext (JVal.jarr l) ++ renderCloseTags closes)))))
        = some (JVal.jarr l)
      ∨ loadsChars (stripChars (p2 (p1 (renderOpenTags opens
        ++ (jtext (JVal.jarr l) ++ renderCloseTags closes))))) = none := by
    rw [hX]
    rcases p2Aux_cutpass (jtext (JVal.jarr l)) ((jtext (JVal.jarr l) ++ X).length) X
        with ⟨Y, hY⟩ | ⟨P, S, T0, hPS, hres, hT0⟩
    · have hY2 : p2 (jtext (JVal.jarr l) ++ X) = jtext (JVal.jarr l) ++ Y := hY
      rw [hY2, hM, strip_jtext_ext M Y, ← hM]
      by_cases hZe : (Y.reverse.dropWhile isPyWs).reverse = []
      · left
        rw [hZe, loads_jtext_ext hwf []]
        rfl
      · right
        rw [loads_jtext_ext hwf _]
        rw [stripEnd_skip_ne hZe]
        rfl
    · right
      have hres2 : p2 (jtext (JVal.jarr l) ++ X) = P ++ T0 := hres
      rw [hres2]
      exact stage2_cut hwf hPS hT0
  have hfb : fallbackExtract (renderOpenTags opens
      ++ (jtext (JVal.jarr l) ++ renderCloseTags closes)) = some (JVal.jarr l) :=
    fallback_wrap M hM hwf (fun t ht => (hopens t ht).2) (fun t ht => (hcloses t ht).2)
  have hstage1 : loadsChars (renderOpenTags opens
        ++ (jtext (JVal.jarr l) ++ renderCloseTags closes)) = some (JVal.jarr l)
      ∨ loadsChars (renderOpenTags opens
        ++ (jtext (JVal.jarr l) ++ renderCloseTags closes)) = none := by
    cases opens with
    | cons o os =>
      right
      rw [renderOpen_cons, List.cons_append]
      exact loadsChars_lt
    | nil =>
      cases closes with
      | nil =>
        left
        show loadsChars (jtext (JVal.jarr l) ++ renderCloseTags []) = _
        rw [loads_jtext_ext hwf _]
        rfl
      | cons t ts =>
        right
        show loadsChars (jtext (JVal.jarr l) ++ renderCloseTags (t :: ts)) = _
        rw [loads_jtext_ext hwf _, renderClose_cons, skip_nonws (by decide)]
        rfl
  rw [hwW, extract_eq]
  rcases hstage1 with hs1 | hs1
  · rw [hs1]
  · rw [hs1]
    rcases hmk : ("<html".data.isPrefixOf (stripChars (renderOpenTags opens
          ++ (jtext (JVal.jarr l) ++ renderCloseTags closes)))
        || "<!DOCTYPE".data.isPrefixOf (stripChars (renderOpenTags opens
          ++ (jtext (JVal.jarr l) ++ renderCloseTags closes)))) with _ | _
    · rw [if_neg (show ¬(false = true) from by simp)]
      rw [hfb]
    · rw [if_pos (show (true = true) from rfl)]
      rcases hstage2 with hs2 | hs2
      · rw [hs2]
      · rw [hs2, hfb]


/-- C2: `extract_json_from_content` attempts, in order, (1) a direct JSON
parse, (2) — only when the stripped content starts with `<html` or
`<!DOCTYPE` — a re-parse of the content after stripping leading tag runs
(first regex) and trailing closing-tag runs (second regex) plus
whitespace, and (3) the manual first-bracket/last-bracket span
extraction; the first attempt that succeeds determines the result, and
when the first two attempts fail the result is exactly that of the
fallback (`none` — the `ValueError` exit — when it too fails). -/
theorem C2_extract_staged (content : String) :
    (∀ v, loads content = some v → extract_json_from_content content = some v) ∧
    (loads content = none →
      ("<html".data.isPrefixOf (stripChars content.data)
          || "<!DOCTYPE".data.isPrefixOf (stripChars content.data)) = true →
      ∀ v, loadsChars (stripChars (p2 (p1 content.data))) = some v →
        extract_json_from_content content = some v) ∧
    (loads content = none →
      (("<html".data.isPrefixOf (stripChars content.data)
          || "<!DOCTYPE".data.isPrefixOf (stripChars content.data)) = false ∨
        loadsChars (stripChars (p2 (p1 content.data))) = none) →
      extract_json_from_content content = fallbackExtract content.data) := by
  refine ⟨?_, ?_, ?_⟩
  · intro v hv
    simp only [extract_json_from_content]
    rw [hv]
  · intro h0 hm v hv
    simp only [extract_json_from_content]
    rw [h0, hm]
    simp only [if_true, hv]
  · intro h0 hd
    simp only [extract_json_from_content]
    rw [h0]
    rcases hd with hm | hv
    · rw [hm]
      simp only [Bool.false_eq_true, if_false]
    · rcases hb : ("<html".data.isPrefixOf (stripChars content.data)
          || "<!DOCTYPE".data.isPrefixOf (stripChars content.data)) with _ | _
      · simp only [Bool.false_eq_true, if_false]
      · simp only [if_true, hv]

/-- Witness for C2 at a concrete input: content with no parseable
payload fails the direct parse, has no HTML marker, and ends at the
failing fallback, so extraction yields nothing. -/
theorem C2_extract_staged_witness :
    loads "no json here" = none ∧
    ("<html".data.isPrefixOf (stripChars "no json here".data)
        || "<!DOCTYPE".data.isPrefixOf (stripChars "no json here".data)) = false ∧
    fallbackExtract "no json here".data = none ∧
    extract_json_from_content "no json here" = none := by
  refine ⟨rfl, rfl, rfl, ?_⟩
  have h := (C2_extract_staged "no json here").2.2 rfl (Or.inl rfl)
  rw [h]
  rfl

/-- C5 counterexample: the JSON array text `[1]` wrapped in the single
opening tag `<div x="{">` and closing tag `</div>` — a legal HTML
wrapper — extracts to nothing rather than to the array: the brace inside
the opening tag's attribute precedes the array opener, so the fallback
takes the object branch and finds no closing brace. -/
theorem C5_roundtrip_counterexample :
    validTagBody "div x=\"\x7b\"".data = true ∧
    validTagBody "div".data = true ∧
    wfVal (JVal.jarr (JList.jcons (JVal.jnum "1") JList.jnil)) = true ∧
    String.mk (wrapHtml ["div x=\"\x7b\"".data] ["div".data]
        (jtext (JVal.jarr (JList.jcons (JVal.jnum "1") JList.jnil))))
      = "<div x=\"\x7b\">[1]</div>" ∧
    loads (String.mk (jtext (JVal.jarr (JList.jcons (JVal.jnum "1") JList.jnil))))
      = some (JVal.jarr (JList.jcons (JVal.jnum "1") JList.jnil)) ∧
    extract_json_from_content "<div x=\"\x7b\">[1]</div>" = none :=
  ⟨rfl, rfl, rfl, rfl, rfl, rfl⟩

/-- Witness for C5 (amended) at a concrete input: the array text
`["<p>hi</p>"]`, whose string value contains HTML markup, wrapped in
`<html>` tags extracts back to the parsed array. -/
theorem C5_roundtrip_amended_witness :
    String.mk (wrapHtml ["html".data] ["html".data]
        (jtext (JVal.jarr (JList.jcons (JVal.jstr "<p>hi</p>") JList.jnil))))
      = "<html>[\"<p>hi</p>\"]</html>" ∧
    extract_json_from_content "<html>[\"<p>hi</p>\"]</html>"
      = some (JVal.jarr (JList.jcons (JVal.jstr "<p>hi</p>") JList.jnil)) := by
  constructor
  · rfl
  · have h := C5_roundtrip_amended (JList.jcons (JVal.jstr "<p>hi</p>") JList.jnil)
      ["html".data] ["html".data] (by decide) (by decide) (by decide)
    rw [show ("<html>[\"<p>hi</p>\"]</html>" : String)
        = String.mk (wrapHtml ["html".data] ["html".data]
          (jtext (JVal.jarr (JList.jcons (JVal.jstr "<p>hi</p>") JList.jnil)))) from rfl]
    exact h

end WordpressJson
